import Mathlib

/-!
# Square matrix over manually managed storage (`src/21.cpp`)

A shallow embedding of the class template `Matrix<T>` of `src/21.cpp`: the
constructor `Matrix(size_t, const T&)`, its guarded variant, the destructor,
the field-wise and the deep-copy constructor, copy-and-swap assignment,
element access and `operator +=`; of the class `MyInteger`; of the `main`
functions of lines 83-86 and 194-210; and of `vec_intersection`.

The free store is explicit.  An address is the index of a block in `Heap.mem`;
`new[]` appends a block, `delete[]` records the address in `Heap.freed` and
leaves the bytes where they are.  A block is live when it has been allocated
and never released.  Using a block that is not live is undefined behaviour:
`Matrix.destroy` is the destructor with that rule enforced, and on a valid
matrix it does what the plain `Matrix.dtor` does.

An element of an array is an `Option T`: `none` is an indeterminate value
(what `new T[N]` leaves behind for a scalar `T` such as `int`).

The element type is known to the template only through its operations, which
may throw.  They are collected in `Env`: every operation acts on a piece of
global state `σ` (for instance the static counter of `MyInteger`) and
either completes or throws.

Accesses outside the contract (an index out of range, a pointer that was never
set) are undefined in C++; here they are total: such a read gives `none`, a
write or a release through such a pointer does nothing.  The theorems about
valid matrices stay within the contract.  Sizes and indices are natural
numbers: the code only compares them and counts up to `N`, so nothing wraps.
-/

namespace Lec21

/-- Exceptions that can travel through the matrix code. -/
inductive Exn where
  /-- The exception `std::bad_alloc` of `operator new[]`. -/
  | badAlloc
  /-- A thrown `int`, as in `throw 42` of `MyInteger`. -/
  | thrownInt (v : Int)
  /-- The exception `DifferentSizeException{N1, N2}`. -/
  | differentSize (N1 N2 : Nat)
  /-- The exception `ZeroDeterminantException`. -/
  | zeroDeterminant
deriving DecidableEq, Repr

/-- One allocation made by `new[]`: an array of elements (`new T [N]`) or an
array of row pointers (`new T * [N]`).  `none` is an indeterminate entry. -/
inductive Block (T : Type) where
  | elems (cells : List (Option T))
  | ptrs (rows : List (Option Nat))
deriving DecidableEq, Repr

/-- The free store: every block ever allocated, by address, and the log of the
addresses handed to `delete[]`, most recent first. -/
structure Heap (T : Type) where
  mem : List (Block T)
  freed : List Nat
deriving DecidableEq, Repr

/-- What the template knows of its element type `T` and of the allocator. -/
structure Env (T σ : Type) where
  /-- Obtaining raw storage in `operator new[]`; may throw. -/
  alloc : σ → σ × Option Exn
  /-- The default constructor of `T`, run on each element by `new T [N]`. -/
  ctor : σ → σ × Option Exn
  /-- The value of a default-initialised element; `none` when `T` is a scalar
  type, whose default-initialisation leaves the value indeterminate. -/
  dinit : Option T
  /-- The value of the expression `T()`. -/
  dflt : T
  /-- The copy assignment of `T`; the value stored is the one assigned. -/
  assign : σ → σ × Option Exn

/-- Program state: the free store and the global state of the element type. -/
structure World (T σ : Type) where
  heap : Heap T
  st : σ

/-- The fields of a `Matrix<T>` object: `N` and the pointer `Data`. -/
structure Matrix where
  N : Nat
  Data : Nat
deriving DecidableEq, Repr

namespace Heap

variable {T : Type}

/-- The address the next `new[]` returns. -/
def fresh (h : Heap T) : Nat := h.mem.length

/-- Result of `new[]`: block `b` is placed at `h.fresh`. -/
def alloc (h : Heap T) (b : Block T) : Heap T := ⟨h.mem ++ [b], h.freed⟩

/-- Result of `delete [] a`. -/
def release (h : Heap T) (a : Nat) : Heap T := ⟨h.mem, a :: h.freed⟩

/-- Result of `delete [] p` for a pointer value read from memory. -/
def releasePtr (h : Heap T) : Option Nat → Heap T
  | some a => h.release a
  | none => h

/-- Block `a` has been allocated and not released. -/
def live (h : Heap T) (a : Nat) : Prop := a < h.mem.length ∧ a ∉ h.freed

instance (h : Heap T) (a : Nat) : Decidable (h.live a) := by
  unfold live; infer_instance

/-- The pointer `p[i]` of the pointer array at `p`. -/
def ptrAt (h : Heap T) (p i : Nat) : Option Nat :=
  match h.mem[p]? with
  | some (.ptrs l) => (l[i]?).join
  | _ => none

/-- The element `r[j]` of the element array at `r`. -/
def cellAt (h : Heap T) (r j : Nat) : Option T :=
  match h.mem[r]? with
  | some (.elems l) => (l[j]?).join
  | _ => none

/-- Length of the pointer array at `p`, if there is one. -/
def ptrLen (h : Heap T) (p : Nat) : Option Nat :=
  match h.mem[p]? with
  | some (.ptrs l) => some l.length
  | _ => none

/-- Length of the element array at `r`, if there is one. -/
def rowLen (h : Heap T) (r : Nat) : Option Nat :=
  match h.mem[r]? with
  | some (.elems l) => some l.length
  | _ => none

/-- Result of `p[i] = a` on the pointer array at `p`. -/
def setPtr (h : Heap T) (p i a : Nat) : Heap T :=
  match h.mem[p]? with
  | some (.ptrs l) => ⟨h.mem.set p (.ptrs (l.set i (some a))), h.freed⟩
  | _ => h

/-- Result of storing `v` into `r[j]` on the element array at `r`. -/
def setCell (h : Heap T) (r j : Nat) (v : Option T) : Heap T :=
  match h.mem[r]? with
  | some (.elems l) => ⟨h.mem.set r (.elems (l.set j v)), h.freed⟩
  | _ => h

/-- The value of `Data[i][j]`. -/
def at2 (h : Heap T) (Data i j : Nat) : Option T :=
  match h.ptrAt Data i with
  | some r => h.cellAt r j
  | none => none

/-- Result of storing `v` into `Data[i][j]`. -/
def setAt2 (h : Heap T) (Data i j : Nat) (v : Option T) : Heap T :=
  match h.ptrAt Data i with
  | some r => h.setCell r j v
  | none => h

end Heap

section Construction

variable {T σ : Type}

/-- The expression `new T * [n]`: raw storage for `n` pointers, left
indeterminate. -/
def newPtrs (env : Env T σ) (n : Nat) (w : World T σ) : Except Exn Nat × World T σ :=
  match env.alloc w.st with
  | (s, some e) => (.error e, ⟨w.heap, s⟩)
  | (s, none) => (.ok w.heap.fresh, ⟨w.heap.alloc (.ptrs (List.replicate n none)), s⟩)

/-- Default construction of the `k` elements of a new array, in order. -/
def ctorElems (env : Env T σ) : Nat → σ → σ × Option Exn
  | 0, s => (s, none)
  | k + 1, s =>
    match env.ctor s with
    | (s1, some e) => (s1, some e)
    | (s1, none) => ctorElems env k s1

/-- The expression `new T [n]`: storage is obtained, then the `n` elements are
default-constructed; when a constructor throws, the storage is given back by
the `new` expression itself before the exception leaves it. -/
def newElems (env : Env T σ) (n : Nat) (w : World T σ) : Except Exn Nat × World T σ :=
  match env.alloc w.st with
  | (s, some e) => (.error e, ⟨w.heap, s⟩)
  | (s, none) =>
    match ctorElems env n s with
    | (s1, some e) =>
      (.error e, ⟨(w.heap.alloc (.elems (List.replicate n none))).release w.heap.fresh, s1⟩)
    | (s1, none) =>
      (.ok w.heap.fresh, ⟨w.heap.alloc (.elems (List.replicate n env.dinit)), s1⟩)

/-- The loop of `Matrix(size_t n, const T& lambda)` (lines 45-48), with `k`
iterations left and loop variable `i`. -/
def Matrix.ctorLoop (env : Env T σ) (Data N : Nat) (lambda : T) :
    Nat → Nat → World T σ → Option Exn × World T σ
  | 0, _, w => (none, w)
  | k + 1, i, w =>
    match newElems env N w with
    | (.error e, w1) => (some e, w1)
    | (.ok r, w1) =>
      let h2 := w1.heap.setPtr Data i r
      match env.assign w1.st with
      | (s, some e) => (some e, ⟨h2, s⟩)
      | (s, none) =>
        Matrix.ctorLoop env Data N lambda k (i + 1) ⟨h2.setAt2 Data i i (some lambda), s⟩

/-- The constructor `Matrix(size_t n, const T& lambda)` (lines 43-49). -/
def Matrix.ctor (env : Env T σ) (n : Nat) (lambda : T) (w : World T σ) :
    Except Exn Matrix × World T σ :=
  match newPtrs env n w with
  | (.error e, w1) => (.error e, w1)
  | (.ok d, w1) =>
    match Matrix.ctorLoop env d n lambda n 0 w1 with
    | (some e, w2) => (.error e, w2)
    | (none, w2) => (.ok ⟨n, d⟩, w2)

/-- The member function `size()`. -/
def Matrix.size (M : Matrix) : Nat := M.N

/-- The read-only `operator () (i, j)`: the value of `Data[i][j]`. -/
def Matrix.get (h : Heap T) (M : Matrix) (i j : Nat) : Option T := h.at2 M.Data i j

/-- The free store after a completed write through the mutable
`operator () (i, j)`: `M(i, j) = v`. -/
def Matrix.put (h : Heap T) (M : Matrix) (i j : Nat) (v : T) : Heap T :=
  h.setAt2 M.Data i j (some v)

/-- The loop `for (j = 0; j != i; ++j) delete [] Data[j];` with `k`
iterations left and loop variable `j`; it is the loop of the destructor
(lines 52-53) and of the handler of the guarded constructor (lines 259-260). -/
def Matrix.releaseRows (Data : Nat) : Nat → Nat → Heap T → Heap T
  | 0, _, h => h
  | k + 1, j, h => Matrix.releaseRows Data k (j + 1) (h.releasePtr (h.ptrAt Data j))

/-- The destructor `~Matrix()` (lines 51-55). -/
def Matrix.dtor (h : Heap T) (M : Matrix) : Heap T :=
  (Matrix.releaseRows M.Data M.N 0 h).release M.Data

/-- The loop of the guarded constructor body (lines 255-265); the part the
source abbreviates as `// ...` is the diagonal assignment of the constructor
it replaces. -/
def Matrix.guardedLoop (env : Env T σ) (Data N : Nat) (lambda : T) :
    Nat → Nat → World T σ → Option Exn × World T σ
  | 0, _, w => (none, w)
  | k + 1, i, w =>
    match newElems env N w with
    | (.error e, w1) =>
      (some e, ⟨(Matrix.releaseRows Data i 0 w1.heap).release Data, w1.st⟩)
    | (.ok r, w1) =>
      let h2 := w1.heap.setPtr Data i r
      match env.assign w1.st with
      | (s, some e) => (some e, ⟨h2, s⟩)
      | (s, none) =>
        Matrix.guardedLoop env Data N lambda k (i + 1) ⟨h2.setAt2 Data i i (some lambda), s⟩

/-- The constructor with the guarded body of lines 254-265. -/
def Matrix.guardedCtor (env : Env T σ) (n : Nat) (lambda : T) (w : World T σ) :
    Except Exn Matrix × World T σ :=
  match newPtrs env n w with
  | (.error e, w1) => (.error e, w1)
  | (.ok d, w1) =>
    match Matrix.guardedLoop env d n lambda n 0 w1 with
    | (some e, w2) => (.error e, w2)
    | (none, w2) => (.ok ⟨n, d⟩, w2)

/-- The element loop of `std::copy(first, first + N, out)` on the rows at
`src` and `dst`: `k` elements left, position `j`. -/
def copyCells (env : Env T σ) (src dst : Nat) : Nat → Nat → World T σ → Option Exn × World T σ
  | 0, _, w => (none, w)
  | k + 1, j, w =>
    match env.assign w.st with
    | (s, some e) => (some e, ⟨w.heap, s⟩)
    | (s, none) => copyCells env src dst k (j + 1) ⟨w.heap.setCell dst j (w.heap.cellAt src j), s⟩

/-- The call `std::copy(src, src + n, dst)` for two pointer values read from
memory. -/
def stdCopy (env : Env T σ) (src dst : Option Nat) (n : Nat) (w : World T σ) :
    Option Exn × World T σ :=
  match src, dst with
  | some a, some b => copyCells env a b n 0 w
  | _, _ => (none, w)

/-- The loop of the deep-copy constructor (lines 124-130). -/
def Matrix.copyLoop (env : Env T σ) (other : Matrix) (Data N : Nat) :
    Nat → Nat → World T σ → Option Exn × World T σ
  | 0, _, w => (none, w)
  | k + 1, i, w =>
    match newElems env N w with
    | (.error e, w1) => (some e, w1)
    | (.ok r, w1) =>
      let h2 := w1.heap.setPtr Data i r
      match stdCopy env (h2.ptrAt other.Data i) (h2.ptrAt Data i) N ⟨h2, w1.st⟩ with
      | (some e, w3) => (some e, w3)
      | (none, w3) => Matrix.copyLoop env other Data N k (i + 1) w3

/-- The deep-copy constructor `Matrix(const Matrix& other)` (lines 121-131). -/
def Matrix.copyCtor (env : Env T σ) (other : Matrix) (w : World T σ) :
    Except Exn Matrix × World T σ :=
  match newPtrs env other.N w with
  | (.error e, w1) => (.error e, w1)
  | (.ok d, w1) =>
    match Matrix.copyLoop env other d other.N other.N 0 w1 with
    | (some e, w2) => (.error e, w2)
    | (none, w2) => (.ok ⟨other.N, d⟩, w2)

/-- How a call of `operator =` is left: the exception in flight if any, the
fields of `*this`, and the program state. -/
structure AssignResult (T σ : Type) where
  exn : Option Exn
  self : Matrix
  world : World T σ

/-- The assignment `operator = (const Matrix& other)` on the object with fields
`self` (lines 133-138): a local deep copy, two swaps, and the destructor of the
local at the closing brace.  The swaps are taken as written, `N` being
exchanged like `Data` although line 39 declares it `const`. -/
def Matrix.assign (env : Env T σ) (self other : Matrix) (w : World T σ) : AssignResult T σ :=
  match Matrix.copyCtor env other w with
  | (.error e, w1) => ⟨some e, self, w1⟩
  | (.ok copy, w1) =>
    let self1 : Matrix := ⟨copy.N, self.Data⟩
    let copy1 : Matrix := ⟨self.N, copy.Data⟩
    let self2 : Matrix := ⟨self1.N, copy1.Data⟩
    let copy2 : Matrix := ⟨copy1.N, self1.Data⟩
    ⟨none, self2, ⟨Matrix.dtor w1.heap copy2, w1.st⟩⟩

/-- A matrix object in good standing: `Data` is a live array of `N` row
pointers, each to a live array of `N` elements, no two rows the same. -/
structure Matrix.Valid (h : Heap T) (M : Matrix) : Prop where
  dataLive : h.live M.Data
  dataLen : h.ptrLen M.Data = some M.N
  row : ∀ i, i < M.N → ∃ r, h.ptrAt M.Data i = some r ∧ h.live r ∧ h.rowLen r = some M.N
  inj : ∀ i k, i < M.N → k < M.N → h.ptrAt M.Data i = h.ptrAt M.Data k → i = k

/-- Two matrix objects own different storage. -/
def Matrix.Disjoint (h : Heap T) (A B : Matrix) : Prop :=
  A.Data ≠ B.Data ∧
    ∀ i k, i < A.N → k < B.N → h.ptrAt A.Data i ≠ h.ptrAt B.Data k

/-- A matrix under construction on top of the heap `h0`: its pointer array
sits at `h0.fresh` and has `N` entries, the first `i` rows have been allocated
right behind it and linked, and nothing of `h0` has been touched. -/
structure Built (h0 : Heap T) (N i : Nat) (h : Heap T) : Prop where
  len : h.mem.length = h0.mem.length + 1 + i
  freed : h.freed = h0.freed
  frame : ∀ a, a < h0.mem.length → h.mem[a]? = h0.mem[a]?
  dataLen : h.ptrLen h0.mem.length = some N
  link : ∀ k, k < i → h.ptrAt h0.mem.length k = some (h0.mem.length + 1 + k)
  rows : ∀ k, k < i → h.rowLen (h0.mem.length + 1 + k) = some N

/-- The heap `h` has grown out of `h0` without touching what `h0` holds: the
blocks of `h0` have their contents and none of them has been released
since. -/
structure Heap.Frame (h0 h : Heap T) : Prop where
  len : h0.mem.length ≤ h.mem.length
  mem : ∀ a, a < h0.mem.length → h.mem[a]? = h0.mem[a]?
  freed : ∀ a, a < h0.mem.length → (a ∈ h.freed ↔ a ∈ h0.freed)

/-- A construction on top of `h0` is under way in `h`: what `h0` holds has not
been touched, the row pointer array of the construction has been allocated at
`h0.fresh`, and nothing at or below that address has been released since. -/
structure Started (h0 h : Heap T) : Prop where
  frame : Heap.Frame h0 h
  len : h0.mem.length < h.mem.length
  freed : ∀ a, a ∈ h.freed → a ∈ h0.freed ∨ h0.mem.length < a

/-- Every address in the release log has been allocated. -/
def Heap.WF (h : Heap T) : Prop := ∀ a ∈ h.freed, a < h.mem.length

end Construction

/-- The element type `int`: nothing throws, default-initialisation leaves an
indeterminate value, `int()` is `0`. -/
def intEnv : Env Int Unit where
  alloc := fun s => (s, none)
  ctor := fun s => (s, none)
  dinit := none
  dflt := 0
  assign := fun s => (s, none)

/-- The world before anything is allocated. -/
def World.empty {T σ : Type} (s : σ) : World T σ := ⟨⟨[], []⟩, s⟩

/-- No operation of the element type, and no allocation, ever throws. -/
def Env.NoThrow {T σ : Type} (env : Env T σ) : Prop :=
  ∀ s, (env.alloc s).2 = none ∧ (env.ctor s).2 = none ∧ (env.assign s).2 = none

/-- Calls made so far: of `operator new[]`, of the default constructor and of
the copy assignment of the element type. -/
structure Calls where
  allocs : Nat
  ctors : Nat
  assigns : Nat
deriving DecidableEq, Repr

/-- A class type wrapping an `int` (default value `0`) in a program where the
allocation number `ka` fails with `std::bad_alloc`, the default construction
number `kc` throws `42` and the copy assignment number `ks` throws `43`;
counting starts at one, so `0` stands for never. -/
def faultyEnv (ka kc ks : Nat) : Env Int Calls where
  alloc := fun s =>
    (⟨s.allocs + 1, s.ctors, s.assigns⟩, if s.allocs + 1 = ka then some .badAlloc else none)
  ctor := fun s =>
    (⟨s.allocs, s.ctors + 1, s.assigns⟩, if s.ctors + 1 = kc then some (.thrownInt 42) else none)
  dinit := some 0
  dflt := 0
  assign := fun s =>
    (⟨s.allocs, s.ctors, s.assigns + 1⟩,
      if s.assigns + 1 = ks then some (.thrownInt 43) else none)

/-- The `std::vector` variant of the class (lines 289-307): `Data` is a vector
of vectors. -/
structure VecMatrix (T : Type) where
  Data : List (List T)

/-- The call `v.resize(n)`: new elements are value-initialised. -/
def vecResize {T : Type} (dflt : T) (v : List T) (n : Nat) : List T :=
  v.take n ++ List.replicate (n - v.length) dflt

/-- The loop of the constructor of the `std::vector` variant (lines 295-297),
`k` iterations left, loop variable `i`.  The source has no braces round the
two statements under the `for`, which leaves `Data[i][i] = lambda` out of the
scope of `i`; they are taken as the loop body, the way they are indented. -/
def VecMatrix.ctorLoop {T : Type} (dflt lambda : T) (n : Nat) :
    Nat → Nat → List (List T) → List (List T)
  | 0, _, d => d
  | k + 1, i, d =>
    let d1 := d.set i (vecResize dflt (d.getD i []) n)
    let d2 := d1.set i ((d1.getD i []).set i lambda)
    VecMatrix.ctorLoop dflt lambda n k (i + 1) d2

/-- The constructor of the `std::vector` variant: `Data(n)` makes `n` empty
rows, the loop sizes and fills them. -/
def VecMatrix.ctor {T : Type} (dflt : T) (n : Nat) (lambda : T) : VecMatrix T :=
  ⟨VecMatrix.ctorLoop dflt lambda n n 0 (List.replicate n [])⟩

/-- The member function `size()` of the `std::vector` variant. -/
def VecMatrix.size {T : Type} (M : VecMatrix T) : Nat := M.Data.length

/-- A program start: empty free store, no call made yet. -/
def w0 : World Int Calls := World.empty ⟨0, 0, 0⟩

/-- The state after `Matrix<T> A(2, 7)` has been run at the program start,
with the faults of `env` armed; when the construction completes, `A` has the
fields `(2, 0)`. -/
def afterA (env : Env Int Calls) : World Int Calls := (Matrix.ctor env 2 7 w0).2

/-- The state after `Matrix<T> A(2, 7); Matrix<T> B(3, 9);`; when both
constructions complete, `B` has the fields `(3, 3)`. -/
def afterAB (env : Env Int Calls) : World Int Calls := (Matrix.ctor env 3 9 (afterA env)).2

/-- What `operator +=` of the template needs of the element type: the value
of `a += b`, and what running the element's `+=` does to the global state (it
may throw). -/
structure AddOps (T σ : Type) where
  add : T → T → T
  addEff : σ → σ × Option Exn

/-- The value left in a cell by `a += b`; it is indeterminate when an operand
is. -/
def optAdd {T σ : Type} (ops : AddOps T σ) : Option T → Option T → Option T
  | some a, some b => some (ops.add a b)
  | _, _ => none

/-- The inner loop of `operator +=` (lines 174-175) on row `i`: `k` iterations
left, loop variable `j`. -/
def Matrix.addCells {T σ : Type} (ops : AddOps T σ) (A B : Matrix) (i : Nat) :
    Nat → Nat → World T σ → Option Exn × World T σ
  | 0, _, w => (none, w)
  | k + 1, j, w =>
    match ops.addEff w.st with
    | (s, some e) => (some e, ⟨w.heap, s⟩)
    | (s, none) =>
      Matrix.addCells ops A B i k (j + 1)
        ⟨w.heap.setAt2 A.Data i j
          (optAdd ops (Matrix.get w.heap A i j) (Matrix.get w.heap B i j)), s⟩

/-- The outer loop of `operator +=` (lines 173-175): `k` iterations left, loop
variable `i`. -/
def Matrix.addRows {T σ : Type} (ops : AddOps T σ) (A B : Matrix) :
    Nat → Nat → World T σ → Option Exn × World T σ
  | 0, _, w => (none, w)
  | k + 1, i, w =>
    match Matrix.addCells ops A B i A.size 0 w with
    | (some e, w1) => (some e, w1)
    | (none, w1) => Matrix.addRows ops A B k (i + 1) w1

/-- The operator `A += B` (lines 166-177); the matrix returned stands for the
reference `Matrix<T>&` the operator returns. -/
def Matrix.addAssign {T σ : Type} (ops : AddOps T σ) (A B : Matrix) (w : World T σ) :
    Except Exn Matrix × World T σ :=
  if A.size ≠ B.size then (.error (.differentSize A.size B.size), w)
  else
    match Matrix.addRows ops A B A.size 0 w with
    | (some e, w1) => (.error e, w1)
    | (none, w1) => (.ok A, w1)

/-- The row pointer `M[i]` returned by `operator []`. -/
def Matrix.index {T : Type} (h : Heap T) (M : Matrix) (i : Nat) : Option Nat :=
  h.ptrAt M.Data i

/-- The value of `M[i][j]`: element `j` of the row `operator []` returns. -/
def Matrix.getIndexed {T : Type} (h : Heap T) (M : Matrix) (i j : Nat) : Option T :=
  match Matrix.index h M i with
  | some r => h.cellAt r j
  | none => none

/-- The free store after a completed write `M[i][j] = v`. -/
def Matrix.putIndexed {T : Type} (h : Heap T) (M : Matrix) (i j : Nat) (v : T) : Heap T :=
  match Matrix.index h M i with
  | some r => h.setCell r j (some v)
  | none => h

/-- A declaration `Matrix<T> M(n);`: the default argument `lambda = T()` is
evaluated by the caller, then the constructor runs. -/
def Matrix.ctorDefault {T σ : Type} (env : Env T σ) (n : Nat) (w : World T σ) :
    Except Exn Matrix × World T σ :=
  match env.ctor w.st with
  | (s, some e) => (.error e, ⟨w.heap, s⟩)
  | (s, none) => Matrix.ctor env n env.dflt ⟨w.heap, s⟩

/-- The declaration `Matrix<T> M(n);` with the guarded constructor body. -/
def Matrix.guardedCtorDefault {T σ : Type} (env : Env T σ) (n : Nat) (w : World T σ) :
    Except Exn Matrix × World T σ :=
  match env.ctor w.st with
  | (s, some e) => (.error e, ⟨w.heap, s⟩)
  | (s, none) => Matrix.guardedCtor env n env.dflt ⟨w.heap, s⟩

/-- The class `MyInteger` (lines 239-249): an object holds nothing, the global
state is the static `counter`, the constructor increments it and throws `42`
once it exceeds 3; copy assignment is the implicit one. -/
def MyInteger : Env Unit Int where
  alloc := fun s => (s, none)
  ctor := fun s => (s + 1, if s + 1 > 3 then some (.thrownInt 42) else none)
  dinit := some ()
  dflt := ()
  assign := fun s => (s, none)

/-- The function `inverse` (lines 179-186).  The condition of its `if` is left
out in the source and is a parameter here; the local `result` is the object
returned. -/
def inverse {T σ : Type} (env : Env T σ) (detZero : Bool) (A : Matrix) (w : World T σ) :
    Except Exn Matrix × World T σ :=
  match Matrix.ctorDefault env A.size w with
  | (.error e, w1) => (.error e, w1)
  | (.ok result, w1) =>
    if detZero then (.error .zeroDeterminant, ⟨Matrix.dtor w1.heap result, w1.st⟩)
    else (.ok result, w1)

/-- The statements of the `try` block of `main` (lines 196-199). -/
inductive Stmt where
  | declA
  | declB
  | addAssign
  | inverse
deriving DecidableEq, Repr

/-- The handlers of `main` (lines 200-209), in the order they are tried. -/
inductive Handler where
  | zeroDeterminant
  | differentSize
  | catchAll
deriving DecidableEq, Repr

/-- What a handler of `main` prints. -/
inductive Message where
  | zeroDet
  | differentSizes (N1 N2 : Nat)
  | unknown
deriving DecidableEq, Repr

/-- The `try` block of `main` (lines 195-199): the statement that raised and the
exception, if any; the objects declared so far are destroyed on the way out,
last declared first.  No class `MyInteger` is declared before this `main`
(the class of that name at lines 239-249 comes after it, as an artificial
device for the leak demonstration, and has no `+=`), so the element type of
the two matrices, with its `+=`, is a parameter. -/
def mainTry {T σ : Type} (env : Env T σ) (ops : AddOps T σ) (detZero : Bool)
    (w : World T σ) : Option (Stmt × Exn) × World T σ :=
  match Matrix.ctorDefault env 3 w with
  | (.error e, w1) => (some (.declA, e), w1)
  | (.ok A, w1) =>
    match Matrix.ctorDefault env 17 w1 with
    | (.error e, w2) => (some (.declB, e), ⟨Matrix.dtor w2.heap A, w2.st⟩)
    | (.ok B, w2) =>
      match Matrix.addAssign ops A B w2 with
      | (.error e, w3) =>
        (some (.addAssign, e), ⟨Matrix.dtor (Matrix.dtor w3.heap B) A, w3.st⟩)
      | (.ok _, w3) =>
        match inverse env detZero A w3 with
        | (.error e, w4) =>
          (some (.inverse, e), ⟨Matrix.dtor (Matrix.dtor w4.heap B) A, w4.st⟩)
        | (.ok C, w4) =>
          (none, ⟨Matrix.dtor (Matrix.dtor (Matrix.dtor w4.heap C) B) A, w4.st⟩)

/-- How `main` ends: where the exception was raised, the exception, the handler
that ran, what it printed, and the exception that leaves `main` (the
`DifferentSizeException` handler rethrows). -/
structure MainResult where
  raisedAt : Option Stmt
  exn : Option Exn
  handler : Option Handler
  printed : List Message
  escapes : Option Exn
deriving DecidableEq, Repr

/-- The function `main` of lines 194-210, for the element type `env` with the
element addition `ops`: the handlers are tried in the order they are
written. -/
def main {T σ : Type} (env : Env T σ) (ops : AddOps T σ) (detZero : Bool) (w : World T σ) :
    MainResult :=
  match (mainTry env ops detZero w).1 with
  | none => ⟨none, none, none, [], none⟩
  | some (st, .zeroDeterminant) =>
    ⟨some st, some .zeroDeterminant, some .zeroDeterminant, [.zeroDet], none⟩
  | some (st, .differentSize n1 n2) =>
    ⟨some st, some (.differentSize n1 n2), some .differentSize, [.differentSizes n1 n2],
      some (.differentSize n1 n2)⟩
  | some (st, e) => ⟨some st, some e, some .catchAll, [.unknown], none⟩

/-- The merge loop of `std::set_intersection(first1, last1, first2, last2, out)`
of the C++ standard library (library code, not part of the repository): while
both ranges have elements, the smaller front element is skipped, and of two
equivalent front elements the one of the first range is written to `out` and
both are passed.  `fuel` bounds the number of iterations. -/
def set_intersection : Nat → List Int → List Int → List Int
  | 0, _, _ => []
  | _ + 1, [], _ => []
  | _ + 1, _ :: _, [] => []
  | fuel + 1, a :: as, b :: bs =>
    if a < b then set_intersection fuel as (b :: bs)
    else if b < a then set_intersection fuel (a :: as) bs
    else a :: set_intersection fuel as bs

/-- The function `vec_intersection` (lines 10-19): `result` starts empty and
receives the output of `std::set_intersection` through `back_inserter`; the
loop makes at most `v1.size() + v2.size()` steps. -/
def vec_intersection (v1 v2 : List Int) : List Int :=
  set_intersection (v1.length + v2.length) v1 v2

/-- The element operations of `int` for `+=`: it adds and does not throw. -/
def intAdd : AddOps Int Unit where
  add := fun a b => a + b
  addEff := fun s => (s, none)

/-- Addition on the fixture class wrapping an `int`; the call number `kp` of
`+=` throws `44` (counted in the `assigns` field, `0` for never). -/
def faultyAdd (kp : Nat) : AddOps Int Calls where
  add := fun a b => a + b
  addEff := fun s =>
    (⟨s.allocs, s.ctors, s.assigns + 1⟩,
      if s.assigns + 1 = kp then some (.thrownInt 44) else none)

/-- The state after `Matrix<T> A(2, 7); Matrix<T> C(2, 5);`; when both
constructions complete, `C` has the fields `(2, 3)`. -/
def afterAC (env : Env Int Calls) : World Int Calls := (Matrix.ctor env 2 5 (afterA env)).2

/-- Block `a` is storage of the matrix `M`: its row pointer array or one of
its rows. -/
def Matrix.Owns {T : Type} (h : Heap T) (M : Matrix) (a : Nat) : Prop :=
  a = M.Data ∨ ∃ i, i < M.N ∧ h.ptrAt M.Data i = some a

/-- The fields of `M` point to storage laid out as a matrix, live or not:
`N` row pointers are set, to different blocks, none of them the row pointer
array. -/
structure Matrix.Shaped {T : Type} (h : Heap T) (M : Matrix) : Prop where
  row : ∀ i, i < M.N → ∃ r, h.ptrAt M.Data i = some r ∧ r ≠ M.Data
  inj : ∀ i k, i < M.N → k < M.N → h.ptrAt M.Data i = h.ptrAt M.Data k → i = k


/-! ## The free store: what each primitive does to what can be observed -/

namespace Heap

variable {T : Type}

theorem alloc_length (h : Heap T) (b : Block T) : (h.alloc b).mem.length = h.mem.length + 1 := by
  simp [alloc]

theorem alloc_freed (h : Heap T) (b : Block T) : (h.alloc b).freed = h.freed := rfl

theorem alloc_mem_lt (h : Heap T) (b : Block T) {a : Nat} (ha : a < h.mem.length) :
    (h.alloc b).mem[a]? = h.mem[a]? := by
  simp [alloc, List.getElem?_append_left ha]

theorem alloc_mem_fresh (h : Heap T) (b : Block T) : (h.alloc b).mem[h.mem.length]? = some b := by
  simp [alloc]

theorem setPtr_length (h : Heap T) (p i a : Nat) : (h.setPtr p i a).mem.length = h.mem.length := by
  unfold setPtr; split <;> simp

theorem setPtr_freed (h : Heap T) (p i a : Nat) : (h.setPtr p i a).freed = h.freed := by
  unfold setPtr; split <;> rfl

theorem setPtr_mem_ne (h : Heap T) (p i a : Nat) {c : Nat} (hc : c ≠ p) :
    (h.setPtr p i a).mem[c]? = h.mem[c]? := by
  unfold setPtr; split
  · simp [List.getElem?_set_ne (Ne.symm hc)]
  · rfl

theorem setPtr_mem_eq (h : Heap T) (p i a : Nat) {l : List (Option Nat)}
    (hp : h.mem[p]? = some (.ptrs l)) :
    (h.setPtr p i a).mem[p]? = some (.ptrs (l.set i (some a))) := by
  have hlt : p < h.mem.length := by
    rcases List.getElem?_eq_some.1 hp with ⟨hlt, _⟩
    exact hlt
  unfold setPtr; rw [hp]
  simp [List.getElem?_set_self hlt]

theorem setCell_length (h : Heap T) (r j : Nat) (v : Option T) :
    (h.setCell r j v).mem.length = h.mem.length := by
  unfold setCell; split <;> simp

theorem setCell_freed (h : Heap T) (r j : Nat) (v : Option T) :
    (h.setCell r j v).freed = h.freed := by
  unfold setCell; split <;> rfl

theorem setCell_mem_ne (h : Heap T) (r j : Nat) (v : Option T) {c : Nat} (hc : c ≠ r) :
    (h.setCell r j v).mem[c]? = h.mem[c]? := by
  unfold setCell; split
  · simp [List.getElem?_set_ne (Ne.symm hc)]
  · rfl

theorem setCell_mem_eq (h : Heap T) (r j : Nat) (v : Option T) {l : List (Option T)}
    (hr : h.mem[r]? = some (.elems l)) :
    (h.setCell r j v).mem[r]? = some (.elems (l.set j v)) := by
  have hlt : r < h.mem.length := by
    rcases List.getElem?_eq_some.1 hr with ⟨hlt, _⟩
    exact hlt
  unfold setCell; rw [hr]
  simp [List.getElem?_set_self hlt]

theorem ptrAt_congr {h h' : Heap T} {p : Nat} (e : h'.mem[p]? = h.mem[p]?) (i : Nat) :
    h'.ptrAt p i = h.ptrAt p i := by
  unfold ptrAt; rw [e]

theorem cellAt_congr {h h' : Heap T} {r : Nat} (e : h'.mem[r]? = h.mem[r]?) (j : Nat) :
    h'.cellAt r j = h.cellAt r j := by
  unfold cellAt; rw [e]

theorem ptrLen_congr {h h' : Heap T} {p : Nat} (e : h'.mem[p]? = h.mem[p]?) :
    h'.ptrLen p = h.ptrLen p := by
  unfold ptrLen; rw [e]

theorem rowLen_congr {h h' : Heap T} {r : Nat} (e : h'.mem[r]? = h.mem[r]?) :
    h'.rowLen r = h.rowLen r := by
  unfold rowLen; rw [e]

/-- A block is not both a pointer array and an element array. -/
theorem ptrLen_rowLen_ne {h : Heap T} {a n m : Nat} (hp : h.ptrLen a = some n)
    (hr : h.rowLen a = some m) : False := by
  unfold ptrLen at hp; unfold rowLen at hr
  cases hb : h.mem[a]? with
  | none => simp [hb] at hp
  | some b => cases b <;> simp [hb] at hp hr

theorem ptrLen_block {h : Heap T} {p n : Nat} (hp : h.ptrLen p = some n) :
    ∃ l, h.mem[p]? = some (.ptrs l) ∧ l.length = n := by
  unfold ptrLen at hp
  cases hb : h.mem[p]? with
  | none => simp [hb] at hp
  | some b =>
    cases b with
    | elems c => simp [hb] at hp
    | ptrs l => exact ⟨l, rfl, by simpa [hb] using hp⟩

theorem rowLen_block {h : Heap T} {r n : Nat} (hr : h.rowLen r = some n) :
    ∃ l, h.mem[r]? = some (.elems l) ∧ l.length = n := by
  unfold rowLen at hr
  cases hb : h.mem[r]? with
  | none => simp [hb] at hr
  | some b =>
    cases b with
    | ptrs c => simp [hb] at hr
    | elems l => exact ⟨l, rfl, by simpa [hb] using hr⟩

theorem ptrLen_lt {h : Heap T} {p n : Nat} (hp : h.ptrLen p = some n) : p < h.mem.length := by
  rcases ptrLen_block hp with ⟨l, hl, _⟩
  rcases List.getElem?_eq_some.1 hl with ⟨hlt, _⟩
  exact hlt

theorem rowLen_lt {h : Heap T} {r n : Nat} (hr : h.rowLen r = some n) : r < h.mem.length := by
  rcases rowLen_block hr with ⟨l, hl, _⟩
  rcases List.getElem?_eq_some.1 hl with ⟨hlt, _⟩
  exact hlt

/-- Writing a pointer: the array keeps its length. -/
theorem ptrLen_setPtr (h : Heap T) (p i a q : Nat) : (h.setPtr p i a).ptrLen q = h.ptrLen q := by
  by_cases hq : q = p
  · subst hq
    cases hb : h.mem[q]? with
    | none => unfold setPtr; simp [hb]
    | some b =>
      cases b with
      | elems c => unfold setPtr; simp [hb]
      | ptrs l => simp [ptrLen, setPtr_mem_eq h q i a hb, hb]
  · exact ptrLen_congr (setPtr_mem_ne h p i a hq)

/-- Writing a pointer leaves every element array as it was. -/
theorem setPtr_mem_elems (h : Heap T) (p i a : Nat) {r : Nat} {l : List (Option T)}
    (hr : h.mem[r]? = some (.elems l)) : (h.setPtr p i a).mem[r]? = some (.elems l) := by
  by_cases hq : r = p
  · subst hq; unfold setPtr; simp [hr]
  · rw [setPtr_mem_ne h p i a hq, hr]

theorem rowLen_setPtr (h : Heap T) (p i a r : Nat) : (h.setPtr p i a).rowLen r = h.rowLen r := by
  by_cases hq : r = p
  · subst hq
    cases hb : h.mem[r]? with
    | none => unfold setPtr; simp [hb]
    | some b =>
      cases b with
      | elems c => unfold setPtr; simp [hb]
      | ptrs l => simp [rowLen, setPtr_mem_eq h r i a hb, hb]
  · exact rowLen_congr (setPtr_mem_ne h p i a hq)

theorem cellAt_setPtr (h : Heap T) (p i a r j : Nat) :
    (h.setPtr p i a).cellAt r j = h.cellAt r j := by
  by_cases hq : r = p
  · subst hq
    cases hb : h.mem[r]? with
    | none => unfold setPtr; simp [hb]
    | some b =>
      cases b with
      | elems c => unfold setPtr; simp [hb]
      | ptrs l => simp [cellAt, setPtr_mem_eq h r i a hb, hb]
  · exact cellAt_congr (setPtr_mem_ne h p i a hq) j

theorem ptrAt_setPtr_ne (h : Heap T) (p i a : Nat) {q k : Nat} (hne : q ≠ p ∨ k ≠ i) :
    (h.setPtr p i a).ptrAt q k = h.ptrAt q k := by
  by_cases hq : q = p
  · subst hq
    have hk : k ≠ i := by
      rcases hne with h1 | h1
      · exact absurd rfl h1
      · exact h1
    cases hb : h.mem[q]? with
    | none => unfold setPtr; simp [hb]
    | some b =>
      cases b with
      | elems c => unfold setPtr; simp [hb]
      | ptrs l =>
        simp [ptrAt, setPtr_mem_eq h q i a hb, hb, List.getElem?_set_ne (Ne.symm hk)]
  · exact ptrAt_congr (setPtr_mem_ne h p i a hq) k

theorem ptrAt_setPtr_eq (h : Heap T) (p i a : Nat) {n : Nat} (hp : h.ptrLen p = some n)
    (hi : i < n) : (h.setPtr p i a).ptrAt p i = some a := by
  rcases ptrLen_block hp with ⟨l, hl, hn⟩
  have : i < l.length := by omega
  simp [ptrAt, setPtr_mem_eq h p i a hl, List.getElem?_set_self this]

theorem ptrLen_setCell (h : Heap T) (r j : Nat) (v : Option T) (q : Nat) :
    (h.setCell r j v).ptrLen q = h.ptrLen q := by
  by_cases hq : q = r
  · subst hq
    cases hb : h.mem[q]? with
    | none => unfold setCell; simp [hb]
    | some b =>
      cases b with
      | ptrs c => unfold setCell; simp [hb]
      | elems l => simp [ptrLen, setCell_mem_eq h q j v hb, hb]
  · exact ptrLen_congr (setCell_mem_ne h r j v hq)

theorem ptrAt_setCell (h : Heap T) (r j : Nat) (v : Option T) (q k : Nat) :
    (h.setCell r j v).ptrAt q k = h.ptrAt q k := by
  by_cases hq : q = r
  · subst hq
    cases hb : h.mem[q]? with
    | none => unfold setCell; simp [hb]
    | some b =>
      cases b with
      | ptrs c => unfold setCell; simp [hb]
      | elems l => simp [ptrAt, setCell_mem_eq h q j v hb, hb]
  · exact ptrAt_congr (setCell_mem_ne h r j v hq) k

theorem rowLen_setCell (h : Heap T) (r j : Nat) (v : Option T) (q : Nat) :
    (h.setCell r j v).rowLen q = h.rowLen q := by
  by_cases hq : q = r
  · subst hq
    cases hb : h.mem[q]? with
    | none => unfold setCell; simp [hb]
    | some b =>
      cases b with
      | ptrs c => unfold setCell; simp [hb]
      | elems l => simp [rowLen, setCell_mem_eq h q j v hb, hb]
  · exact rowLen_congr (setCell_mem_ne h r j v hq)

theorem cellAt_setCell_ne (h : Heap T) (r j : Nat) (v : Option T) {q l : Nat}
    (hne : q ≠ r ∨ l ≠ j) : (h.setCell r j v).cellAt q l = h.cellAt q l := by
  by_cases hq : q = r
  · subst hq
    have hk : l ≠ j := by
      rcases hne with h1 | h1
      · exact absurd rfl h1
      · exact h1
    cases hb : h.mem[q]? with
    | none => unfold setCell; simp [hb]
    | some b =>
      cases b with
      | ptrs c => unfold setCell; simp [hb]
      | elems c =>
        simp [cellAt, setCell_mem_eq h q j v hb, hb, List.getElem?_set_ne (Ne.symm hk)]
  · exact cellAt_congr (setCell_mem_ne h r j v hq) l

theorem cellAt_setCell_eq (h : Heap T) (r j : Nat) (v : Option T) {n : Nat}
    (hr : h.rowLen r = some n) (hj : j < n) : (h.setCell r j v).cellAt r j = v := by
  rcases rowLen_block hr with ⟨l, hl, hn⟩
  have : j < l.length := by omega
  simp [cellAt, setCell_mem_eq h r j v hl, List.getElem?_set_self this]

end Heap

/-! ## Frames and matrices under construction -/

section Frames

variable {T σ : Type}

theorem Heap.Frame.refl (h : Heap T) : Heap.Frame h h :=
  ⟨le_refl _, fun _ _ => rfl, fun _ _ => Iff.rfl⟩

theorem Heap.Frame.trans {h0 h1 h2 : Heap T} (f1 : Heap.Frame h0 h1) (f2 : Heap.Frame h1 h2) :
    Heap.Frame h0 h2 where
  len := le_trans f1.len f2.len
  mem := fun a ha => by rw [f2.mem a (lt_of_lt_of_le ha f1.len), f1.mem a ha]
  freed := fun a ha => by rw [f2.freed a (lt_of_lt_of_le ha f1.len), f1.freed a ha]

theorem Heap.Frame.alloc (h : Heap T) (b : Block T) : Heap.Frame h (h.alloc b) where
  len := by rw [Heap.alloc_length]; omega
  mem := fun _ ha => Heap.alloc_mem_lt h b ha
  freed := fun _ _ => by rw [Heap.alloc_freed]

/-- Releasing a block that `h0` does not hold keeps the frame. -/
theorem Heap.Frame.release {h0 h : Heap T} (f : Heap.Frame h0 h) {a : Nat}
    (ha : h0.mem.length ≤ a) : Heap.Frame h0 (h.release a) where
  len := f.len
  mem := f.mem
  freed := fun c hc => by
    have : c ≠ a := by omega
    simp [Heap.release, this, f.freed c hc]

/-- Writing into a block that `h0` does not hold keeps the frame. -/
theorem Heap.Frame.setCell_frame {h0 h : Heap T} (f : Heap.Frame h0 h) {r : Nat}
    (hr : h0.mem.length ≤ r) (j : Nat) (v : Option T) : Heap.Frame h0 (h.setCell r j v) where
  len := by rw [Heap.setCell_length]; exact f.len
  mem := fun a ha => by
    have : a ≠ r := by omega
    rw [Heap.setCell_mem_ne h r j v this, f.mem a ha]
  freed := fun a ha => by rw [Heap.setCell_freed, f.freed a ha]

theorem Heap.Frame.setPtr_frame {h0 h : Heap T} (f : Heap.Frame h0 h) {p : Nat}
    (hp : h0.mem.length ≤ p) (i a : Nat) : Heap.Frame h0 (h.setPtr p i a) where
  len := by rw [Heap.setPtr_length]; exact f.len
  mem := fun c hc => by
    have : c ≠ p := by omega
    rw [Heap.setPtr_mem_ne h p i a this, f.mem c hc]
  freed := fun c hc => by rw [Heap.setPtr_freed, f.freed c hc]

theorem Heap.Frame.live {h0 h : Heap T} (f : Heap.Frame h0 h) {a : Nat} (ha : h0.live a) :
    h.live a :=
  ⟨lt_of_lt_of_le ha.1 f.len, fun hm => ha.2 ((f.freed a ha.1).1 hm)⟩

theorem Heap.Frame.ptrAt {h0 h : Heap T} (f : Heap.Frame h0 h) {p : Nat}
    (hp : p < h0.mem.length) (i : Nat) : h.ptrAt p i = h0.ptrAt p i :=
  Heap.ptrAt_congr (f.mem p hp) i

theorem Heap.Frame.cellAt {h0 h : Heap T} (f : Heap.Frame h0 h) {r : Nat}
    (hr : r < h0.mem.length) (j : Nat) : h.cellAt r j = h0.cellAt r j :=
  Heap.cellAt_congr (f.mem r hr) j

theorem Heap.Frame.ptrLen {h0 h : Heap T} (f : Heap.Frame h0 h) {p : Nat}
    (hp : p < h0.mem.length) : h.ptrLen p = h0.ptrLen p :=
  Heap.ptrLen_congr (f.mem p hp)

theorem Heap.Frame.rowLen {h0 h : Heap T} (f : Heap.Frame h0 h) {r : Nat}
    (hr : r < h0.mem.length) : h.rowLen r = h0.rowLen r :=
  Heap.rowLen_congr (f.mem r hr)

/-- A valid matrix of `h0` is a valid matrix of every heap framed on `h0`. -/
theorem Matrix.Valid.valid_frame {h0 h : Heap T} {M : Matrix} (v : M.Valid h0) (f : Heap.Frame h0 h) :
    M.Valid h where
  dataLive := f.live v.dataLive
  dataLen := by rw [f.ptrLen v.dataLive.1]; exact v.dataLen
  row := fun i hi => by
    rcases v.row i hi with ⟨r, h1, h2, h3⟩
    exact ⟨r, by rw [f.ptrAt v.dataLive.1]; exact h1, f.live h2, by rw [f.rowLen h2.1]; exact h3⟩
  inj := fun i k hi hk e => by
    rw [f.ptrAt v.dataLive.1, f.ptrAt v.dataLive.1] at e
    exact v.inj i k hi hk e

/-- The elements of a valid matrix of `h0` read the same in every heap framed
on `h0`. -/
theorem Matrix.Valid.get_frame {h0 h : Heap T} {M : Matrix} (v : M.Valid h0)
    (f : Heap.Frame h0 h) {i : Nat} (hi : i < M.N) (j : Nat) :
    Matrix.get h M i j = Matrix.get h0 M i j := by
  rcases v.row i hi with ⟨r, h1, h2, _⟩
  have e : h.ptrAt M.Data i = some r := by rw [f.ptrAt v.dataLive.1]; exact h1
  simp [Matrix.get, Heap.at2, e, h1, f.cellAt h2.1]

theorem Built.init (h0 : Heap T) (N : Nat) :
    Built h0 N 0 (h0.alloc (.ptrs (List.replicate N none))) where
  len := by rw [Heap.alloc_length]
  freed := rfl
  frame := fun _ ha => Heap.alloc_mem_lt h0 _ ha
  dataLen := by simp [Heap.ptrLen, Heap.alloc_mem_fresh]
  link := fun k hk => absurd hk (Nat.not_lt_zero k)
  rows := fun k hk => absurd hk (Nat.not_lt_zero k)

theorem Built.toFrame {h0 h : Heap T} {N i : Nat} (b : Built h0 N i h) : Heap.Frame h0 h where
  len := by rw [b.len]; omega
  mem := b.frame
  freed := fun _ _ => by rw [b.freed]

theorem Built.started {h0 h : Heap T} {N i : Nat} (b : Built h0 N i h) : Started h0 h where
  frame := b.toFrame
  len := by rw [b.len]; omega
  freed := fun a ha => Or.inl (by rw [b.freed] at ha; exact ha)

/-- A row whose storage the `new` expression gave back itself. -/
theorem Built.started_release {h0 h : Heap T} {N i : Nat} (b : Built h0 N i h)
    (blk : Block T) : Started h0 ((h.alloc blk).release h.fresh) where
  frame := ((b.toFrame).trans (Heap.Frame.alloc _ _)).release
    (by unfold Heap.fresh; rw [b.len]; omega)
  len := by
    show h0.mem.length < (h.alloc blk).mem.length
    rw [Heap.alloc_length, b.len]; omega
  freed := fun a ha => by
    have ha1 : a ∈ h.fresh :: h.freed := ha
    rcases List.mem_cons.1 ha1 with e | e
    · right
      rw [e]; unfold Heap.fresh; rw [b.len]; omega
    · left
      rw [b.freed] at e; exact e

/-- While a construction is under way its row pointer array is live. -/
theorem Started.data_live {h0 h : Heap T} (st : Started h0 h) (wf : h0.WF) :
    h.live h0.mem.length ∧ ¬ h0.live h0.mem.length := by
  refine ⟨⟨st.len, fun hm => ?_⟩, fun hl => absurd hl.1 (lt_irrefl _)⟩
  rcases st.freed _ hm with e | e
  · exact absurd (wf _ e) (lt_irrefl _)
  · exact absurd e (lt_irrefl _)

/-- Allocating the next row and linking it. -/
theorem Built.newRow {h0 h : Heap T} {N i : Nat} (b : Built h0 N i h) (hi : i < N)
    (x : Option T) :
    Built h0 N (i + 1) ((h.alloc (.elems (List.replicate N x))).setPtr h0.mem.length i
      h.mem.length) where
  len := by rw [Heap.setPtr_length, Heap.alloc_length, b.len]; omega
  freed := by rw [Heap.setPtr_freed, Heap.alloc_freed, b.freed]
  frame := fun a ha => by
    have h1 : a ≠ h0.mem.length := by omega
    have h2 : a < h.mem.length := by rw [b.len]; omega
    rw [Heap.setPtr_mem_ne _ _ _ _ h1, Heap.alloc_mem_lt _ _ h2, b.frame a ha]
  dataLen := by
    have h2 : h0.mem.length < h.mem.length := by rw [b.len]; omega
    rw [Heap.ptrLen_setPtr, Heap.ptrLen_congr (Heap.alloc_mem_lt _ _ h2), b.dataLen]
  link := fun k hk => by
    have h2 : h0.mem.length < h.mem.length := by rw [b.len]; omega
    have hl : (h.alloc (.elems (List.replicate N x))).ptrLen h0.mem.length = some N := by
      rw [Heap.ptrLen_congr (Heap.alloc_mem_lt _ _ h2), b.dataLen]
    by_cases hki : k = i
    · subst hki
      rw [Heap.ptrAt_setPtr_eq _ _ _ _ hl hi, b.len]
    · rw [Heap.ptrAt_setPtr_ne _ _ _ _ (Or.inr hki), Heap.ptrAt_congr (Heap.alloc_mem_lt _ _ h2)]
      exact b.link k (by omega)
  rows := fun k hk => by
    rw [Heap.rowLen_setPtr]
    by_cases hki : k = i
    · subst hki
      have : h0.mem.length + 1 + k = h.mem.length := by rw [b.len]
      rw [this]
      simp [Heap.rowLen, Heap.alloc_mem_fresh]
    · have h2 : h0.mem.length + 1 + k < h.mem.length := by rw [b.len]; omega
      rw [Heap.rowLen_congr (Heap.alloc_mem_lt _ _ h2)]
      exact b.rows k (by omega)

/-- The cells of the row just allocated hold the value it was filled with. -/
theorem Built.newRow_cell {h0 h : Heap T} {N i : Nat} (b : Built h0 N i h) (x : Option T)
    {j : Nat} (hj : j < N) :
    ((h.alloc (.elems (List.replicate N x))).setPtr h0.mem.length i h.mem.length).cellAt
      (h0.mem.length + 1 + i) j = x := by
  have : h0.mem.length + 1 + i = h.mem.length := by rw [b.len]
  rw [Heap.cellAt_setPtr, this]
  simp [Heap.cellAt, Heap.alloc_mem_fresh, List.getElem?_replicate, hj]

/-- The cells of the rows allocated before are not touched by a new row. -/
theorem Built.newRow_old {h0 h : Heap T} {N i : Nat} (b : Built h0 N i h) (x : Option T)
    {k : Nat} (hk : k < i) (j : Nat) :
    ((h.alloc (.elems (List.replicate N x))).setPtr h0.mem.length i h.mem.length).cellAt
      (h0.mem.length + 1 + k) j = h.cellAt (h0.mem.length + 1 + k) j := by
  have h2 : h0.mem.length + 1 + k < h.mem.length := by rw [b.len]; omega
  rw [Heap.cellAt_setPtr, Heap.cellAt_congr (Heap.alloc_mem_lt _ _ h2)]

theorem Built.setCell_built {h0 h : Heap T} {N i : Nat} (b : Built h0 N i h) (k j : Nat)
    (v : Option T) : Built h0 N i (h.setCell (h0.mem.length + 1 + k) j v) where
  len := by rw [Heap.setCell_length, b.len]
  freed := by rw [Heap.setCell_freed, b.freed]
  frame := fun a ha => by
    have h1 : a ≠ h0.mem.length + 1 + k := by omega
    rw [Heap.setCell_mem_ne _ _ _ _ h1, b.frame a ha]
  dataLen := by rw [Heap.ptrLen_setCell, b.dataLen]
  link := fun k1 hk1 => by rw [Heap.ptrAt_setCell]; exact b.link k1 hk1
  rows := fun k1 hk1 => by rw [Heap.rowLen_setCell]; exact b.rows k1 hk1

/-- Writing `Data[k][j]` in a matrix under construction is a write into its
row `k`. -/
theorem Built.setAt2_eq {h0 h : Heap T} {N i : Nat} (b : Built h0 N i h) {k : Nat} (hk : k < i)
    (j : Nat) (v : Option T) :
    h.setAt2 h0.mem.length k j v = h.setCell (h0.mem.length + 1 + k) j v := by
  simp [Heap.setAt2, b.link k hk]

theorem Built.at2_eq {h0 h : Heap T} {N i : Nat} (b : Built h0 N i h) {k : Nat} (hk : k < i)
    (j : Nat) : h.at2 h0.mem.length k j = h.cellAt (h0.mem.length + 1 + k) j := by
  simp [Heap.at2, b.link k hk]

/-- The three ways `new T [n]` can end. -/
theorem newElems_cases (env : Env T σ) (n : Nat) (w : World T σ) :
    (∃ e s, newElems env n w = (.error e, ⟨w.heap, s⟩)) ∨
    (∃ e s, newElems env n w =
      (.error e, ⟨(w.heap.alloc (.elems (List.replicate n none))).release w.heap.fresh, s⟩)) ∨
    (∃ s, newElems env n w =
      (.ok w.heap.fresh, ⟨w.heap.alloc (.elems (List.replicate n env.dinit)), s⟩)) := by
  unfold newElems
  rcases ha : env.alloc w.st with ⟨s, _ | e⟩
  · rcases hc : ctorElems env n s with ⟨s1, _ | e⟩
    · exact Or.inr (Or.inr ⟨s1, by simp only [hc]⟩)
    · exact Or.inr (Or.inl ⟨e, s1, by simp only [hc]⟩)
  · exact Or.inl ⟨e, s, by simp⟩

/-- The two ways `new T * [n]` can end. -/
theorem newPtrs_cases (env : Env T σ) (n : Nat) (w : World T σ) :
    (∃ e s, newPtrs env n w = (.error e, ⟨w.heap, s⟩)) ∨
    (∃ s, newPtrs env n w =
      (.ok w.heap.fresh, ⟨w.heap.alloc (.ptrs (List.replicate n none)), s⟩)) := by
  unfold newPtrs
  rcases ha : env.alloc w.st with ⟨s, _ | e⟩
  · exact Or.inr ⟨s, by simp⟩
  · exact Or.inl ⟨e, s, by simp⟩

/-- The loop of the constructor: whatever happens, the heap it started on is
framed; when the loop completes, all `N` rows are in place, `lambda` on the
diagonal and default-initialised elements elsewhere. -/
theorem Matrix.ctorLoop_spec (env : Env T σ) (h0 : Heap T) (N : Nat) (lambda : T) :
    ∀ (k i : Nat) (w : World T σ), i + k = N → Built h0 N i w.heap →
      (∀ a j, a < i → j < N →
        w.heap.cellAt (h0.mem.length + 1 + a) j = if j = a then some lambda else env.dinit) →
      ∀ r w1, Matrix.ctorLoop env h0.mem.length N lambda k i w = (r, w1) →
        Started h0 w1.heap ∧
        (r = none → Built h0 N N w1.heap ∧
          ∀ a j, a < N → j < N →
            w1.heap.cellAt (h0.mem.length + 1 + a) j = if j = a then some lambda else env.dinit) := by
  intro k
  induction k with
  | zero =>
    intro i w hik b hc r w1 hrun
    simp only [Matrix.ctorLoop, Prod.mk.injEq] at hrun
    obtain ⟨rfl, rfl⟩ := hrun
    have : i = N := by omega
    subst this
    exact ⟨b.started, fun _ => ⟨b, hc⟩⟩
  | succ k ih =>
    intro i w hik b hc r w1 hrun
    have hiN : i < N := by omega
    rcases newElems_cases env N w with ⟨e, s, hn⟩ | ⟨e, s, hn⟩ | ⟨s, hn⟩
    · simp only [Matrix.ctorLoop, hn, Prod.mk.injEq] at hrun
      obtain ⟨rfl, rfl⟩ := hrun
      exact ⟨b.started, fun hr => by cases hr⟩
    · simp only [Matrix.ctorLoop, hn, Prod.mk.injEq] at hrun
      obtain ⟨rfl, rfl⟩ := hrun
      exact ⟨b.started_release _, fun hr => by cases hr⟩
    · have b1 := b.newRow hiN env.dinit
      rcases has : env.assign s with ⟨s1, _ | e⟩
      · simp only [Matrix.ctorLoop, hn, has] at hrun
        unfold Heap.fresh at hrun
        rw [b1.setAt2_eq (Nat.lt_succ_self i)] at hrun
        refine ih (i + 1) _ (by omega) (b1.setCell_built i i (some lambda)) ?_ r w1 hrun
        intro a j ha hj
        by_cases hai : a = i
        · subst hai
          by_cases hja : j = a
          · subst hja
            simp only [if_true]
            exact Heap.cellAt_setCell_eq _ _ _ _ (b1.rows j (Nat.lt_succ_self j)) hj
          · rw [Heap.cellAt_setCell_ne _ _ _ _ (Or.inr hja), b.newRow_cell env.dinit hj]
            simp [hja]
        · have hlt : a < i := by omega
          rw [Heap.cellAt_setCell_ne _ _ _ _ (Or.inl (by omega)), b.newRow_old env.dinit hlt]
          exact hc a j hlt hj
      · simp only [Matrix.ctorLoop, hn, has, Prod.mk.injEq] at hrun
        obtain ⟨rfl, rfl⟩ := hrun
        exact ⟨b1.started, fun hr => by cases hr⟩

/-- What the constructor does: the heap it started on is framed whatever
happens; when it returns a matrix, that matrix has the fields `(n, h0.fresh)`
and its storage is in place. -/
theorem Matrix.ctor_spec (env : Env T σ) (n : Nat) (lambda : T) (w : World T σ)
    (res : Except Exn Matrix) (w1 : World T σ) (hrun : Matrix.ctor env n lambda w = (res, w1)) :
    Heap.Frame w.heap w1.heap ∧
    ∀ M, res = .ok M → M = ⟨n, w.heap.mem.length⟩ ∧ Built w.heap n n w1.heap ∧
      ∀ a j, a < n → j < n →
        w1.heap.cellAt (w.heap.mem.length + 1 + a) j = if j = a then some lambda else env.dinit := by
  rcases newPtrs_cases env n w with ⟨e, s, hn⟩ | ⟨s, hn⟩
  · simp only [Matrix.ctor, hn, Prod.mk.injEq] at hrun
    obtain ⟨rfl, rfl⟩ := hrun
    exact ⟨Heap.Frame.refl _, fun M hM => by cases hM⟩
  · rcases hl : Matrix.ctorLoop env w.heap.mem.length n lambda n 0
        ⟨w.heap.alloc (.ptrs (List.replicate n none)), s⟩ with ⟨r, w2⟩
    have hs := Matrix.ctorLoop_spec env w.heap n lambda n 0 _ (by omega) (Built.init w.heap n)
      (fun a j ha _ => absurd ha (Nat.not_lt_zero a)) r w2 hl
    cases r with
    | none =>
      simp only [Matrix.ctor, hn, Heap.fresh, hl, Prod.mk.injEq] at hrun
      obtain ⟨rfl, rfl⟩ := hrun
      refine ⟨hs.1.frame, fun M hM => ?_⟩
      cases hM
      exact ⟨rfl, hs.2 rfl⟩
    | some e =>
      simp only [Matrix.ctor, hn, Heap.fresh, hl, Prod.mk.injEq] at hrun
      obtain ⟨rfl, rfl⟩ := hrun
      exact ⟨hs.1.frame, fun M hM => by cases hM⟩

/-- The element loop of `std::copy` into row `d` of a matrix under
construction, from a row of the heap it is built on. -/
theorem copyCells_spec (env : Env T σ) (h0 : Heap T) (N m d src : Nat) (hd : d < m) :
    ∀ (k j : Nat) (w : World T σ), j + k = N → Built h0 N m w.heap → src < h0.mem.length →
      (∀ l, l < j → w.heap.cellAt (h0.mem.length + 1 + d) l = h0.cellAt src l) →
      ∀ r w1, copyCells env src (h0.mem.length + 1 + d) k j w = (r, w1) →
        Built h0 N m w1.heap ∧
        (∀ q l, q ≠ h0.mem.length + 1 + d → w1.heap.cellAt q l = w.heap.cellAt q l) ∧
        (r = none → ∀ l, l < N → w1.heap.cellAt (h0.mem.length + 1 + d) l = h0.cellAt src l) := by
  intro k
  induction k with
  | zero =>
    intro j w hjk b _ hc r w1 hrun
    simp only [copyCells, Prod.mk.injEq] at hrun
    obtain ⟨rfl, rfl⟩ := hrun
    have : j = N := by omega
    subst this
    exact ⟨b, fun _ _ _ => rfl, fun _ => hc⟩
  | succ k ih =>
    intro j w hjk b hsrc hc r w1 hrun
    rcases has : env.assign w.st with ⟨s1, _ | e⟩
    · simp only [copyCells, has] at hrun
      have hstep := ih (j + 1) _ (by omega) (b.setCell_built d j (w.heap.cellAt src j)) hsrc ?_ r w1 hrun
      · refine ⟨hstep.1, fun q l hq => ?_, hstep.2.2⟩
        rw [hstep.2.1 q l hq]
        exact Heap.cellAt_setCell_ne _ _ _ _ (Or.inl hq)
      · intro l hl
        by_cases hlj : l = j
        · subst hlj
          rw [Heap.cellAt_setCell_eq _ _ _ _ (b.rows d hd) (by omega)]
          exact b.toFrame.cellAt hsrc l
        · rw [Heap.cellAt_setCell_ne _ _ _ _ (Or.inr hlj)]
          exact hc l (by omega)
    · simp only [copyCells, has, Prod.mk.injEq] at hrun
      obtain ⟨rfl, rfl⟩ := hrun
      exact ⟨b, fun _ _ _ => rfl, fun hr => by cases hr⟩

/-- The loop of the deep-copy constructor: whatever happens, the heap it
started on is framed; when the loop completes, all rows are in place and hold
the elements of `other`. -/
theorem Matrix.copyLoop_spec (env : Env T σ) (h0 : Heap T) (other : Matrix)
    (v : other.Valid h0) :
    ∀ (k i : Nat) (w : World T σ), i + k = other.N → Built h0 other.N i w.heap →
      (∀ a j, a < i → j < other.N →
        w.heap.cellAt (h0.mem.length + 1 + a) j = h0.at2 other.Data a j) →
      ∀ r w1, Matrix.copyLoop env other h0.mem.length other.N k i w = (r, w1) →
        Started h0 w1.heap ∧
        (r = none → Built h0 other.N other.N w1.heap ∧
          ∀ a j, a < other.N → j < other.N →
            w1.heap.cellAt (h0.mem.length + 1 + a) j = h0.at2 other.Data a j) := by
  intro k
  induction k with
  | zero =>
    intro i w hik b hc r w1 hrun
    simp only [Matrix.copyLoop, Prod.mk.injEq] at hrun
    obtain ⟨rfl, rfl⟩ := hrun
    have : i = other.N := by omega
    subst this
    exact ⟨b.started, fun _ => ⟨b, hc⟩⟩
  | succ k ih =>
    intro i w hik b hc r w1 hrun
    have hiN : i < other.N := by omega
    rcases newElems_cases env other.N w with ⟨e, s, hn⟩ | ⟨e, s, hn⟩ | ⟨s, hn⟩
    · simp only [Matrix.copyLoop, hn, Prod.mk.injEq] at hrun
      obtain ⟨rfl, rfl⟩ := hrun
      exact ⟨b.started, fun hr => by cases hr⟩
    · simp only [Matrix.copyLoop, hn, Prod.mk.injEq] at hrun
      obtain ⟨rfl, rfl⟩ := hrun
      exact ⟨b.started_release _, fun hr => by cases hr⟩
    · have b1 := b.newRow hiN env.dinit
      rcases v.row i hiN with ⟨src, hsrc, hsl, _⟩
      have e1 : ((w.heap.alloc (.elems (List.replicate other.N env.dinit))).setPtr
          h0.mem.length i w.heap.mem.length).ptrAt other.Data i = some src := by
        rw [b1.toFrame.ptrAt v.dataLive.1]; exact hsrc
      have e2 := b1.link i (Nat.lt_succ_self i)
      simp only [Matrix.copyLoop, hn, Heap.fresh, e1, e2, stdCopy] at hrun
      rcases hcp : copyCells env src (h0.mem.length + 1 + i) other.N 0
          ⟨(w.heap.alloc (.elems (List.replicate other.N env.dinit))).setPtr
            h0.mem.length i w.heap.mem.length, s⟩ with ⟨r3, w3⟩
      have hs := copyCells_spec env h0 other.N (i + 1) i src (Nat.lt_succ_self i) other.N 0 _
        (by omega) b1 hsl.1 (fun l hl => absurd hl (Nat.not_lt_zero l)) r3 w3 hcp
      rw [hcp] at hrun
      cases r3 with
      | some e =>
        simp only [Prod.mk.injEq] at hrun
        obtain ⟨rfl, rfl⟩ := hrun
        exact ⟨hs.1.started, fun hr => by cases hr⟩
      | none =>
        simp only at hrun
        refine ih (i + 1) w3 (by omega) hs.1 ?_ r w1 hrun
        intro a j ha hj
        by_cases hai : a = i
        · subst hai
          rw [hs.2.2 rfl j hj]
          simp [Heap.at2, hsrc]
        · have hlt : a < i := by omega
          rw [hs.2.1 _ j (by omega), b.newRow_old env.dinit hlt]
          exact hc a j hlt hj

/-- What the deep-copy constructor does: the heap it started on is framed
whatever happens; when it returns a matrix, that matrix has the fields
`(other.N, h0.fresh)` and its storage holds the elements of `other`. -/
theorem Matrix.copyCtor_spec (env : Env T σ) (other : Matrix) (w : World T σ)
    (v : other.Valid w.heap) (res : Except Exn Matrix) (w1 : World T σ)
    (hrun : Matrix.copyCtor env other w = (res, w1)) :
    Heap.Frame w.heap w1.heap ∧
    ∀ M, res = .ok M → M = ⟨other.N, w.heap.mem.length⟩ ∧
      Built w.heap other.N other.N w1.heap ∧
      ∀ a j, a < other.N → j < other.N →
        w1.heap.cellAt (w.heap.mem.length + 1 + a) j = w.heap.at2 other.Data a j := by
  rcases newPtrs_cases env other.N w with ⟨e, s, hn⟩ | ⟨s, hn⟩
  · simp only [Matrix.copyCtor, hn, Prod.mk.injEq] at hrun
    obtain ⟨rfl, rfl⟩ := hrun
    exact ⟨Heap.Frame.refl _, fun M hM => by cases hM⟩
  · rcases hl : Matrix.copyLoop env other w.heap.mem.length other.N other.N 0
        ⟨w.heap.alloc (.ptrs (List.replicate other.N none)), s⟩ with ⟨r, w2⟩
    have hs := Matrix.copyLoop_spec env w.heap other v other.N 0 _ (by omega)
      (Built.init w.heap other.N) (fun a j ha _ => absurd ha (Nat.not_lt_zero a)) r w2 hl
    cases r with
    | none =>
      simp only [Matrix.copyCtor, hn, Heap.fresh, hl, Prod.mk.injEq] at hrun
      obtain ⟨rfl, rfl⟩ := hrun
      refine ⟨hs.1.frame, fun M hM => ?_⟩
      cases hM
      exact ⟨rfl, hs.2 rfl⟩
    | some e =>
      simp only [Matrix.copyCtor, hn, Heap.fresh, hl, Prod.mk.injEq] at hrun
      obtain ⟨rfl, rfl⟩ := hrun
      exact ⟨hs.1.frame, fun M hM => by cases hM⟩

/-- A matrix whose construction has completed is valid, provided the release
log of the heap it was built on is sound. -/
theorem Built.valid {h0 h : Heap T} {N : Nat} (b : Built h0 N N h) (wf : h0.WF) :
    Matrix.Valid h ⟨N, h0.mem.length⟩ where
  dataLive := ⟨by show h0.mem.length < h.mem.length; rw [b.len]; omega, fun hm => by
    rw [b.freed] at hm
    exact absurd (wf _ hm) (lt_irrefl _)⟩
  dataLen := b.dataLen
  row := fun i hi => ⟨h0.mem.length + 1 + i, b.link i hi,
    ⟨by have hi1 : i < N := hi; rw [b.len]; omega, fun hm => by
      rw [b.freed] at hm
      have := wf _ hm
      omega⟩, b.rows i hi⟩
  inj := fun i k hi hk e => by
    have hi2 : h.ptrAt h0.mem.length i = some (h0.mem.length + 1 + i) := b.link i hi
    have hk2 : h.ptrAt h0.mem.length k = some (h0.mem.length + 1 + k) := b.link k hk
    have e2 : h.ptrAt h0.mem.length i = h.ptrAt h0.mem.length k := e
    rw [hi2, hk2] at e2
    have := Option.some.inj e2
    omega

theorem Built.wf {h0 h : Heap T} {N i : Nat} (b : Built h0 N i h) (wf : h0.WF) : h.WF := by
  intro a ha
  rw [b.freed] at ha
  have := wf a ha
  rw [b.len]; omega

/-- A freshly built matrix shares no storage with a valid matrix of the heap
it was built on. -/
theorem Built.disjoint {h0 h : Heap T} {N : Nat} (b : Built h0 N N h) {A : Matrix}
    (v : A.Valid h0) : Matrix.Disjoint h A ⟨N, h0.mem.length⟩ := by
  refine ⟨fun e => ?_, fun i k hi hk e => ?_⟩
  · have := v.dataLive.1
    have e1 : A.Data = h0.mem.length := e
    omega
  · rcases v.row i hi with ⟨r, hr, hl, _⟩
    have e1 : h.ptrAt A.Data i = some r := by rw [b.toFrame.ptrAt v.dataLive.1]; exact hr
    have e2 : h.ptrAt h0.mem.length k = some (h0.mem.length + 1 + k) := b.link k hk
    have e3 : h.ptrAt A.Data i = h.ptrAt h0.mem.length k := e
    rw [e1, e2] at e3
    have := Option.some.inj e3
    have := hl.1
    omega

end Frames

/-! ## Element access, destruction and ownership -/

section Ownership

variable {T σ : Type}

theorem Heap.ptrAt_of_mem {h h1 : Heap T} (e : h1.mem = h.mem) (p i : Nat) :
    h1.ptrAt p i = h.ptrAt p i := by
  unfold Heap.ptrAt; rw [e]

theorem Heap.releasePtr_mem (h : Heap T) (p : Option Nat) : (h.releasePtr p).mem = h.mem := by
  cases p <;> rfl

/-- The row loop of the destructor does not write to memory. -/
theorem Matrix.releaseRows_mem (Data : Nat) :
    ∀ (k j : Nat) (h : Heap T), (Matrix.releaseRows Data k j h).mem = h.mem := by
  intro k
  induction k with
  | zero => intro j h; rfl
  | succ k ih =>
    intro j h
    simp only [Matrix.releaseRows]
    rw [ih, Heap.releasePtr_mem]

/-- The release log after the row loop of the destructor: the pointers
`Data[j]`, ..., `Data[j + k - 1]` have been released in that order. -/
theorem Matrix.releaseRows_freed (Data : Nat) :
    ∀ (k j : Nat) (h : Heap T), (Matrix.releaseRows Data k j h).freed =
      ((List.range' j k).filterMap (h.ptrAt Data)).reverse ++ h.freed := by
  intro k
  induction k with
  | zero => intro j h; simp [Matrix.releaseRows]
  | succ k ih =>
    intro j h
    simp only [Matrix.releaseRows]
    rw [ih]
    have e : (h.releasePtr (h.ptrAt Data j)).ptrAt Data = h.ptrAt Data := by
      funext i
      exact Heap.ptrAt_of_mem (Heap.releasePtr_mem _ _) Data i
    rw [e, List.range'_succ, List.filterMap_cons]
    cases hp : h.ptrAt Data j with
    | none => simp [Heap.releasePtr]
    | some a => simp [Heap.releasePtr, Heap.release]

theorem Matrix.dtor_mem (h : Heap T) (M : Matrix) : (Matrix.dtor h M).mem = h.mem := by
  unfold Matrix.dtor
  simp [Heap.release, Matrix.releaseRows_mem]

/-- The release log after the destructor: the rows in order, then the row
pointer array. -/
theorem Matrix.dtor_freed (h : Heap T) (M : Matrix) : (Matrix.dtor h M).freed =
    M.Data :: (((List.range' 0 M.N).filterMap (h.ptrAt M.Data)).reverse ++ h.freed) := by
  unfold Matrix.dtor
  simp [Heap.release, Matrix.releaseRows_freed]

/-- What the destructor releases: the row pointer array and the rows. -/
theorem Matrix.mem_dtor_freed (h : Heap T) (M : Matrix) (a : Nat) :
    a ∈ (Matrix.dtor h M).freed ↔
      a = M.Data ∨ (∃ i, i < M.N ∧ h.ptrAt M.Data i = some a) ∨ a ∈ h.freed := by
  rw [Matrix.dtor_freed]
  simp only [List.mem_cons, List.mem_append, List.mem_reverse, List.mem_filterMap,
    List.mem_range']
  constructor
  · rintro (h1 | ⟨i, ⟨k, hk, rfl⟩, hi⟩ | h3)
    · exact Or.inl h1
    · exact Or.inr (Or.inl ⟨0 + 1 * k, by omega, hi⟩)
    · exact Or.inr (Or.inr h3)
  · rintro (h1 | ⟨i, hi, hp⟩ | h3)
    · exact Or.inl h1
    · exact Or.inr (Or.inl ⟨i, ⟨i, hi, by omega⟩, hp⟩)
    · exact Or.inr (Or.inr h3)

theorem Matrix.get_of_mem {h h1 : Heap T} (e : h1.mem = h.mem) (M : Matrix) (i j : Nat) :
    Matrix.get h1 M i j = Matrix.get h M i j := by
  unfold Matrix.get Heap.at2 Heap.ptrAt Heap.cellAt
  rw [e]

/-- The destructor leaves the bytes alone: every element reads as before. -/
theorem Matrix.get_dtor (h : Heap T) (M X : Matrix) (i j : Nat) :
    Matrix.get (Matrix.dtor h M) X i j = Matrix.get h X i j :=
  Matrix.get_of_mem (Matrix.dtor_mem h M) X i j

theorem Matrix.Disjoint.symm {h : Heap T} {A B : Matrix} (d : Matrix.Disjoint h A B) :
    Matrix.Disjoint h B A :=
  ⟨fun e => d.1 e.symm, fun i k hi hk e => d.2 k i hk hi e.symm⟩

/-- Two valid matrices of `h0` that own different storage still do in every
heap framed on `h0`. -/
theorem Matrix.Disjoint.disjoint_frame {h0 h : Heap T} {A B : Matrix} (d : Matrix.Disjoint h0 A B)
    (vA : A.Valid h0) (vB : B.Valid h0) (f : Heap.Frame h0 h) : Matrix.Disjoint h A B :=
  ⟨d.1, fun i k hi hk e => by
    rw [f.ptrAt vA.dataLive.1, f.ptrAt vB.dataLive.1] at e
    exact d.2 i k hi hk e⟩

/-- Destroying a matrix leaves a valid matrix that owns different storage
valid. -/
theorem Matrix.Valid.dtor_other {h : Heap T} {X M : Matrix} (vX : X.Valid h) (vM : M.Valid h)
    (d : Matrix.Disjoint h X M) : X.Valid (Matrix.dtor h M) := by
  have hm := Matrix.dtor_mem h M
  have hnot : ∀ a, h.live a → a ≠ M.Data →
      (∀ k, k < M.N → h.ptrAt M.Data k ≠ some a) → (Matrix.dtor h M).live a := by
    intro a hl h1 h2
    refine ⟨by rw [hm]; exact hl.1, fun hmem => ?_⟩
    rcases (Matrix.mem_dtor_freed h M a).1 hmem with e | ⟨k, hk, hp⟩ | e
    · exact h1 e
    · exact h2 k hk hp
    · exact hl.2 e
  refine ⟨hnot _ vX.dataLive d.1 ?_, ?_, ?_, ?_⟩
  · intro k hk hp
    rcases vM.row k hk with ⟨r, hr, _, hrl⟩
    rw [hr] at hp
    cases hp
    exact Heap.ptrLen_rowLen_ne vX.dataLen hrl
  · have e : (Matrix.dtor h M).ptrLen X.Data = h.ptrLen X.Data :=
      Heap.ptrLen_congr (by rw [hm])
    rw [e]; exact vX.dataLen
  · intro i hi
    rcases vX.row i hi with ⟨r, hr, hl, hrl⟩
    have e : (Matrix.dtor h M).rowLen r = h.rowLen r := Heap.rowLen_congr (by rw [hm])
    refine ⟨r, by rw [Heap.ptrAt_of_mem hm]; exact hr, hnot r hl ?_ ?_, by rw [e]; exact hrl⟩
    · intro e
      subst e
      exact Heap.ptrLen_rowLen_ne vM.dataLen hrl
    · intro k hk hp
      exact d.2 i k hi hk (by rw [hr, hp])
  · intro i k hi hk e
    rw [Heap.ptrAt_of_mem hm, Heap.ptrAt_of_mem hm] at e
    exact vX.inj i k hi hk e

/-- A write through `M(i, j)` is read back. -/
theorem Matrix.get_put_same {h : Heap T} {M : Matrix} (v : M.Valid h) {i j : Nat}
    (hi : i < M.N) (hj : j < M.N) (x : T) :
    Matrix.get (Matrix.put h M i j x) M i j = some x := by
  rcases v.row i hi with ⟨r, hr, _, hrl⟩
  simp only [Matrix.get, Matrix.put, Heap.at2, Heap.setAt2, hr, Heap.ptrAt_setCell]
  exact Heap.cellAt_setCell_eq _ _ _ _ hrl hj

/-- A write through `M(i, j)` leaves the other elements of `M` alone. -/
theorem Matrix.get_put_ne {h : Heap T} {M : Matrix} (v : M.Valid h) {i j k l : Nat}
    (hi : i < M.N) (hk : k < M.N) (hne : k ≠ i ∨ l ≠ j) (x : T) :
    Matrix.get (Matrix.put h M i j x) M k l = Matrix.get h M k l := by
  rcases v.row i hi with ⟨r, hr, _, _⟩
  rcases v.row k hk with ⟨r1, hr1, _, _⟩
  simp only [Matrix.get, Matrix.put, Heap.at2, Heap.setAt2, hr, hr1, Heap.ptrAt_setCell]
  apply Heap.cellAt_setCell_ne
  rcases hne with h1 | h1
  · left
    intro e
    subst e
    exact h1 (v.inj k i hk hi (by rw [hr, hr1]))
  · exact Or.inr h1

/-- A write through `A(i, j)` is not seen through a matrix that owns
different storage. -/
theorem Matrix.get_put_other {h : Heap T} {A B : Matrix} (vA : A.Valid h) (vB : B.Valid h)
    (d : Matrix.Disjoint h A B) {i k : Nat} (hi : i < A.N) (hk : k < B.N) (j l : Nat) (x : T) :
    Matrix.get (Matrix.put h A i j x) B k l = Matrix.get h B k l := by
  rcases vA.row i hi with ⟨r, hr, _, _⟩
  rcases vB.row k hk with ⟨r1, hr1, _, _⟩
  simp only [Matrix.get, Matrix.put, Heap.at2, Heap.setAt2, hr, hr1, Heap.ptrAt_setCell]
  apply Heap.cellAt_setCell_ne
  left
  intro e
  subst e
  exact d.2 i k hi hk (by rw [hr, hr1])

end Ownership

/-! ## Runs in which nothing throws -/

section NoThrow

variable {T σ : Type}

theorem ctorElems_noThrow (env : Env T σ) (nt : env.NoThrow) :
    ∀ (k : Nat) (s : σ), (ctorElems env k s).2 = none := by
  intro k
  induction k with
  | zero => intro s; rfl
  | succ k ih =>
    intro s
    rcases hc : env.ctor s with ⟨s1, _ | e⟩
    · simp only [ctorElems, hc]; exact ih s1
    · have := (nt s).2.1
      rw [hc] at this
      cases this

theorem newElems_noThrow (env : Env T σ) (nt : env.NoThrow) (n : Nat) (w : World T σ) :
    ∃ s, newElems env n w =
      (.ok w.heap.fresh, ⟨w.heap.alloc (.elems (List.replicate n env.dinit)), s⟩) := by
  rcases ha : env.alloc w.st with ⟨s, _ | e⟩
  · rcases hc : ctorElems env n s with ⟨s1, _ | e⟩
    · exact ⟨s1, by simp only [newElems, ha, hc]⟩
    · have := ctorElems_noThrow env nt n s
      rw [hc] at this
      cases this
  · have := (nt w.st).1
    rw [ha] at this
    cases this

theorem newPtrs_noThrow (env : Env T σ) (nt : env.NoThrow) (n : Nat) (w : World T σ) :
    ∃ s, newPtrs env n w =
      (.ok w.heap.fresh, ⟨w.heap.alloc (.ptrs (List.replicate n none)), s⟩) := by
  rcases ha : env.alloc w.st with ⟨s, _ | e⟩
  · exact ⟨s, by simp only [newPtrs, ha]⟩
  · have := (nt w.st).1
    rw [ha] at this
    cases this

theorem Matrix.ctorLoop_noThrow (env : Env T σ) (nt : env.NoThrow) (Data N : Nat) (lambda : T) :
    ∀ (k i : Nat) (w : World T σ), (Matrix.ctorLoop env Data N lambda k i w).1 = none := by
  intro k
  induction k with
  | zero => intro i w; rfl
  | succ k ih =>
    intro i w
    rcases newElems_noThrow env nt N w with ⟨s, hn⟩
    rcases has : env.assign s with ⟨s1, _ | e⟩
    · simp only [Matrix.ctorLoop, hn, has]
      exact ih _ _
    · have := (nt s).2.2
      rw [has] at this
      cases this

/-- When nothing throws, the constructor returns a matrix. -/
theorem Matrix.ctor_noThrow (env : Env T σ) (nt : env.NoThrow) (n : Nat) (lambda : T)
    (w : World T σ) : ∃ M w1, Matrix.ctor env n lambda w = (.ok M, w1) := by
  rcases newPtrs_noThrow env nt n w with ⟨s, hn⟩
  rcases hl : Matrix.ctorLoop env w.heap.fresh n lambda n 0
      ⟨w.heap.alloc (.ptrs (List.replicate n none)), s⟩ with ⟨r, w2⟩
  have := Matrix.ctorLoop_noThrow env nt w.heap.fresh n lambda n 0
    ⟨w.heap.alloc (.ptrs (List.replicate n none)), s⟩
  rw [hl] at this
  simp only at this
  subst this
  exact ⟨⟨n, w.heap.fresh⟩, w2, by simp only [Matrix.ctor, hn, hl]⟩

theorem copyCells_noThrow (env : Env T σ) (nt : env.NoThrow) (src dst : Nat) :
    ∀ (k j : Nat) (w : World T σ), (copyCells env src dst k j w).1 = none := by
  intro k
  induction k with
  | zero => intro j w; rfl
  | succ k ih =>
    intro j w
    rcases has : env.assign w.st with ⟨s1, _ | e⟩
    · simp only [copyCells, has]
      exact ih _ _
    · have := (nt w.st).2.2
      rw [has] at this
      cases this

theorem stdCopy_noThrow (env : Env T σ) (nt : env.NoThrow) (src dst : Option Nat) (n : Nat)
    (w : World T σ) : (stdCopy env src dst n w).1 = none := by
  unfold stdCopy
  split
  · exact copyCells_noThrow env nt _ _ _ _ _
  · rfl

theorem Matrix.copyLoop_noThrow (env : Env T σ) (nt : env.NoThrow) (other : Matrix)
    (Data N : Nat) :
    ∀ (k i : Nat) (w : World T σ), (Matrix.copyLoop env other Data N k i w).1 = none := by
  intro k
  induction k with
  | zero => intro i w; rfl
  | succ k ih =>
    intro i w
    rcases newElems_noThrow env nt N w with ⟨s, hn⟩
    simp only [Matrix.copyLoop, hn]
    have hc := stdCopy_noThrow env nt
      (((w.heap.alloc (.elems (List.replicate N env.dinit))).setPtr Data i w.heap.fresh).ptrAt
        other.Data i)
      (((w.heap.alloc (.elems (List.replicate N env.dinit))).setPtr Data i w.heap.fresh).ptrAt
        Data i) N
      ⟨(w.heap.alloc (.elems (List.replicate N env.dinit))).setPtr Data i w.heap.fresh, s⟩
    revert hc
    rcases stdCopy env _ _ N _ with ⟨r3, w3⟩
    intro hc
    simp only at hc
    subst hc
    exact ih _ _

/-- When nothing throws, the deep-copy constructor returns a matrix. -/
theorem Matrix.copyCtor_noThrow (env : Env T σ) (nt : env.NoThrow) (other : Matrix)
    (w : World T σ) : ∃ M w1, Matrix.copyCtor env other w = (.ok M, w1) := by
  rcases newPtrs_noThrow env nt other.N w with ⟨s, hn⟩
  rcases hl : Matrix.copyLoop env other w.heap.fresh other.N other.N 0
      ⟨w.heap.alloc (.ptrs (List.replicate other.N none)), s⟩ with ⟨r, w2⟩
  have := Matrix.copyLoop_noThrow env nt other w.heap.fresh other.N other.N 0
    ⟨w.heap.alloc (.ptrs (List.replicate other.N none)), s⟩
  rw [hl] at this
  simp only at this
  subst this
  exact ⟨⟨other.N, w.heap.fresh⟩, w2, by simp only [Matrix.copyCtor, hn, hl]⟩

/-- When nothing throws, the assignment completes. -/
theorem Matrix.assign_noThrow (env : Env T σ) (nt : env.NoThrow) (self other : Matrix)
    (w : World T σ) : (Matrix.assign env self other w).exn = none := by
  rcases Matrix.copyCtor_noThrow env nt other w with ⟨M, w1, hc⟩
  simp only [Matrix.assign, hc]

theorem intEnv_noThrow : intEnv.NoThrow := fun _ => ⟨rfl, rfl, rfl⟩

theorem faultyEnv_noThrow : (faultyEnv 0 0 0).NoThrow := fun _ => ⟨rfl, rfl, rfl⟩

theorem World.empty_wf (s : σ) : (World.empty s : World T σ).heap.WF := by
  intro a ha
  cases ha

/-- A matrix returned by the constructor is valid. -/
theorem Matrix.ctor_valid (env : Env T σ) (n : Nat) (lambda : T) (w : World T σ)
    (wf : w.heap.WF) (M : Matrix) (w1 : World T σ)
    (hrun : Matrix.ctor env n lambda w = (.ok M, w1)) : M.Valid w1.heap ∧ w1.heap.WF := by
  have hs := (Matrix.ctor_spec env n lambda w _ w1 hrun).2 M rfl
  rw [hs.1]
  exact ⟨hs.2.1.valid wf, hs.2.1.wf wf⟩

/-- The elements of a matrix returned by the constructor: `lambda` on the
diagonal, default-initialised elements off it. -/
theorem Matrix.ctor_get (env : Env T σ) (n : Nat) (lambda : T) (w : World T σ)
    (M : Matrix) (w1 : World T σ) (hrun : Matrix.ctor env n lambda w = (.ok M, w1))
    (i j : Nat) (hi : i < n) (hj : j < n) :
    Matrix.get w1.heap M i j = if j = i then some lambda else env.dinit := by
  have hs := (Matrix.ctor_spec env n lambda w _ w1 hrun).2 M rfl
  rw [hs.1]
  show w1.heap.at2 w.heap.mem.length i j = _
  rw [hs.2.1.at2_eq hi]
  exact hs.2.2 i j hi hj

theorem VecMatrix.ctorLoop_length {T : Type} (dflt lambda : T) (n : Nat) :
    ∀ (k i : Nat) (d : List (List T)),
      (VecMatrix.ctorLoop dflt lambda n k i d).length = d.length := by
  intro k
  induction k with
  | zero => intro i d; rfl
  | succ k ih =>
    intro i d
    simp only [VecMatrix.ctorLoop]
    rw [ih]
    simp

end NoThrow

/-! ## Construction and deep copy -/

section Claims

variable {T σ : Type}

/-- What a completed construction gives: the fields of the new matrix, a
frame on the heap before, and a valid matrix that shares nothing with the
valid matrices there were. -/
theorem Matrix.ctor_ok (env : Env T σ) (n : Nat) (lambda : T) (w : World T σ)
    (wf : w.heap.WF) (M : Matrix) (w1 : World T σ)
    (hrun : Matrix.ctor env n lambda w = (.ok M, w1)) :
    M = ⟨n, w.heap.mem.length⟩ ∧ Heap.Frame w.heap w1.heap ∧ M.Valid w1.heap ∧ w1.heap.WF ∧
      ∀ X : Matrix, X.Valid w.heap → Matrix.Disjoint w1.heap X M := by
  have hs := Matrix.ctor_spec env n lambda w _ w1 hrun
  have hm := hs.2 M rfl
  refine ⟨hm.1, hs.1, ?_, hm.2.1.wf wf, ?_⟩
  · rw [hm.1]; exact hm.2.1.valid wf
  · intro X vX
    rw [hm.1]; exact hm.2.1.disjoint vX

/-- What a completed deep copy gives: the fields of the copy, a frame on the
heap before, a valid copy that shares nothing with the valid matrices there
were, and the elements of the source in the copy. -/
theorem Matrix.copyCtor_ok (env : Env T σ) (A : Matrix) (w : World T σ)
    (wf : w.heap.WF) (v : A.Valid w.heap) (B : Matrix) (w1 : World T σ)
    (hrun : Matrix.copyCtor env A w = (.ok B, w1)) :
    B = ⟨A.N, w.heap.mem.length⟩ ∧ Heap.Frame w.heap w1.heap ∧ B.Valid w1.heap ∧ w1.heap.WF ∧
      (∀ X : Matrix, X.Valid w.heap → Matrix.Disjoint w1.heap X B) ∧
      ∀ i j, i < A.N → j < A.N → Matrix.get w1.heap B i j = Matrix.get w.heap A i j := by
  have hs := Matrix.copyCtor_spec env A w v _ w1 hrun
  have hm := hs.2 B rfl
  refine ⟨hm.1, hs.1, ?_, hm.2.1.wf wf, ?_, ?_⟩
  · rw [hm.1]; exact hm.2.1.valid wf
  · intro X vX
    rw [hm.1]; exact hm.2.1.disjoint vX
  · intro i j hi hj
    rw [hm.1]
    show w1.heap.at2 w.heap.mem.length i j = w.heap.at2 A.Data i j
    rw [hm.2.1.at2_eq hi]
    exact hm.2.2 i j hi hj

/-- C1 (the code falls short of it).  The constructor of lines 43-49 at a
failure: with a class element type, `Matrix(2, 7)` run on an empty free store
ends with the exception, and storage allocated by the construction is still
live afterwards, where nothing was live before.  When the allocation of the
first row fails the row pointer array (address 0) stays live; when the
constructor of an element of the first row throws the row pointer array stays
live; when the assignment to the second diagonal element throws the row
pointer array and both rows (addresses 0, 1, 2) stay live.  The guarded body
of lines 254-265 releases everything when `new T [N]` fails (here on the
second row) and leaks the same three blocks when the assignment throws. -/
theorem ctor_failure_leaks :
    ((Matrix.ctor (faultyEnv 2 0 0) 2 7 w0).1 = .error .badAlloc ∧
      (Matrix.ctor (faultyEnv 2 0 0) 2 7 w0).2.heap.live 0) ∧
    ((Matrix.ctor (faultyEnv 0 2 0) 2 7 w0).1 = .error (.thrownInt 42) ∧
      (Matrix.ctor (faultyEnv 0 2 0) 2 7 w0).2.heap.live 0) ∧
    ((Matrix.ctor (faultyEnv 0 0 2) 2 7 w0).1 = .error (.thrownInt 43) ∧
      (Matrix.ctor (faultyEnv 0 0 2) 2 7 w0).2.heap.live 0 ∧
      (Matrix.ctor (faultyEnv 0 0 2) 2 7 w0).2.heap.live 1 ∧
      (Matrix.ctor (faultyEnv 0 0 2) 2 7 w0).2.heap.live 2) ∧
    ((Matrix.guardedCtor (faultyEnv 3 0 0) 2 7 w0).1 = .error .badAlloc ∧
      ∀ a, a < 3 → ¬ (Matrix.guardedCtor (faultyEnv 3 0 0) 2 7 w0).2.heap.live a) ∧
    ((Matrix.guardedCtor (faultyEnv 0 0 2) 2 7 w0).1 = .error (.thrownInt 43) ∧
      (Matrix.guardedCtor (faultyEnv 0 0 2) 2 7 w0).2.heap.live 0 ∧
      (Matrix.guardedCtor (faultyEnv 0 0 2) 2 7 w0).2.heap.live 1 ∧
      (Matrix.guardedCtor (faultyEnv 0 0 2) 2 7 w0).2.heap.live 2) ∧
    ∀ a, ¬ w0.heap.live a := by
  refine ⟨⟨rfl, by decide⟩, ⟨rfl, by decide⟩, ⟨rfl, by decide, by decide, by decide⟩,
    ⟨rfl, by decide⟩, ⟨rfl, by decide, by decide, by decide⟩, ?_⟩
  intro a ha
  exact absurd ha.1 (Nat.not_lt_zero a)

/-- C2.  A matrix returned by `Matrix(n, lambda)` reports `size() == n`, for
every `n`, `lambda`, element type and starting state; when nothing throws the
constructor does return a matrix; and the `std::vector` variant of the class
reports `size() == n` as well. -/
theorem ctor_size (env : Env T σ) (n : Nat) (lambda : T) (w : World T σ) :
    (∀ M w1, Matrix.ctor env n lambda w = (.ok M, w1) → M.size = n) ∧
    (env.NoThrow → ∃ M w1, Matrix.ctor env n lambda w = (.ok M, w1) ∧ M.size = n) ∧
    (VecMatrix.ctor env.dflt n lambda).size = n := by
  have h1 : ∀ M w1, Matrix.ctor env n lambda w = (.ok M, w1) → M.size = n := by
    intro M w1 hrun
    rw [((Matrix.ctor_spec env n lambda w _ w1 hrun).2 M rfl).1]
    rfl
  refine ⟨h1, fun nt => ?_, ?_⟩
  · rcases Matrix.ctor_noThrow env nt n lambda w with ⟨M, w1, hrun⟩
    exact ⟨M, w1, hrun, h1 M w1 hrun⟩
  · simp [VecMatrix.size, VecMatrix.ctor, VecMatrix.ctorLoop_length]

/-- Instance of C2: `Matrix<int> A(3, 5)` returns a matrix of size 3. -/
theorem ctor_size_witness :
    Matrix.ctor intEnv 3 5 (World.empty ()) =
      (.ok ⟨3, 0⟩, (Matrix.ctor intEnv 3 5 (World.empty ())).2) ∧
    Matrix.size ⟨3, 0⟩ = 3 :=
  ⟨rfl, (ctor_size intEnv 3 5 (World.empty ())).1 ⟨3, 0⟩ _ rfl⟩

/-- C3 (the code falls short of it).  `Matrix<int> M(2, 5)`: the constructor
returns, `M(0, 0)` and `M(1, 1)` hold `5`, and the off-diagonal elements
`M(0, 1)` and `M(1, 0)` hold no determinate value: `new T [N]` leaves the
elements of an `int` array uninitialised, so they are not `int()`, which is
`0`. -/
theorem ctor_int_offdiag_indeterminate :
    (Matrix.ctor intEnv 2 5 (World.empty ())).1 = .ok ⟨2, 0⟩ ∧
    Matrix.get (Matrix.ctor intEnv 2 5 (World.empty ())).2.heap ⟨2, 0⟩ 0 0 = some 5 ∧
    Matrix.get (Matrix.ctor intEnv 2 5 (World.empty ())).2.heap ⟨2, 0⟩ 1 1 = some 5 ∧
    Matrix.get (Matrix.ctor intEnv 2 5 (World.empty ())).2.heap ⟨2, 0⟩ 0 1 = none ∧
    Matrix.get (Matrix.ctor intEnv 2 5 (World.empty ())).2.heap ⟨2, 0⟩ 1 0 = none ∧
    Matrix.get (Matrix.ctor intEnv 2 5 (World.empty ())).2.heap ⟨2, 0⟩ 0 1 ≠ some intEnv.dflt :=
  ⟨rfl, rfl, rfl, rfl, rfl, by decide⟩

/-- C4.  The deep-copy constructor applied to a valid matrix `A`: a copy `B`
it returns has `B.size() == A.size()` and `B(i, j) == A(i, j)` for all `i`,
`j` below `A.size()`; and when nothing throws it does return a copy. -/
theorem copyCtor_size_get (env : Env T σ) (A : Matrix) (w : World T σ) (v : A.Valid w.heap) :
    (∀ B w1, Matrix.copyCtor env A w = (.ok B, w1) →
      B.size = A.size ∧
      ∀ i j, i < A.size → j < A.size → Matrix.get w1.heap B i j = Matrix.get w.heap A i j) ∧
    (env.NoThrow → ∃ B w1, Matrix.copyCtor env A w = (.ok B, w1)) := by
  refine ⟨fun B w1 hrun => ?_, fun nt => Matrix.copyCtor_noThrow env nt A w⟩
  have hs := Matrix.copyCtor_spec env A w v _ w1 hrun
  have hm := hs.2 B rfl
  refine ⟨by rw [hm.1]; rfl, fun i j hi hj => ?_⟩
  rw [hm.1]
  show w1.heap.at2 w.heap.mem.length i j = w.heap.at2 A.Data i j
  rw [hm.2.1.at2_eq hi]
  exact hm.2.2 i j hi hj

/-- After `Matrix<T> A(2, 7)` the object `A` is valid. -/
theorem afterA_valid : Matrix.Valid (afterA (faultyEnv 0 0 0)).heap ⟨2, 0⟩ ∧
    (afterA (faultyEnv 0 0 0)).heap.WF :=
  Matrix.ctor_valid (faultyEnv 0 0 0) 2 7 w0 (World.empty_wf _) ⟨2, 0⟩ _ rfl

/-- Instance of C4: the copy of the 2 x 2 matrix with 7 on the diagonal. -/
theorem copyCtor_size_get_witness :
    Matrix.Valid (afterA (faultyEnv 0 0 0)).heap ⟨2, 0⟩ ∧
    Matrix.size ⟨2, 3⟩ = Matrix.size ⟨2, 0⟩ ∧
    Matrix.get (Matrix.copyCtor (faultyEnv 0 0 0) ⟨2, 0⟩ (afterA (faultyEnv 0 0 0))).2.heap
      ⟨2, 3⟩ 0 0 = some 7 ∧
    Matrix.get (Matrix.copyCtor (faultyEnv 0 0 0) ⟨2, 0⟩ (afterA (faultyEnv 0 0 0))).2.heap
      ⟨2, 3⟩ 0 1 = some 0 :=
  have h := (copyCtor_size_get (faultyEnv 0 0 0) ⟨2, 0⟩ (afterA (faultyEnv 0 0 0))
    afterA_valid.1).1 ⟨2, 3⟩ _ rfl
  ⟨afterA_valid.1, h.1, (h.2 0 0 (by decide) (by decide)).trans rfl,
    (h.2 0 1 (by decide) (by decide)).trans rfl⟩

/-- C5.  No aliasing after a deep copy: for a valid matrix `A` and a copy `B`
returned by the deep-copy constructor, both are valid matrices afterwards,
the row pointer array and the rows of `B` are different blocks from those of
`A`, and for all in-range `(i, j)`, `(k, l)` and every value `x`, writing `x`
to `B(i, j)` leaves `A(k, l)` as it was and writing `x` to `A(i, j)` leaves
`B(k, l)` as it was. -/
theorem copyCtor_no_alias (env : Env T σ) (A : Matrix) (w : World T σ) (wf : w.heap.WF)
    (v : A.Valid w.heap) (B : Matrix) (w1 : World T σ)
    (hrun : Matrix.copyCtor env A w = (.ok B, w1)) :
    A.Valid w1.heap ∧ B.Valid w1.heap ∧ Matrix.Disjoint w1.heap A B ∧
    ∀ i j k l, i < A.size → j < A.size → k < A.size → l < A.size → ∀ x : T,
      Matrix.get (Matrix.put w1.heap B i j x) A k l = Matrix.get w1.heap A k l ∧
      Matrix.get (Matrix.put w1.heap A i j x) B k l = Matrix.get w1.heap B k l := by
  have hc := Matrix.copyCtor_ok env A w wf v B w1 hrun
  have vA := v.valid_frame hc.2.1
  have vB := hc.2.2.1
  have d := hc.2.2.2.2.1 A v
  have hN : B.N = A.N := by rw [hc.1]
  refine ⟨vA, vB, d, fun i j k l hi _ hk _ x => ⟨?_, ?_⟩⟩
  · exact Matrix.get_put_other vB vA d.symm (by rw [hN]; exact hi) hk j l x
  · exact Matrix.get_put_other vA vB d hi (by rw [hN]; exact hk) j l x

/-- Instance of C5: after copying the 2 x 2 matrix `A` into `B`, writing 1 to
`B(0, 0)` leaves `A(0, 0)` at 7, and writing 1 to `A(0, 0)` leaves `B(0, 0)`
at 7. -/
theorem copyCtor_no_alias_witness :
    (afterA (faultyEnv 0 0 0)).heap.WF ∧ Matrix.Valid (afterA (faultyEnv 0 0 0)).heap ⟨2, 0⟩ ∧
    Matrix.get (Matrix.put
      (Matrix.copyCtor (faultyEnv 0 0 0) ⟨2, 0⟩ (afterA (faultyEnv 0 0 0))).2.heap
      ⟨2, 3⟩ 0 0 1) ⟨2, 0⟩ 0 0 = some 7 ∧
    Matrix.get (Matrix.put
      (Matrix.copyCtor (faultyEnv 0 0 0) ⟨2, 0⟩ (afterA (faultyEnv 0 0 0))).2.heap
      ⟨2, 0⟩ 0 0 1) ⟨2, 3⟩ 0 0 = some 7 :=
  have h := (copyCtor_no_alias (faultyEnv 0 0 0) ⟨2, 0⟩ (afterA (faultyEnv 0 0 0))
    afterA_valid.2 afterA_valid.1 ⟨2, 3⟩ _ rfl).2.2.2 0 0 0 0 (by decide) (by decide)
    (by decide) (by decide) 1
  ⟨afterA_valid.2, afterA_valid.1, h.1.trans rfl, h.2.trans rfl⟩

/-! ## The guarded constructor body -/

/-- The handler of the guarded constructor is the destructor run on the rows
built so far. -/
theorem Matrix.handler_eq_dtor (h : Heap T) (Data i : Nat) :
    (Matrix.releaseRows Data i 0 h).release Data = Matrix.dtor h ⟨i, Data⟩ := rfl

/-- Releasing the `i` rows built so far and the row pointer array brings the
live blocks back to those of the heap the construction started on; `h` is
the heap the handler finds: `i` rows linked, and possibly one more block
behind them, already released. -/
theorem Matrix.handler_live {h0 h : Heap T} {i : Nat}
    (hlo : h0.mem.length + 1 + i ≤ h.mem.length) (hhi : h.mem.length ≤ h0.mem.length + 2 + i)
    (hlink : ∀ k, k < i → h.ptrAt h0.mem.length k = some (h0.mem.length + 1 + k))
    (hfreed : ∀ a, a ∈ h.freed ↔
      a ∈ h0.freed ∨ (a = h0.mem.length + 1 + i ∧ h.mem.length = h0.mem.length + 2 + i)) :
    ∀ a, (Matrix.dtor h ⟨i, h0.mem.length⟩).live a ↔ h0.live a := by
  intro a
  unfold Heap.live
  rw [Matrix.dtor_mem, Matrix.mem_dtor_freed, hfreed]
  constructor
  · rintro ⟨hlt, hn⟩
    have h1 : a ≠ h0.mem.length := fun e => hn (Or.inl e)
    have h2 : ∀ k, k < i → a ≠ h0.mem.length + 1 + k := fun k hk e =>
      hn (Or.inr (Or.inl ⟨k, hk, by rw [hlink k hk, e]⟩))
    have h3 : a ∉ h0.freed := fun e => hn (Or.inr (Or.inr (Or.inl e)))
    have h4 : ¬ (a = h0.mem.length + 1 + i ∧ h.mem.length = h0.mem.length + 2 + i) :=
      fun e => hn (Or.inr (Or.inr (Or.inr e)))
    refine ⟨?_, h3⟩
    by_contra hge
    by_cases hk : a - (h0.mem.length + 1) < i
    · exact h2 (a - (h0.mem.length + 1)) hk (by omega)
    · exact h4 ⟨by omega, by omega⟩
  · rintro ⟨hlt, hn⟩
    refine ⟨by omega, ?_⟩
    rintro (e | ⟨k, hk, hp⟩ | e | ⟨e, _⟩)
    · have e1 : a = h0.mem.length := e
      omega
    · have hk1 : k < i := hk
      have hp1 : h.ptrAt h0.mem.length k = some a := hp
      rw [hlink k hk1] at hp1
      have := Option.some.inj hp1
      omega
    · exact hn e
    · omega

/-- The loop of the guarded constructor body, for an element type whose copy
assignment does not throw: when the loop completes the rows are in place;
when `new T [N]` fails, the handler has brought the live blocks back to those
of the heap the construction started on. -/
theorem Matrix.guardedLoop_spec (env : Env T σ) (hassign : ∀ s, (env.assign s).2 = none)
    (h0 : Heap T) (N : Nat) (lambda : T) :
    ∀ (k i : Nat) (w : World T σ), i + k = N → Built h0 N i w.heap →
      ∀ r w1, Matrix.guardedLoop env h0.mem.length N lambda k i w = (r, w1) →
        (r = none → Built h0 N N w1.heap) ∧
        (r ≠ none → ∀ a, w1.heap.live a ↔ h0.live a) := by
  intro k
  induction k with
  | zero =>
    intro i w hik b r w1 hrun
    simp only [Matrix.guardedLoop, Prod.mk.injEq] at hrun
    obtain ⟨rfl, rfl⟩ := hrun
    have : i = N := by omega
    subst this
    exact ⟨fun _ => b, fun hr => absurd rfl hr⟩
  | succ k ih =>
    intro i w hik b r w1 hrun
    have hiN : i < N := by omega
    rcases newElems_cases env N w with ⟨e, s, hn⟩ | ⟨e, s, hn⟩ | ⟨s, hn⟩
    · simp only [Matrix.guardedLoop, hn, Prod.mk.injEq] at hrun
      obtain ⟨rfl, rfl⟩ := hrun
      refine ⟨fun hr => (by cases hr), fun _ => ?_⟩
      show ∀ a, ((Matrix.releaseRows h0.mem.length i 0 w.heap).release h0.mem.length).live a ↔ _
      rw [Matrix.handler_eq_dtor]
      refine Matrix.handler_live (by rw [b.len]) (by rw [b.len]; omega) b.link ?_
      intro a
      rw [b.freed, b.len]
      constructor
      · exact fun h1 => Or.inl h1
      · rintro (h1 | ⟨_, h2⟩)
        · exact h1
        · omega
    · simp only [Matrix.guardedLoop, hn, Prod.mk.injEq] at hrun
      obtain ⟨rfl, rfl⟩ := hrun
      refine ⟨fun hr => (by cases hr), fun _ => ?_⟩
      show ∀ a, ((Matrix.releaseRows h0.mem.length i 0
        ((w.heap.alloc (.elems (List.replicate N none))).release w.heap.fresh)).release
          h0.mem.length).live a ↔ _
      rw [Matrix.handler_eq_dtor]
      have hl : ((w.heap.alloc (.elems (List.replicate N none))).release w.heap.fresh).mem.length
          = h0.mem.length + 2 + i := by
        show (w.heap.alloc _).mem.length = _
        rw [Heap.alloc_length, b.len]; omega
      refine Matrix.handler_live (by rw [hl]; omega) (by rw [hl]) ?_ ?_
      · intro k hk
        have h2 : h0.mem.length < w.heap.mem.length := by rw [b.len]; omega
        have e : ((w.heap.alloc (.elems (List.replicate N none))).release w.heap.fresh).ptrAt
            h0.mem.length k = w.heap.ptrAt h0.mem.length k :=
          Heap.ptrAt_congr (Heap.alloc_mem_lt _ _ h2) k
        rw [e]; exact b.link k hk
      · intro a
        rw [hl]
        show a ∈ w.heap.fresh :: w.heap.freed ↔ _
        unfold Heap.fresh
        rw [List.mem_cons, b.freed, b.len]
        constructor
        · rintro (h1 | h1)
          · exact Or.inr ⟨h1, rfl⟩
          · exact Or.inl h1
        · rintro (h1 | ⟨h1, _⟩)
          · exact Or.inr h1
          · exact Or.inl h1
    · have b1 := b.newRow hiN env.dinit
      rcases has : env.assign s with ⟨s1, _ | e⟩
      · simp only [Matrix.guardedLoop, hn, has] at hrun
        unfold Heap.fresh at hrun
        rw [b1.setAt2_eq (Nat.lt_succ_self i)] at hrun
        exact ih (i + 1) _ (by omega) (b1.setCell_built i i (some lambda)) r w1 hrun
      · have := hassign s
        rw [has] at this
        cases this

/-- The guarded constructor body keeps the guarantee for the failures it
guards: when the element type's copy assignment does not throw and the
construction fails (an allocation fails or a default constructor throws), the
live blocks after the failure are those before the construction. -/
theorem Matrix.guardedCtor_no_leak (env : Env T σ) (hassign : ∀ s, (env.assign s).2 = none)
    (n : Nat) (lambda : T) (w : World T σ) (e : Exn) (w1 : World T σ)
    (hrun : Matrix.guardedCtor env n lambda w = (.error e, w1)) :
    ∀ a, w1.heap.live a ↔ w.heap.live a := by
  rcases newPtrs_cases env n w with ⟨e1, s, hn⟩ | ⟨s, hn⟩
  · simp only [Matrix.guardedCtor, hn, Prod.mk.injEq] at hrun
    obtain ⟨_, rfl⟩ := hrun
    exact fun a => Iff.rfl
  · rcases hl : Matrix.guardedLoop env w.heap.mem.length n lambda n 0
        ⟨w.heap.alloc (.ptrs (List.replicate n none)), s⟩ with ⟨r, w2⟩
    have hs := Matrix.guardedLoop_spec env hassign w.heap n lambda n 0 _ (by omega)
      (Built.init w.heap n) r w2 hl
    cases r with
    | none =>
      simp only [Matrix.guardedCtor, hn, Heap.fresh, hl, Prod.mk.injEq] at hrun
      cases hrun.1
    | some e2 =>
      simp only [Matrix.guardedCtor, hn, Heap.fresh, hl, Prod.mk.injEq] at hrun
      obtain ⟨_, rfl⟩ := hrun
      exact hs.2 (by simp)

/-- The constructor of lines 43-49 leaks at every failure past its first
allocation: once the row pointer array has been allocated, a construction
that ends with an exception leaves that array live. -/
theorem Matrix.ctor_error_live (env : Env T σ) (n : Nat) (lambda : T) (w : World T σ)
    (wf : w.heap.WF) (s : σ) (hp : env.alloc w.st = (s, none)) (e : Exn) (w1 : World T σ)
    (hrun : Matrix.ctor env n lambda w = (.error e, w1)) :
    w1.heap.live w.heap.mem.length ∧ ¬ w.heap.live w.heap.mem.length := by
  have hn : newPtrs env n w =
      (.ok w.heap.fresh, ⟨w.heap.alloc (.ptrs (List.replicate n none)), s⟩) := by
    simp only [newPtrs, hp]
  rcases hl : Matrix.ctorLoop env w.heap.mem.length n lambda n 0
      ⟨w.heap.alloc (.ptrs (List.replicate n none)), s⟩ with ⟨r, w2⟩
  have hs := Matrix.ctorLoop_spec env w.heap n lambda n 0 _ (by omega) (Built.init w.heap n)
    (fun a j ha _ => absurd ha (Nat.not_lt_zero a)) r w2 hl
  cases r with
  | none =>
    simp only [Matrix.ctor, hn, Heap.fresh, hl, Prod.mk.injEq] at hrun
    cases hrun.1
  | some e2 =>
    simp only [Matrix.ctor, hn, Heap.fresh, hl, Prod.mk.injEq] at hrun
    obtain ⟨_, rfl⟩ := hrun
    exact hs.1.data_live wf

/-- The deep-copy constructor of lines 121-131 leaks at every failure past its
first allocation, in the same way. -/
theorem Matrix.copyCtor_error_live (env : Env T σ) (other : Matrix) (w : World T σ)
    (wf : w.heap.WF) (v : other.Valid w.heap) (s : σ) (hp : env.alloc w.st = (s, none))
    (e : Exn) (w1 : World T σ) (hrun : Matrix.copyCtor env other w = (.error e, w1)) :
    w1.heap.live w.heap.mem.length ∧ ¬ w.heap.live w.heap.mem.length := by
  have hn : newPtrs env other.N w =
      (.ok w.heap.fresh, ⟨w.heap.alloc (.ptrs (List.replicate other.N none)), s⟩) := by
    simp only [newPtrs, hp]
  rcases hl : Matrix.copyLoop env other w.heap.mem.length other.N other.N 0
      ⟨w.heap.alloc (.ptrs (List.replicate other.N none)), s⟩ with ⟨r, w2⟩
  have hs := Matrix.copyLoop_spec env w.heap other v other.N 0 _ (by omega)
    (Built.init w.heap other.N) (fun a j ha _ => absurd ha (Nat.not_lt_zero a)) r w2 hl
  cases r with
  | none =>
    simp only [Matrix.copyCtor, hn, Heap.fresh, hl, Prod.mk.injEq] at hrun
    cases hrun.1
  | some e2 =>
    simp only [Matrix.copyCtor, hn, Heap.fresh, hl, Prod.mk.injEq] at hrun
    obtain ⟨_, rfl⟩ := hrun
    exact hs.1.data_live wf

/-! ## Copy-and-swap assignment -/

/-- The assignment when the local deep copy is made: `*this` takes the fields
of the copy and the destructor of the local runs on the old fields. -/
theorem Matrix.assign_of_copy_ok (env : Env T σ) (self other : Matrix) (w : World T σ)
    (C : Matrix) (w1 : World T σ) (hc : Matrix.copyCtor env other w = (.ok C, w1)) :
    Matrix.assign env self other w = ⟨none, C, ⟨Matrix.dtor w1.heap self, w1.st⟩⟩ := by
  simp only [Matrix.assign, hc]

/-- The assignment when the local deep copy throws: the exception leaves the
function before the swaps. -/
theorem Matrix.assign_of_copy_error (env : Env T σ) (self other : Matrix) (w : World T σ)
    (e : Exn) (w1 : World T σ) (hc : Matrix.copyCtor env other w = (.error e, w1)) :
    Matrix.assign env self other w = ⟨some e, self, w1⟩ := by
  simp only [Matrix.assign, hc]

theorem Matrix.Disjoint.of_mem {h h1 : Heap T} (e : h1.mem = h.mem) {A B : Matrix}
    (d : Matrix.Disjoint h A B) : Matrix.Disjoint h1 A B :=
  ⟨d.1, fun i k hi hk e1 => by
    rw [Heap.ptrAt_of_mem e, Heap.ptrAt_of_mem e] at e1
    exact d.2 i k hi hk e1⟩

/-- The release log stays sound when a valid matrix is destroyed. -/
theorem Matrix.Valid.dtor_wf {h : Heap T} {M : Matrix} (v : M.Valid h) (wf : h.WF) :
    (Matrix.dtor h M).WF := by
  intro a ha
  rw [Matrix.dtor_mem]
  rcases (Matrix.mem_dtor_freed h M a).1 ha with e | ⟨i, hi, hp⟩ | e
  · rw [e]; exact v.dataLive.1
  · rcases v.row i hi with ⟨r, hr, hl, _⟩
    rw [hr] at hp
    cases hp
    exact hl.1
  · exact wf a e

/-- What a completed assignment `A = B` gives, for valid `A` and `B` (the same
object or not): `A` has the size and the elements of `B` and is valid; every
element of every matrix that was valid reads as before; a valid matrix that
shared nothing with the old `A` is still valid and shares nothing with the
new `A`. -/
theorem Matrix.assign_ok (env : Env T σ) (A B : Matrix) (w : World T σ) (wf : w.heap.WF)
    (vA : A.Valid w.heap) (vB : B.Valid w.heap)
    (hok : (Matrix.assign env A B w).exn = none) :
    (Matrix.assign env A B w).self.N = B.N ∧
    (Matrix.assign env A B w).self.Valid (Matrix.assign env A B w).world.heap ∧
    (Matrix.assign env A B w).world.heap.WF ∧
    (∀ i j, i < B.N → j < B.N →
      Matrix.get (Matrix.assign env A B w).world.heap (Matrix.assign env A B w).self i j =
        Matrix.get w.heap B i j) ∧
    (∀ (X : Matrix) (i j : Nat), X.Valid w.heap → i < X.N →
      Matrix.get (Matrix.assign env A B w).world.heap X i j = Matrix.get w.heap X i j) ∧
    (∀ X : Matrix, X.Valid w.heap → Matrix.Disjoint w.heap X A →
      X.Valid (Matrix.assign env A B w).world.heap ∧
      Matrix.Disjoint (Matrix.assign env A B w).world.heap X (Matrix.assign env A B w).self) := by
  rcases hc : Matrix.copyCtor env B w with ⟨res, w1⟩
  cases res with
  | error e =>
    rw [Matrix.assign_of_copy_error env A B w e w1 hc] at hok
    cases hok
  | ok C =>
    rw [Matrix.assign_of_copy_ok env A B w C w1 hc]
    have hk := Matrix.copyCtor_ok env B w wf vB C w1 hc
    have vA1 := vA.valid_frame hk.2.1
    have hN : C.N = B.N := by rw [hk.1]
    refine ⟨hN, ?_, vA1.dtor_wf hk.2.2.2.1, ?_, ?_, ?_⟩
    · exact hk.2.2.1.dtor_other vA1 (hk.2.2.2.2.1 A vA).symm
    · intro i j hi hj
      show Matrix.get (Matrix.dtor w1.heap A) C i j = _
      rw [Matrix.get_dtor]
      exact hk.2.2.2.2.2 i j hi hj
    · intro X i j vX hi
      show Matrix.get (Matrix.dtor w1.heap A) X i j = _
      rw [Matrix.get_dtor]
      exact vX.get_frame hk.2.1 hi j
    · intro X vX dX
      exact ⟨(vX.valid_frame hk.2.1).dtor_other vA1 (dX.disjoint_frame vX vA hk.2.1),
        (hk.2.2.2.2.1 X vX).of_mem (Matrix.dtor_mem w1.heap A)⟩

/-- C6.  A completed assignment `A = B` between two valid matrices that are
different objects (each owns its storage, so they share none), of equal or
different sizes: afterwards `A.size() == B.size()`, `A(i, j) == B(i, j)` for
all in-range `i`, `j`, the elements of `B` are what they were (its size is a
field the assignment cannot write), both are valid matrices, `A` shares no
storage with `B`, and a later write to either is not seen through the
other. -/
theorem assign_spec (env : Env T σ) (A B : Matrix) (w : World T σ) (wf : w.heap.WF)
    (vA : A.Valid w.heap) (vB : B.Valid w.heap) (d : Matrix.Disjoint w.heap A B)
    (hok : (Matrix.assign env A B w).exn = none) :
    (Matrix.assign env A B w).self.size = B.size ∧
    (∀ i j, i < B.size → j < B.size →
      Matrix.get (Matrix.assign env A B w).world.heap (Matrix.assign env A B w).self i j =
        Matrix.get w.heap B i j ∧
      Matrix.get (Matrix.assign env A B w).world.heap B i j = Matrix.get w.heap B i j) ∧
    (Matrix.assign env A B w).self.Valid (Matrix.assign env A B w).world.heap ∧
    B.Valid (Matrix.assign env A B w).world.heap ∧
    Matrix.Disjoint (Matrix.assign env A B w).world.heap (Matrix.assign env A B w).self B ∧
    ∀ i j k l, i < B.size → j < B.size → k < B.size → l < B.size → ∀ x : T,
      Matrix.get (Matrix.put (Matrix.assign env A B w).world.heap
        (Matrix.assign env A B w).self i j x) B k l =
          Matrix.get (Matrix.assign env A B w).world.heap B k l ∧
      Matrix.get (Matrix.put (Matrix.assign env A B w).world.heap B i j x)
        (Matrix.assign env A B w).self k l =
          Matrix.get (Matrix.assign env A B w).world.heap (Matrix.assign env A B w).self k l := by
  have h := Matrix.assign_ok env A B w wf vA vB hok
  have hB := h.2.2.2.2.2 B vB d.symm
  refine ⟨h.1, fun i j hi hj => ⟨h.2.2.2.1 i j hi hj, h.2.2.2.2.1 B i j vB hi⟩, h.2.1, hB.1,
    hB.2.symm, fun i j k l hi _ hk _ x => ⟨?_, ?_⟩⟩
  · exact Matrix.get_put_other h.2.1 hB.1 hB.2.symm (by rw [h.1]; exact hi) hk j l x
  · exact Matrix.get_put_other hB.1 h.2.1 hB.2 hi (by rw [h.1]; exact hk) j l x

/-- After `Matrix<T> A(2, 7); Matrix<T> B(3, 9);` both objects are valid and
own different storage. -/
theorem afterAB_valid (env : Env Int Calls)
    (hA : Matrix.ctor env 2 7 w0 = (.ok ⟨2, 0⟩, afterA env))
    (hB : Matrix.ctor env 3 9 (afterA env) = (.ok ⟨3, 3⟩, afterAB env)) :
    (afterAB env).heap.WF ∧ Matrix.Valid (afterAB env).heap ⟨2, 0⟩ ∧
      Matrix.Valid (afterAB env).heap ⟨3, 3⟩ ∧ Matrix.Disjoint (afterAB env).heap ⟨2, 0⟩ ⟨3, 3⟩ := by
  have h1 := Matrix.ctor_ok env 2 7 w0 (World.empty_wf _) _ _ hA
  have h2 := Matrix.ctor_ok env 3 9 (afterA env) h1.2.2.2.1 _ _ hB
  exact ⟨h2.2.2.2.1, h1.2.2.1.valid_frame h2.2.1, h2.2.2.1, h2.2.2.2.2 _ h1.2.2.1⟩

/-- Instance of C6: `A = B` for the 2 x 2 matrix `A` (7 on the diagonal) and
the 3 x 3 matrix `B` (9 on the diagonal): `A` becomes 3 x 3 with `A(2, 2) == 9`
and `B(2, 2)` is still 9. -/
theorem assign_spec_witness :
    (afterAB (faultyEnv 0 0 0)).heap.WF ∧ Matrix.Valid (afterAB (faultyEnv 0 0 0)).heap ⟨2, 0⟩ ∧
    Matrix.Valid (afterAB (faultyEnv 0 0 0)).heap ⟨3, 3⟩ ∧
    Matrix.Disjoint (afterAB (faultyEnv 0 0 0)).heap ⟨2, 0⟩ ⟨3, 3⟩ ∧
    (Matrix.assign (faultyEnv 0 0 0) ⟨2, 0⟩ ⟨3, 3⟩ (afterAB (faultyEnv 0 0 0))).exn = none ∧
    (Matrix.assign (faultyEnv 0 0 0) ⟨2, 0⟩ ⟨3, 3⟩ (afterAB (faultyEnv 0 0 0))).self.size = 3 ∧
    Matrix.get (Matrix.assign (faultyEnv 0 0 0) ⟨2, 0⟩ ⟨3, 3⟩ (afterAB (faultyEnv 0 0 0))).world.heap
      (Matrix.assign (faultyEnv 0 0 0) ⟨2, 0⟩ ⟨3, 3⟩ (afterAB (faultyEnv 0 0 0))).self 2 2 = some 9 ∧
    Matrix.get (Matrix.assign (faultyEnv 0 0 0) ⟨2, 0⟩ ⟨3, 3⟩ (afterAB (faultyEnv 0 0 0))).world.heap
      ⟨3, 3⟩ 2 2 = some 9 :=
  have hv := afterAB_valid (faultyEnv 0 0 0) rfl rfl
  have h := assign_spec (faultyEnv 0 0 0) ⟨2, 0⟩ ⟨3, 3⟩ (afterAB (faultyEnv 0 0 0))
    hv.1 hv.2.1 hv.2.2.1 hv.2.2.2 rfl
  ⟨hv.1, hv.2.1, hv.2.2.1, hv.2.2.2, rfl, h.1,
    ((h.2.1 2 2 (by decide) (by decide)).1).trans rfl,
    ((h.2.1 2 2 (by decide) (by decide)).2).trans rfl⟩

/-- C7.  Strong exception safety of the assignment: for valid `A` and `B`,
when the deep copy of `B` made inside `A = B` throws `e`, the assignment ends
with `e`, the fields of `A` (so its size) are the ones before, every element
of `A` and of `B` reads as before, and both are still valid matrices. -/
theorem assign_strong_guarantee (env : Env T σ) (A B : Matrix) (w : World T σ)
    (vA : A.Valid w.heap) (vB : B.Valid w.heap) (e : Exn) (w1 : World T σ)
    (hfail : Matrix.copyCtor env B w = (.error e, w1)) :
    (Matrix.assign env A B w).exn = some e ∧
    (Matrix.assign env A B w).self = A ∧
    (∀ i j, i < A.size → j < A.size →
      Matrix.get (Matrix.assign env A B w).world.heap A i j = Matrix.get w.heap A i j) ∧
    (∀ i j, i < B.size → j < B.size →
      Matrix.get (Matrix.assign env A B w).world.heap B i j = Matrix.get w.heap B i j) ∧
    A.Valid (Matrix.assign env A B w).world.heap ∧
    B.Valid (Matrix.assign env A B w).world.heap := by
  rw [Matrix.assign_of_copy_error env A B w e w1 hfail]
  have f := (Matrix.copyCtor_spec env B w vB _ w1 hfail).1
  exact ⟨rfl, rfl, fun i j hi _ => vA.get_frame f hi j, fun i j hi _ => vB.get_frame f hi j,
    vA.valid_frame f, vB.valid_frame f⟩

/-- Instance of C7: in `A = B` the allocation of the first row of the local
copy fails; `A` is still 2 x 2 with `A(1, 1) == 7`. -/
theorem assign_strong_guarantee_witness :
    Matrix.Valid (afterAB (faultyEnv 9 0 0)).heap ⟨2, 0⟩ ∧
    Matrix.Valid (afterAB (faultyEnv 9 0 0)).heap ⟨3, 3⟩ ∧
    (Matrix.copyCtor (faultyEnv 9 0 0) ⟨3, 3⟩ (afterAB (faultyEnv 9 0 0))).1 = .error .badAlloc ∧
    (Matrix.assign (faultyEnv 9 0 0) ⟨2, 0⟩ ⟨3, 3⟩ (afterAB (faultyEnv 9 0 0))).exn
      = some .badAlloc ∧
    (Matrix.assign (faultyEnv 9 0 0) ⟨2, 0⟩ ⟨3, 3⟩ (afterAB (faultyEnv 9 0 0))).self = ⟨2, 0⟩ ∧
    Matrix.get (Matrix.assign (faultyEnv 9 0 0) ⟨2, 0⟩ ⟨3, 3⟩ (afterAB (faultyEnv 9 0 0))).world.heap
      ⟨2, 0⟩ 1 1 = some 7 :=
  have hv := afterAB_valid (faultyEnv 9 0 0) rfl rfl
  have h := assign_strong_guarantee (faultyEnv 9 0 0) ⟨2, 0⟩ ⟨3, 3⟩ (afterAB (faultyEnv 9 0 0))
    hv.2.1 hv.2.2.1 .badAlloc _ rfl
  ⟨hv.2.1, hv.2.2.1, rfl, h.1, h.2.1, (h.2.2.1 1 1 (by decide) (by decide)).trans rfl⟩

/-- C8.  Self-assignment: for a valid matrix `A`, a completed `A = A` leaves
`A.size()` and every element `A(i, j)` as they were, and `A` is a valid
matrix afterwards: its row pointer array and its rows are live blocks. -/
theorem assign_self (env : Env T σ) (A : Matrix) (w : World T σ) (wf : w.heap.WF)
    (vA : A.Valid w.heap) (hok : (Matrix.assign env A A w).exn = none) :
    (Matrix.assign env A A w).self.size = A.size ∧
    (∀ i j, i < A.size → j < A.size →
      Matrix.get (Matrix.assign env A A w).world.heap (Matrix.assign env A A w).self i j =
        Matrix.get w.heap A i j) ∧
    (Matrix.assign env A A w).self.Valid (Matrix.assign env A A w).world.heap := by
  have h := Matrix.assign_ok env A A w wf vA vA hok
  exact ⟨h.1, h.2.2.2.1, h.2.1⟩

/-- Instance of C8: `A = A` for the 2 x 2 matrix with 7 on the diagonal. -/
theorem assign_self_witness :
    (afterA (faultyEnv 0 0 0)).heap.WF ∧ Matrix.Valid (afterA (faultyEnv 0 0 0)).heap ⟨2, 0⟩ ∧
    (Matrix.assign (faultyEnv 0 0 0) ⟨2, 0⟩ ⟨2, 0⟩ (afterA (faultyEnv 0 0 0))).exn = none ∧
    (Matrix.assign (faultyEnv 0 0 0) ⟨2, 0⟩ ⟨2, 0⟩ (afterA (faultyEnv 0 0 0))).self.size = 2 ∧
    Matrix.get (Matrix.assign (faultyEnv 0 0 0) ⟨2, 0⟩ ⟨2, 0⟩ (afterA (faultyEnv 0 0 0))).world.heap
      (Matrix.assign (faultyEnv 0 0 0) ⟨2, 0⟩ ⟨2, 0⟩ (afterA (faultyEnv 0 0 0))).self 1 1 = some 7 :=
  have h := assign_self (faultyEnv 0 0 0) ⟨2, 0⟩ (afterA (faultyEnv 0 0 0))
    afterA_valid.2 afterA_valid.1 rfl
  ⟨afterA_valid.2, afterA_valid.1, rfl, h.1, (h.2.1 1 1 (by decide) (by decide)).trans rfl⟩

/-- C9.  Round trip: for a valid matrix `A`, when `Copy(A)` returns a matrix
`C` and the assignment `A = C` completes, `A.size()` and every element
`A(i, j)` are equal to their values before the copy was made. -/
theorem assign_copy_roundtrip (env : Env T σ) (A : Matrix) (w : World T σ) (wf : w.heap.WF)
    (vA : A.Valid w.heap) (C : Matrix) (w1 : World T σ)
    (hcopy : Matrix.copyCtor env A w = (.ok C, w1))
    (hok : (Matrix.assign env A C w1).exn = none) :
    (Matrix.assign env A C w1).self.size = A.size ∧
    ∀ i j, i < A.size → j < A.size →
      Matrix.get (Matrix.assign env A C w1).world.heap (Matrix.assign env A C w1).self i j =
        Matrix.get w.heap A i j := by
  have hk := Matrix.copyCtor_ok env A w wf vA C w1 hcopy
  have hN : C.N = A.N := by rw [hk.1]
  have h := Matrix.assign_ok env A C w1 hk.2.2.2.1 (vA.valid_frame hk.2.1) hk.2.2.1 hok
  refine ⟨h.1.trans hN, fun i j hi hj => ?_⟩
  rw [h.2.2.2.1 i j (by rw [hN]; exact hi) (by rw [hN]; exact hj)]
  exact hk.2.2.2.2.2 i j hi hj

/-- Instance of C9: `A = Copy(A)` for the 2 x 2 matrix with 7 on the
diagonal. -/
theorem assign_copy_roundtrip_witness :
    (afterA (faultyEnv 0 0 0)).heap.WF ∧ Matrix.Valid (afterA (faultyEnv 0 0 0)).heap ⟨2, 0⟩ ∧
    (Matrix.copyCtor (faultyEnv 0 0 0) ⟨2, 0⟩ (afterA (faultyEnv 0 0 0))).1 = .ok ⟨2, 3⟩ ∧
    (Matrix.assign (faultyEnv 0 0 0) ⟨2, 0⟩ ⟨2, 3⟩
      (Matrix.copyCtor (faultyEnv 0 0 0) ⟨2, 0⟩ (afterA (faultyEnv 0 0 0))).2).exn = none ∧
    (Matrix.assign (faultyEnv 0 0 0) ⟨2, 0⟩ ⟨2, 3⟩
      (Matrix.copyCtor (faultyEnv 0 0 0) ⟨2, 0⟩ (afterA (faultyEnv 0 0 0))).2).self.size = 2 ∧
    Matrix.get (Matrix.assign (faultyEnv 0 0 0) ⟨2, 0⟩ ⟨2, 3⟩
      (Matrix.copyCtor (faultyEnv 0 0 0) ⟨2, 0⟩ (afterA (faultyEnv 0 0 0))).2).world.heap
      (Matrix.assign (faultyEnv 0 0 0) ⟨2, 0⟩ ⟨2, 3⟩
        (Matrix.copyCtor (faultyEnv 0 0 0) ⟨2, 0⟩ (afterA (faultyEnv 0 0 0))).2).self 0 1
      = some 0 :=
  have h := assign_copy_roundtrip (faultyEnv 0 0 0) ⟨2, 0⟩ (afterA (faultyEnv 0 0 0))
    afterA_valid.2 afterA_valid.1 ⟨2, 3⟩ _ rfl rfl
  ⟨afterA_valid.2, afterA_valid.1, rfl, rfl, h.1, (h.2 0 1 (by decide) (by decide)).trans rfl⟩

/-- C10 (the code falls short of its first half).  The deep-copy constructor
of lines 121-131 at a failure, copying the valid 2 x 2 matrix `A`: when the
allocation of the first row of the copy fails, the row pointer array of the
copy (address 3) is still live after the exception has left the constructor;
when the copy of the second element of the first row throws, the row pointer
array and the first row of the copy (addresses 3 and 4) are still live.
Neither address was live before the call.  The source matrix is left as it
was: its elements read as before. -/
theorem copyCtor_failure_leaks :
    ((Matrix.copyCtor (faultyEnv 5 0 0) ⟨2, 0⟩ (afterA (faultyEnv 5 0 0))).1 = .error .badAlloc ∧
      (Matrix.copyCtor (faultyEnv 5 0 0) ⟨2, 0⟩ (afterA (faultyEnv 5 0 0))).2.heap.live 3 ∧
      ¬ (afterA (faultyEnv 5 0 0)).heap.live 3) ∧
    ((Matrix.copyCtor (faultyEnv 0 0 4) ⟨2, 0⟩ (afterA (faultyEnv 0 0 4))).1
        = .error (.thrownInt 43) ∧
      (Matrix.copyCtor (faultyEnv 0 0 4) ⟨2, 0⟩ (afterA (faultyEnv 0 0 4))).2.heap.live 3 ∧
      (Matrix.copyCtor (faultyEnv 0 0 4) ⟨2, 0⟩ (afterA (faultyEnv 0 0 4))).2.heap.live 4 ∧
      ¬ (afterA (faultyEnv 0 0 4)).heap.live 3 ∧ ¬ (afterA (faultyEnv 0 0 4)).heap.live 4) ∧
    (Matrix.ctor (faultyEnv 5 0 0) 2 7 w0).1 = .ok ⟨2, 0⟩ ∧
    (Matrix.ctor (faultyEnv 0 0 4) 2 7 w0).1 = .ok ⟨2, 0⟩ ∧
    ∀ i j, i < 2 → j < 2 →
      Matrix.get (Matrix.copyCtor (faultyEnv 5 0 0) ⟨2, 0⟩ (afterA (faultyEnv 5 0 0))).2.heap
        ⟨2, 0⟩ i j = Matrix.get (afterA (faultyEnv 5 0 0)).heap ⟨2, 0⟩ i j := by
  refine ⟨⟨rfl, by decide, by decide⟩, ⟨rfl, by decide, by decide, by decide, by decide⟩,
    rfl, rfl, ?_⟩
  intro i j hi hj
  interval_cases i <;> interval_cases j <;> rfl

end Claims

/-! ## Element writes and `operator +=` -/

section Arithmetic

variable {T σ : Type}

/-- A write into an element array leaves every valid matrix valid: no array
changes its length and no pointer is touched. -/
theorem Matrix.Valid.setCell_valid {h : Heap T} {X : Matrix} (v : X.Valid h) (r j : Nat)
    (x : Option T) : X.Valid (h.setCell r j x) where
  dataLive := ⟨by rw [Heap.setCell_length]; exact v.dataLive.1,
    by rw [Heap.setCell_freed]; exact v.dataLive.2⟩
  dataLen := by rw [Heap.ptrLen_setCell]; exact v.dataLen
  row := fun i hi => by
    rcases v.row i hi with ⟨a, h1, h2, h3⟩
    exact ⟨a, by rw [Heap.ptrAt_setCell]; exact h1,
      ⟨by rw [Heap.setCell_length]; exact h2.1, by rw [Heap.setCell_freed]; exact h2.2⟩,
      by rw [Heap.rowLen_setCell]; exact h3⟩
  inj := fun i k hi hk e => by
    rw [Heap.ptrAt_setCell, Heap.ptrAt_setCell] at e
    exact v.inj i k hi hk e

theorem Heap.setAt2_cases (h : Heap T) (Data i j : Nat) (x : Option T) :
    h.setAt2 Data i j x = h ∨ ∃ r, h.setAt2 Data i j x = h.setCell r j x := by
  unfold Heap.setAt2
  cases h.ptrAt Data i with
  | none => exact Or.inl rfl
  | some r => exact Or.inr ⟨r, rfl⟩

/-- A write to `Data[i][j]` leaves every valid matrix valid. -/
theorem Matrix.Valid.setAt2_valid {h : Heap T} {X : Matrix} (v : X.Valid h) (Data i j : Nat)
    (x : Option T) : X.Valid (h.setAt2 Data i j x) := by
  rcases Heap.setAt2_cases h Data i j x with e | ⟨r, e⟩
  · rw [e]; exact v
  · rw [e]; exact v.setCell_valid r j x

/-- A write to `Data[i][j]` allocates nothing and releases nothing. -/
theorem Heap.setAt2_length_freed (h : Heap T) (Data i j : Nat) (x : Option T) :
    (h.setAt2 Data i j x).mem.length = h.mem.length ∧ (h.setAt2 Data i j x).freed = h.freed := by
  rcases Heap.setAt2_cases h Data i j x with e | ⟨r, e⟩
  · rw [e]; exact ⟨rfl, rfl⟩
  · rw [e]; exact ⟨Heap.setCell_length h r j x, Heap.setCell_freed h r j x⟩

theorem Heap.ptrAt_setAt2 (h : Heap T) (Data i j : Nat) (x : Option T) (p k : Nat) :
    (h.setAt2 Data i j x).ptrAt p k = h.ptrAt p k := by
  rcases Heap.setAt2_cases h Data i j x with e | ⟨r, e⟩
  · rw [e]
  · rw [e]; exact Heap.ptrAt_setCell h r j x p k

theorem Matrix.Disjoint.setAt2_disjoint {h : Heap T} {A B : Matrix} (d : Matrix.Disjoint h A B)
    (Data i j : Nat) (x : Option T) : Matrix.Disjoint (h.setAt2 Data i j x) A B :=
  ⟨d.1, fun a k ha hk e => by
    rw [Heap.ptrAt_setAt2, Heap.ptrAt_setAt2] at e
    exact d.2 a k ha hk e⟩

/-- A value stored into `M(i, j)` is the value read back. -/
theorem Matrix.get_store_same {h : Heap T} {M : Matrix} (v : M.Valid h) {i j : Nat}
    (hi : i < M.N) (hj : j < M.N) (x : Option T) :
    Matrix.get (h.setAt2 M.Data i j x) M i j = x := by
  rcases v.row i hi with ⟨r, hr, _, hrl⟩
  simp only [Matrix.get, Heap.at2, Heap.setAt2, hr, Heap.ptrAt_setCell]
  exact Heap.cellAt_setCell_eq _ _ _ _ hrl hj

/-- A value stored into `M(i, j)` leaves the other elements of `M` alone. -/
theorem Matrix.get_store_ne {h : Heap T} {M : Matrix} (v : M.Valid h) {i j k l : Nat}
    (hi : i < M.N) (hk : k < M.N) (hne : k ≠ i ∨ l ≠ j) (x : Option T) :
    Matrix.get (h.setAt2 M.Data i j x) M k l = Matrix.get h M k l := by
  rcases v.row i hi with ⟨r, hr, _, _⟩
  rcases v.row k hk with ⟨r1, hr1, _, _⟩
  simp only [Matrix.get, Heap.at2, Heap.setAt2, hr, hr1, Heap.ptrAt_setCell]
  apply Heap.cellAt_setCell_ne
  rcases hne with h1 | h1
  · left
    intro e
    subst e
    exact h1 (v.inj k i hk hi (by rw [hr, hr1]))
  · exact Or.inr h1

/-- A value stored into `A(i, j)` is not seen through a matrix that owns
different storage. -/
theorem Matrix.get_store_other {h : Heap T} {A B : Matrix} (vA : A.Valid h) (vB : B.Valid h)
    (d : Matrix.Disjoint h A B) {i k : Nat} (hi : i < A.N) (hk : k < B.N) (j l : Nat)
    (x : Option T) :
    Matrix.get (h.setAt2 A.Data i j x) B k l = Matrix.get h B k l := by
  rcases vA.row i hi with ⟨r, hr, _, _⟩
  rcases vB.row k hk with ⟨r1, hr1, _, _⟩
  simp only [Matrix.get, Heap.at2, Heap.setAt2, hr, hr1, Heap.ptrAt_setCell]
  apply Heap.cellAt_setCell_ne
  left
  intro e
  subst e
  exact d.2 i k hi hk (by rw [hr, hr1])

/-- The inner loop of `operator +=` keeps the shape of the free store: valid
matrices stay valid, nothing is allocated or released. -/
theorem Matrix.addCells_shape (ops : AddOps T σ) (A B : Matrix) (i : Nat) :
    ∀ (k j : Nat) (w : World T σ),
      (∀ X : Matrix, X.Valid w.heap → X.Valid (Matrix.addCells ops A B i k j w).2.heap) ∧
      (Matrix.addCells ops A B i k j w).2.heap.mem.length = w.heap.mem.length ∧
      (Matrix.addCells ops A B i k j w).2.heap.freed = w.heap.freed := by
  intro k
  induction k with
  | zero => intro j w; exact ⟨fun _ v => v, rfl, rfl⟩
  | succ k ih =>
    intro j w
    rcases he : ops.addEff w.st with ⟨s, _ | e⟩
    · simp only [Matrix.addCells, he]
      have h1 := ih (j + 1) ⟨w.heap.setAt2 A.Data i j
        (optAdd ops (Matrix.get w.heap A i j) (Matrix.get w.heap B i j)), s⟩
      have h2 := Heap.setAt2_length_freed w.heap A.Data i j
        (optAdd ops (Matrix.get w.heap A i j) (Matrix.get w.heap B i j))
      exact ⟨fun X v => h1.1 X (v.setAt2_valid _ _ _ _), h1.2.1.trans h2.1, h1.2.2.trans h2.2⟩
    · have e1 : Matrix.addCells ops A B i (k + 1) j w = (some e, ⟨w.heap, s⟩) := by
        simp only [Matrix.addCells, he]
      rw [e1]
      exact ⟨fun _ v => v, rfl, rfl⟩

/-- The outer loop of `operator +=` keeps the shape of the free store. -/
theorem Matrix.addRows_shape (ops : AddOps T σ) (A B : Matrix) :
    ∀ (k i : Nat) (w : World T σ),
      (∀ X : Matrix, X.Valid w.heap → X.Valid (Matrix.addRows ops A B k i w).2.heap) ∧
      (Matrix.addRows ops A B k i w).2.heap.mem.length = w.heap.mem.length ∧
      (Matrix.addRows ops A B k i w).2.heap.freed = w.heap.freed := by
  intro k
  induction k with
  | zero => intro i w; exact ⟨fun _ v => v, rfl, rfl⟩
  | succ k ih =>
    intro i w
    have h1 := Matrix.addCells_shape ops A B i A.size 0 w
    rcases hc : Matrix.addCells ops A B i A.size 0 w with ⟨r, w1⟩
    rw [hc] at h1
    cases r with
    | some e =>
      simp only [Matrix.addRows, hc]
      exact h1
    | none =>
      simp only [Matrix.addRows, hc]
      have h2 := ih (i + 1) w1
      exact ⟨fun X v => h2.1 X (h1.1 X v), h2.2.1.trans h1.2.1, h2.2.2.trans h1.2.2⟩

/-- The operator `+=` keeps the shape of the free store, however it ends. -/
theorem Matrix.addAssign_shape (ops : AddOps T σ) (A B : Matrix) (w : World T σ) :
    (∀ X : Matrix, X.Valid w.heap → X.Valid (Matrix.addAssign ops A B w).2.heap) ∧
    (Matrix.addAssign ops A B w).2.heap.mem.length = w.heap.mem.length ∧
    (Matrix.addAssign ops A B w).2.heap.freed = w.heap.freed := by
  unfold Matrix.addAssign
  split
  · exact ⟨fun _ v => v, rfl, rfl⟩
  · have h1 := Matrix.addRows_shape ops A B A.size 0 w
    rcases hc : Matrix.addRows ops A B A.size 0 w with ⟨r, w1⟩
    rw [hc] at h1
    cases r <;> exact h1

/-- An exception that leaves the loops of `operator +=` was thrown by the
`+=` of the element type. -/
theorem Matrix.addCells_error (ops : AddOps T σ) (A B : Matrix) (i : Nat) :
    ∀ (k j : Nat) (w : World T σ) (e : Exn),
      (Matrix.addCells ops A B i k j w).1 = some e → ∃ s, (ops.addEff s).2 = some e := by
  intro k
  induction k with
  | zero => intro j w e h; cases h
  | succ k ih =>
    intro j w e h
    rcases he : ops.addEff w.st with ⟨s, _ | e1⟩
    · simp only [Matrix.addCells, he] at h
      exact ih _ _ e h
    · simp only [Matrix.addCells, he] at h
      cases h
      exact ⟨w.st, by rw [he]⟩

theorem Matrix.addRows_error (ops : AddOps T σ) (A B : Matrix) :
    ∀ (k i : Nat) (w : World T σ) (e : Exn),
      (Matrix.addRows ops A B k i w).1 = some e → ∃ s, (ops.addEff s).2 = some e := by
  intro k
  induction k with
  | zero => intro i w e h; cases h
  | succ k ih =>
    intro i w e h
    have h1 := Matrix.addCells_error ops A B i A.size 0 w
    rcases hc : Matrix.addCells ops A B i A.size 0 w with ⟨r, w1⟩
    rw [hc] at h1
    cases r with
    | some e1 =>
      simp only [Matrix.addRows, hc] at h
      cases h
      exact h1 e rfl
    | none =>
      simp only [Matrix.addRows, hc] at h
      exact ih _ _ e h

/-- When the `+=` of the element type does not throw, the loops of
`operator +=` complete. -/
theorem Matrix.addRows_noThrow (ops : AddOps T σ) (nt : ∀ s, (ops.addEff s).2 = none)
    (A B : Matrix) (k i : Nat) (w : World T σ) : (Matrix.addRows ops A B k i w).1 = none := by
  cases h : (Matrix.addRows ops A B k i w).1 with
  | none => rfl
  | some e =>
    rcases Matrix.addRows_error ops A B k i w e h with ⟨s, hs⟩
    rw [nt s] at hs
    cases hs

theorem Matrix.addCells_ptrAt (ops : AddOps T σ) (A B : Matrix) (i : Nat) :
    ∀ (k j : Nat) (w : World T σ) (p a : Nat),
      (Matrix.addCells ops A B i k j w).2.heap.ptrAt p a = w.heap.ptrAt p a := by
  intro k
  induction k with
  | zero => intro j w p a; rfl
  | succ k ih =>
    intro j w p a
    rcases he : ops.addEff w.st with ⟨s, _ | e⟩
    · simp only [Matrix.addCells, he]
      rw [ih]
      exact Heap.ptrAt_setAt2 _ _ _ _ _ _ _
    · simp only [Matrix.addCells, he]

theorem Matrix.Disjoint.of_ptrAt {h h1 : Heap T} (e : ∀ p a, h1.ptrAt p a = h.ptrAt p a)
    {A B : Matrix} (d : Matrix.Disjoint h A B) : Matrix.Disjoint h1 A B :=
  ⟨d.1, fun i k hi hk e1 => by
    rw [e, e] at e1
    exact d.2 i k hi hk e1⟩

/-- The inner loop of `operator +=` on row `i` of two valid matrices that own
different storage: `B` is not touched, of `A` only the elements of row `i`
from column `j` on are, and when the loop completes each of them holds its
old value plus the element of `B`. -/
theorem Matrix.addCells_spec (ops : AddOps T σ) (A B : Matrix) (i : Nat) (hi : i < A.N)
    (hiB : i < B.N) :
    ∀ (k j : Nat) (w : World T σ), j + k = A.N → A.Valid w.heap → B.Valid w.heap →
      Matrix.Disjoint w.heap A B →
      ∀ r w1, Matrix.addCells ops A B i k j w = (r, w1) →
        (∀ a l, a < B.N → Matrix.get w1.heap B a l = Matrix.get w.heap B a l) ∧
        (∀ a l, a < A.N → (a ≠ i ∨ l < j) →
          Matrix.get w1.heap A a l = Matrix.get w.heap A a l) ∧
        (r = none → ∀ l, j ≤ l → l < A.N →
          Matrix.get w1.heap A i l =
            optAdd ops (Matrix.get w.heap A i l) (Matrix.get w.heap B i l)) := by
  intro k
  induction k with
  | zero =>
    intro j w hjk _ _ _ r w1 hrun
    simp only [Matrix.addCells, Prod.mk.injEq] at hrun
    obtain ⟨rfl, rfl⟩ := hrun
    exact ⟨fun _ _ _ => rfl, fun _ _ _ _ => rfl, fun _ l h1 h2 => by omega⟩
  | succ k ih =>
    intro j w hjk vA vB d r w1 hrun
    have hj : j < A.N := by omega
    rcases he : ops.addEff w.st with ⟨s, _ | e⟩
    · simp only [Matrix.addCells, he] at hrun
      have hs := ih (j + 1) _ (by omega) (vA.setAt2_valid _ _ _ _) (vB.setAt2_valid _ _ _ _)
        (d.setAt2_disjoint _ _ _ _) r w1 hrun
      refine ⟨fun a l ha => ?_, fun a l ha hne => ?_, fun hr l hjl hl => ?_⟩
      · rw [hs.1 a l ha]
        exact Matrix.get_store_other vA vB d hi ha j l _
      · have hne1 : a ≠ i ∨ l < j + 1 := by
          rcases hne with h1 | h1
          · exact Or.inl h1
          · exact Or.inr (by omega)
        have hne2 : a ≠ i ∨ l ≠ j := by
          rcases hne with h1 | h1
          · exact Or.inl h1
          · exact Or.inr (by omega)
        rw [hs.2.1 a l ha hne1]
        exact Matrix.get_store_ne vA hi ha hne2 _
      · by_cases hlj : l = j
        · subst hlj
          rw [hs.2.1 i l hi (Or.inr (by omega))]
          exact Matrix.get_store_same vA hi hl _
        · rw [hs.2.2 hr l (by omega) hl, Matrix.get_store_ne vA hi hi (Or.inr hlj),
            Matrix.get_store_other vA vB d hi hiB]
    · simp only [Matrix.addCells, he, Prod.mk.injEq] at hrun
      obtain ⟨rfl, rfl⟩ := hrun
      exact ⟨fun _ _ _ => rfl, fun _ _ _ _ => rfl, fun hr => by cases hr⟩

/-- The loops of `operator +=` on two valid matrices of one size that own
different storage: `B` is not touched, the rows of `A` before row `i` are
not touched, and when the loops complete every element of the rows from `i`
on holds its old value plus the element of `B`. -/
theorem Matrix.addRows_spec (ops : AddOps T σ) (A B : Matrix) (hN : A.N = B.N) :
    ∀ (k i : Nat) (w : World T σ), i + k = A.N → A.Valid w.heap → B.Valid w.heap →
      Matrix.Disjoint w.heap A B →
      ∀ r w1, Matrix.addRows ops A B k i w = (r, w1) →
        (∀ a l, a < B.N → Matrix.get w1.heap B a l = Matrix.get w.heap B a l) ∧
        (∀ a l, a < i → Matrix.get w1.heap A a l = Matrix.get w.heap A a l) ∧
        (r = none → ∀ a l, i ≤ a → a < A.N → l < A.N →
          Matrix.get w1.heap A a l =
            optAdd ops (Matrix.get w.heap A a l) (Matrix.get w.heap B a l)) := by
  intro k
  induction k with
  | zero =>
    intro i w hik _ _ _ r w1 hrun
    simp only [Matrix.addRows, Prod.mk.injEq] at hrun
    obtain ⟨rfl, rfl⟩ := hrun
    exact ⟨fun _ _ _ => rfl, fun _ _ _ => rfl, fun _ a l h1 h2 => by omega⟩
  | succ k ih =>
    intro i w hik vA vB d r w1 hrun
    have hi : i < A.N := by omega
    rcases hc : Matrix.addCells ops A B i A.N 0 w with ⟨rc, wc⟩
    have hs := Matrix.addCells_spec ops A B i hi (by omega) A.N 0 w (by omega) vA vB d rc wc hc
    have hsh := Matrix.addCells_shape ops A B i A.N 0 w
    have hpt := Matrix.addCells_ptrAt ops A B i A.N 0 w
    rw [hc] at hsh hpt
    simp only [Matrix.addRows, Matrix.size, hc] at hrun
    cases rc with
    | some e =>
      simp only [Prod.mk.injEq] at hrun
      obtain ⟨rfl, rfl⟩ := hrun
      exact ⟨hs.1, fun a l ha => hs.2.1 a l (by omega) (Or.inl (by omega)),
        fun hr => by cases hr⟩
    | none =>
      simp only at hrun
      have hs2 := ih (i + 1) wc (by omega) (hsh.1 A vA) (hsh.1 B vB) (d.of_ptrAt hpt) r w1 hrun
      refine ⟨fun a l ha => ?_, fun a l ha => ?_, fun hr a l hia ha hl => ?_⟩
      · rw [hs2.1 a l ha, hs.1 a l ha]
      · rw [hs2.2.1 a l (by omega), hs.2.1 a l (by omega) (Or.inl (by omega))]
      · by_cases hai : a = i
        · subst hai
          rw [hs2.2.1 a l (by omega)]
          exact hs.2.2 rfl l (Nat.zero_le l) hl
        · rw [hs2.2.2 hr a l (by omega) ha hl, hs.2.1 a l ha (Or.inl hai),
            hs.1 a l (by omega)]

theorem Matrix.addAssign_of_ne (ops : AddOps T σ) (A B : Matrix) (w : World T σ)
    (hne : A.size ≠ B.size) :
    Matrix.addAssign ops A B w = (.error (.differentSize A.size B.size), w) := by
  simp [Matrix.addAssign, hne]

theorem Matrix.addAssign_of_eq (ops : AddOps T σ) (A B : Matrix) (w : World T σ)
    (he : A.size = B.size) :
    Matrix.addAssign ops A B w =
      match Matrix.addRows ops A B A.size 0 w with
      | (some e, w1) => (.error e, w1)
      | (none, w1) => (.ok A, w1) := by
  simp [Matrix.addAssign, he]

/-- After `Matrix<T> A(2, 7); Matrix<T> C(2, 5);` both objects are valid and
own different storage. -/
theorem afterAC_valid (env : Env Int Calls)
    (hA : Matrix.ctor env 2 7 w0 = (.ok ⟨2, 0⟩, afterA env))
    (hC : Matrix.ctor env 2 5 (afterA env) = (.ok ⟨2, 3⟩, afterAC env)) :
    (afterAC env).heap.WF ∧ Matrix.Valid (afterAC env).heap ⟨2, 0⟩ ∧
      Matrix.Valid (afterAC env).heap ⟨2, 3⟩ ∧ Matrix.Disjoint (afterAC env).heap ⟨2, 0⟩ ⟨2, 3⟩ := by
  have h1 := Matrix.ctor_ok env 2 7 w0 (World.empty_wf _) _ _ hA
  have h2 := Matrix.ctor_ok env 2 5 (afterA env) h1.2.2.2.1 _ _ hC
  exact ⟨h2.2.2.2.1, h1.2.2.1.valid_frame h2.2.1, h2.2.2.1, h2.2.2.2.2 _ h1.2.2.1⟩

/-- C12.  `A += B` and `DifferentSizeException`.  When `A.size() != B.size()`
the operator ends with `DifferentSizeException{A.size(), B.size()}` and the
program state as it was.  When the sizes are equal the only exceptions that
leave it are those the `+=` of the element type throws.  So, for an element
type whose own `+=` does not throw a `DifferentSizeException`, the operator
ends with a `DifferentSizeException` if and only if `A.size() != B.size()`,
and the exception then carries `N1 == A.size()` and `N2 == B.size()`. -/
theorem addAssign_differentSize (ops : AddOps T σ) (A B : Matrix) (w : World T σ) :
    (A.size ≠ B.size →
      Matrix.addAssign ops A B w = (.error (.differentSize A.size B.size), w)) ∧
    (A.size = B.size → ∀ e, (Matrix.addAssign ops A B w).1 = .error e →
      ∃ s, (ops.addEff s).2 = some e) ∧
    ((∀ s e, (ops.addEff s).2 = some e → ∀ n m, e ≠ .differentSize n m) →
      ((∃ n m, (Matrix.addAssign ops A B w).1 = .error (.differentSize n m)) ↔
        A.size ≠ B.size) ∧
      ∀ n m, (Matrix.addAssign ops A B w).1 = .error (.differentSize n m) →
        n = A.size ∧ m = B.size) := by
  have hprov : A.size = B.size → ∀ e, (Matrix.addAssign ops A B w).1 = .error e →
      ∃ s, (ops.addEff s).2 = some e := by
    intro hs e h
    rw [Matrix.addAssign_of_eq ops A B w hs] at h
    rcases hr : Matrix.addRows ops A B A.size 0 w with ⟨r, w1⟩
    rw [hr] at h
    cases r with
    | none => simp only at h; cases h
    | some e1 =>
      simp only [Except.error.injEq] at h
      subst h
      exact Matrix.addRows_error ops A B A.size 0 w e1 (by rw [hr])
  refine ⟨fun hs => Matrix.addAssign_of_ne ops A B w hs, hprov, fun hT => ?_⟩
  have hpay : ∀ n m, (Matrix.addAssign ops A B w).1 = .error (.differentSize n m) →
      A.size ≠ B.size ∧ n = A.size ∧ m = B.size := by
    intro n m h
    by_cases hs : A.size = B.size
    · rcases hprov hs _ h with ⟨s, hs1⟩
      exact absurd rfl (hT s _ hs1 n m)
    · rw [Matrix.addAssign_of_ne ops A B w hs] at h
      simp only [Except.error.injEq, Exn.differentSize.injEq] at h
      exact ⟨hs, h.1.symm, h.2.symm⟩
  refine ⟨⟨fun ⟨n, m, h⟩ => (hpay n m h).1, fun hs => ⟨A.size, B.size, ?_⟩⟩,
    fun n m h => (hpay n m h).2⟩
  rw [Matrix.addAssign_of_ne ops A B w hs]

/-- Instance of C12: for `A` of size 3 and `B` of size 17 over `int`,
`A += B` ends with `DifferentSizeException{3, 17}`. -/
theorem addAssign_differentSize_witness :
    Matrix.size ⟨3, 0⟩ ≠ Matrix.size ⟨17, 4⟩ ∧
    Matrix.addAssign intAdd ⟨3, 0⟩ ⟨17, 4⟩
      (Matrix.ctor intEnv 17 1 (Matrix.ctor intEnv 3 1 (World.empty ())).2).2 =
      (.error (.differentSize 3 17),
        (Matrix.ctor intEnv 17 1 (Matrix.ctor intEnv 3 1 (World.empty ())).2).2) :=
  ⟨by decide, (addAssign_differentSize intAdd ⟨3, 0⟩ ⟨17, 4⟩
    (Matrix.ctor intEnv 17 1 (Matrix.ctor intEnv 3 1 (World.empty ())).2).2).1 (by decide)⟩

/-- C15.  A write of `x` through the mutable `M(i, j)` of a valid matrix, `i`
and `j` in range: `M(i, j)` then reads `x`, every other element of `M` reads
as before, `M` is still a valid matrix of the same size, no block has been
allocated or released, and `M[i][j]` is the same element: it reads the same
and a write through it has the same effect. -/
theorem put_spec (h : Heap T) (M : Matrix) (v : M.Valid h) (i j : Nat) (hi : i < M.size)
    (hj : j < M.size) (x : T) :
    Matrix.get (Matrix.put h M i j x) M i j = some x ∧
    (∀ k l, k < M.size → l < M.size → (k ≠ i ∨ l ≠ j) →
      Matrix.get (Matrix.put h M i j x) M k l = Matrix.get h M k l) ∧
    M.Valid (Matrix.put h M i j x) ∧
    (Matrix.put h M i j x).mem.length = h.mem.length ∧
    (Matrix.put h M i j x).freed = h.freed ∧
    (∀ a, (Matrix.put h M i j x).live a ↔ h.live a) ∧
    Matrix.getIndexed h M i j = Matrix.get h M i j ∧
    Matrix.putIndexed h M i j x = Matrix.put h M i j x ∧
    Matrix.getIndexed (Matrix.putIndexed h M i j x) M i j = some x := by
  have hlf := Heap.setAt2_length_freed h M.Data i j (some x)
  have hsame := Matrix.get_put_same v hi hj x
  refine ⟨hsame, fun k l hk _ hne => Matrix.get_put_ne v hi hk hne x,
    v.setAt2_valid _ _ _ _, hlf.1, hlf.2, fun a => ?_, rfl, rfl, hsame⟩
  unfold Heap.live
  show a < (h.setAt2 M.Data i j (some x)).mem.length ∧ a ∉ (h.setAt2 M.Data i j (some x)).freed ↔ _
  rw [hlf.1, hlf.2]

/-- Instance of C15: in the 2 x 2 matrix with 7 on the diagonal, after
`A(0, 1) = 4` the element `A(0, 1)` reads 4 and `A(0, 0)` still reads 7. -/
theorem put_spec_witness :
    Matrix.Valid (afterA (faultyEnv 0 0 0)).heap ⟨2, 0⟩ ∧
    Matrix.get (Matrix.put (afterA (faultyEnv 0 0 0)).heap ⟨2, 0⟩ 0 1 4) ⟨2, 0⟩ 0 1 = some 4 ∧
    Matrix.get (Matrix.put (afterA (faultyEnv 0 0 0)).heap ⟨2, 0⟩ 0 1 4) ⟨2, 0⟩ 0 0 = some 7 :=
  have h := put_spec (afterA (faultyEnv 0 0 0)).heap ⟨2, 0⟩ afterA_valid.1 0 1
    (by decide) (by decide) 4
  ⟨afterA_valid.1, h.1, (h.2.1 0 0 (by decide) (by decide) (Or.inr (by decide))).trans rfl⟩

/-- The inner loop of `operator +=` in `A += A`, on row `i` of a valid matrix:
only the elements of row `i` from column `j` on are touched, and when the
loop completes each of them holds twice its old value. -/
theorem Matrix.addCells_self_spec (ops : AddOps T σ) (A : Matrix) (i : Nat) (hi : i < A.N) :
    ∀ (k j : Nat) (w : World T σ), j + k = A.N → A.Valid w.heap →
      ∀ r w1, Matrix.addCells ops A A i k j w = (r, w1) →
        (∀ a l, a < A.N → (a ≠ i ∨ l < j) →
          Matrix.get w1.heap A a l = Matrix.get w.heap A a l) ∧
        (r = none → ∀ l, j ≤ l → l < A.N →
          Matrix.get w1.heap A i l =
            optAdd ops (Matrix.get w.heap A i l) (Matrix.get w.heap A i l)) := by
  intro k
  induction k with
  | zero =>
    intro j w hjk _ r w1 hrun
    simp only [Matrix.addCells, Prod.mk.injEq] at hrun
    obtain ⟨rfl, rfl⟩ := hrun
    exact ⟨fun _ _ _ _ => rfl, fun _ l h1 h2 => by omega⟩
  | succ k ih =>
    intro j w hjk vA r w1 hrun
    have hj : j < A.N := by omega
    rcases he : ops.addEff w.st with ⟨s, _ | e⟩
    · simp only [Matrix.addCells, he] at hrun
      have hs := ih (j + 1) _ (by omega) (vA.setAt2_valid _ _ _ _) r w1 hrun
      refine ⟨fun a l ha hne => ?_, fun hr l hjl hl => ?_⟩
      · have hne1 : a ≠ i ∨ l < j + 1 := by
          rcases hne with h1 | h1
          · exact Or.inl h1
          · exact Or.inr (by omega)
        have hne2 : a ≠ i ∨ l ≠ j := by
          rcases hne with h1 | h1
          · exact Or.inl h1
          · exact Or.inr (by omega)
        rw [hs.1 a l ha hne1]
        exact Matrix.get_store_ne vA hi ha hne2 _
      · by_cases hlj : l = j
        · subst hlj
          rw [hs.1 i l hi (Or.inr (by omega))]
          exact Matrix.get_store_same vA hi hl _
        · rw [hs.2 hr l (by omega) hl, Matrix.get_store_ne vA hi hi (Or.inr hlj)]
    · simp only [Matrix.addCells, he, Prod.mk.injEq] at hrun
      obtain ⟨rfl, rfl⟩ := hrun
      exact ⟨fun _ _ _ _ => rfl, fun hr => by cases hr⟩

/-- The loops of `operator +=` in `A += A` on a valid matrix: the rows before
row `i` are not touched, and when the loops complete every element of the
rows from `i` on holds twice its old value. -/
theorem Matrix.addRows_self_spec (ops : AddOps T σ) (A : Matrix) :
    ∀ (k i : Nat) (w : World T σ), i + k = A.N → A.Valid w.heap →
      ∀ r w1, Matrix.addRows ops A A k i w = (r, w1) →
        (∀ a l, a < i → Matrix.get w1.heap A a l = Matrix.get w.heap A a l) ∧
        (r = none → ∀ a l, i ≤ a → a < A.N → l < A.N →
          Matrix.get w1.heap A a l =
            optAdd ops (Matrix.get w.heap A a l) (Matrix.get w.heap A a l)) := by
  intro k
  induction k with
  | zero =>
    intro i w hik _ r w1 hrun
    simp only [Matrix.addRows, Prod.mk.injEq] at hrun
    obtain ⟨rfl, rfl⟩ := hrun
    exact ⟨fun _ _ _ => rfl, fun _ a l h1 h2 => by omega⟩
  | succ k ih =>
    intro i w hik vA r w1 hrun
    have hi : i < A.N := by omega
    rcases hc : Matrix.addCells ops A A i A.N 0 w with ⟨rc, wc⟩
    have hs := Matrix.addCells_self_spec ops A i hi A.N 0 w (by omega) vA rc wc hc
    have hsh := Matrix.addCells_shape ops A A i A.N 0 w
    rw [hc] at hsh
    simp only [Matrix.addRows, Matrix.size, hc] at hrun
    cases rc with
    | some e =>
      simp only [Prod.mk.injEq] at hrun
      obtain ⟨rfl, rfl⟩ := hrun
      exact ⟨fun a l ha => hs.1 a l (by omega) (Or.inl (by omega)), fun hr => by cases hr⟩
    | none =>
      simp only at hrun
      have hs2 := ih (i + 1) wc (by omega) (hsh.1 A vA) r w1 hrun
      refine ⟨fun a l ha => ?_, fun hr a l hia ha hl => ?_⟩
      · rw [hs2.1 a l (by omega), hs.1 a l (by omega) (Or.inl (by omega))]
      · by_cases hai : a = i
        · subst hai
          rw [hs2.1 a l (by omega)]
          exact hs.2 rfl l (Nat.zero_le l) hl
        · rw [hs2.2 hr a l (by omega) ha hl, hs.1 a l ha (Or.inl hai)]

/-- C20, as the code has it.  `A += B` for valid matrices `A` and `B`, `B`
being `A` itself or a different object (one that owns its own storage): when
`A.size() == B.size()` and the operator returns, the reference returned is
`A`, `A.size()` is what it was, every in-range `A(i, j)` holds its old value
plus the old `B(i, j)`, both are valid, and `B` reads as before when it is a
different object; the operator does return when the `+=` of the element type
does not throw; and when `A.size() != B.size()` the operator throws with the
program state as it was, so no element of `A` is modified. -/
theorem addAssign_sum (ops : AddOps T σ) (A B : Matrix) (w : World T σ)
    (vA : A.Valid w.heap) (vB : B.Valid w.heap) (hAB : B = A ∨ Matrix.Disjoint w.heap A B) :
    (A.size = B.size → ∀ R w1, Matrix.addAssign ops A B w = (.ok R, w1) →
      R = A ∧ R.size = A.size ∧
      (∀ i j, i < A.size → j < A.size →
        Matrix.get w1.heap A i j =
          optAdd ops (Matrix.get w.heap A i j) (Matrix.get w.heap B i j)) ∧
      (Matrix.Disjoint w.heap A B → ∀ i j, i < A.size → j < A.size →
        Matrix.get w1.heap B i j = Matrix.get w.heap B i j) ∧
      A.Valid w1.heap ∧ B.Valid w1.heap) ∧
    (A.size = B.size → (∀ s, (ops.addEff s).2 = none) →
      (Matrix.addAssign ops A B w).1 = .ok A) ∧
    (A.size ≠ B.size →
      (Matrix.addAssign ops A B w).1 = .error (.differentSize A.size B.size) ∧
      (Matrix.addAssign ops A B w).2 = w ∧
      ∀ i j, Matrix.get (Matrix.addAssign ops A B w).2.heap A i j = Matrix.get w.heap A i j) := by
  refine ⟨fun hs R w1 hrun => ?_, fun hs nt => ?_, fun hs => ?_⟩
  · have hN : A.N = B.N := hs
    have hsh := Matrix.addAssign_shape ops A B w
    rw [hrun] at hsh
    rw [Matrix.addAssign_of_eq ops A B w hs] at hrun
    rcases hr : Matrix.addRows ops A B A.size 0 w with ⟨r, w2⟩
    rw [hr] at hrun
    cases r with
    | some e => simp only [Prod.mk.injEq] at hrun; cases hrun.1
    | none =>
      simp only [Prod.mk.injEq, Except.ok.injEq] at hrun
      obtain ⟨rfl, rfl⟩ := hrun
      refine ⟨rfl, rfl, fun i j hi hj => ?_, fun d i j hi _ => ?_, hsh.1 A vA, hsh.1 B vB⟩
      · rcases hAB with e | d
        · subst e
          exact (Matrix.addRows_self_spec ops B B.N 0 w (by omega) vA none w2 hr).2 rfl i j
            (Nat.zero_le i) hi hj
        · exact (Matrix.addRows_spec ops A B hN A.N 0 w (by omega) vA vB d none w2 hr).2.2 rfl
            i j (Nat.zero_le i) hi hj
      · exact (Matrix.addRows_spec ops A B hN A.N 0 w (by omega) vA vB d none w2 hr).1 i j
          (by rw [← hN]; exact hi)
  · rw [Matrix.addAssign_of_eq ops A B w hs]
    have h1 := Matrix.addRows_noThrow ops nt A B A.size 0 w
    rcases hr : Matrix.addRows ops A B A.size 0 w with ⟨r, w2⟩
    rw [hr] at h1
    simp only at h1
    subst h1
    rfl
  · rw [Matrix.addAssign_of_ne ops A B w hs]
    exact ⟨rfl, rfl, fun _ _ => rfl⟩

/-- Instance of C20 as the code has it: `A += C` for the 2 x 2 matrices with 7
and with 5 on the diagonal gives 12 on the diagonal of `A` and leaves `C`
alone. -/
theorem addAssign_sum_witness :
    Matrix.Valid (afterAC (faultyEnv 0 0 0)).heap ⟨2, 0⟩ ∧
    Matrix.Valid (afterAC (faultyEnv 0 0 0)).heap ⟨2, 3⟩ ∧
    Matrix.Disjoint (afterAC (faultyEnv 0 0 0)).heap ⟨2, 0⟩ ⟨2, 3⟩ ∧
    (Matrix.addAssign (faultyAdd 0) ⟨2, 0⟩ ⟨2, 3⟩ (afterAC (faultyEnv 0 0 0))).1 = .ok ⟨2, 0⟩ ∧
    Matrix.get (Matrix.addAssign (faultyAdd 0) ⟨2, 0⟩ ⟨2, 3⟩ (afterAC (faultyEnv 0 0 0))).2.heap
      ⟨2, 0⟩ 1 1 = some 12 ∧
    Matrix.get (Matrix.addAssign (faultyAdd 0) ⟨2, 0⟩ ⟨2, 3⟩ (afterAC (faultyEnv 0 0 0))).2.heap
      ⟨2, 3⟩ 1 1 = some 5 :=
  have hv := afterAC_valid (faultyEnv 0 0 0) rfl rfl
  have h := (addAssign_sum (faultyAdd 0) ⟨2, 0⟩ ⟨2, 3⟩ (afterAC (faultyEnv 0 0 0))
    hv.2.1 hv.2.2.1 (Or.inr hv.2.2.2)).1 rfl ⟨2, 0⟩ _ rfl
  ⟨hv.2.1, hv.2.2.1, hv.2.2.2, rfl,
    (h.2.2.1 1 1 (by decide) (by decide)).trans rfl,
    (h.2.2.2.1 hv.2.2.2 1 1 (by decide) (by decide)).trans rfl⟩

/-- C20 as stated fails: in `A += A` on the valid 2 x 2 matrix with 7 on the
diagonal the right operand is a valid matrix of the same size, the operator
returns, and the right operand is changed: its element `(0, 0)` read 7 before
and reads 14 afterwards. -/
theorem addAssign_self_changes_operand :
    Matrix.Valid (afterA (faultyEnv 0 0 0)).heap ⟨2, 0⟩ ∧
    (Matrix.addAssign (faultyAdd 0) ⟨2, 0⟩ ⟨2, 0⟩ (afterA (faultyEnv 0 0 0))).1 = .ok ⟨2, 0⟩ ∧
    Matrix.get (afterA (faultyEnv 0 0 0)).heap ⟨2, 0⟩ 0 0 = some 7 ∧
    Matrix.get (Matrix.addAssign (faultyAdd 0) ⟨2, 0⟩ ⟨2, 0⟩ (afterA (faultyEnv 0 0 0))).2.heap
      ⟨2, 0⟩ 0 0 = some 14 ∧
    Matrix.get (Matrix.addAssign (faultyAdd 0) ⟨2, 0⟩ ⟨2, 0⟩ (afterA (faultyEnv 0 0 0))).2.heap
      ⟨2, 0⟩ 0 0 ≠ Matrix.get (afterA (faultyEnv 0 0 0)).heap ⟨2, 0⟩ 0 0 :=
  ⟨afterA_valid.1, rfl, rfl, rfl, by decide⟩

end Arithmetic

/-! ## Release accounting -/

section Release

variable {T σ : Type}

theorem Matrix.Valid.shaped {h : Heap T} {M : Matrix} (v : M.Valid h) : M.Shaped h where
  row := fun i hi => by
    rcases v.row i hi with ⟨r, hr, _, hrl⟩
    refine ⟨r, hr, fun e => ?_⟩
    subst e
    exact Heap.ptrLen_rowLen_ne v.dataLen hrl
  inj := v.inj

theorem Matrix.Shaped.shaped_of_mem {h h1 : Heap T} (e : h1.mem = h.mem) {M : Matrix}
    (sh : M.Shaped h) : M.Shaped h1 where
  row := fun i hi => by
    rcases sh.row i hi with ⟨r, hr, hne⟩
    exact ⟨r, by rw [Heap.ptrAt_of_mem e]; exact hr, hne⟩
  inj := fun i k hi hk e1 => by
    rw [Heap.ptrAt_of_mem e, Heap.ptrAt_of_mem e] at e1
    exact sh.inj i k hi hk e1

theorem List.filterMap_eq_map_getD {α : Type} (f : α → Option Nat) :
    ∀ l : List α, (∀ x, x ∈ l → ∃ b, f x = some b) →
      l.filterMap f = l.map (fun x => (f x).getD 0) := by
  intro l
  induction l with
  | nil => intro _; rfl
  | cons x xs ih =>
    intro hl
    rcases hl x (List.mem_cons_self x xs) with ⟨b, hb⟩
    rw [List.filterMap_cons, hb, List.map_cons, hb,
      ih (fun y hy => hl y (List.mem_cons_of_mem x hy))]
    rfl

/-- The rows a destructor releases are `N` different blocks. -/
theorem Matrix.Shaped.rows_nodup {h : Heap T} {M : Matrix} (sh : M.Shaped h) :
    ((List.range' 0 M.N).filterMap (h.ptrAt M.Data)).Nodup ∧
    ((List.range' 0 M.N).filterMap (h.ptrAt M.Data)).length = M.N := by
  have hall : ∀ x, x ∈ List.range' 0 M.N → ∃ b, h.ptrAt M.Data x = some b := by
    intro x hx
    rcases sh.row x (by have := List.mem_range'_1.1 hx; omega) with ⟨r, hr, _⟩
    exact ⟨r, hr⟩
  rw [List.filterMap_eq_map_getD _ _ hall]
  refine ⟨List.Nodup.map_on ?_ (List.nodup_range' 0 M.N), by simp⟩
  intro x hx y hy e
  have hx1 : x < M.N := by have := List.mem_range'_1.1 hx; omega
  have hy1 : y < M.N := by have := List.mem_range'_1.1 hy; omega
  rcases sh.row x hx1 with ⟨rx, hrx, _⟩
  rcases sh.row y hy1 with ⟨ry, hry, _⟩
  apply sh.inj x y hx1 hy1
  rw [hrx, hry] at e ⊢
  simp only [Option.getD_some] at e
  rw [e]

theorem Matrix.mem_rows (h : Heap T) (M : Matrix) (a : Nat) :
    a ∈ (List.range' 0 M.N).filterMap (h.ptrAt M.Data) ↔
      ∃ i, i < M.N ∧ h.ptrAt M.Data i = some a := by
  simp only [List.mem_filterMap, List.mem_range'_1]
  constructor
  · rintro ⟨i, hi, hp⟩
    exact ⟨i, by omega, hp⟩
  · rintro ⟨i, hi, hp⟩
    exact ⟨i, ⟨Nat.zero_le i, by omega⟩, hp⟩

/-- The destructor releases every block of the matrix once more. -/
theorem Matrix.Shaped.dtor_count_owned {h : Heap T} {M : Matrix} (sh : M.Shaped h) {a : Nat}
    (ho : M.Owns h a) : (Matrix.dtor h M).freed.count a = h.freed.count a + 1 := by
  rw [Matrix.dtor_freed, List.count_cons, List.count_append, List.count_reverse]
  by_cases hd : a = M.Data
  · subst hd
    have hnot : M.Data ∉ (List.range' 0 M.N).filterMap (h.ptrAt M.Data) := by
      intro hm
      rcases (Matrix.mem_rows h M M.Data).1 hm with ⟨i, hi, hp⟩
      rcases sh.row i hi with ⟨r, hr, hne⟩
      rw [hr] at hp
      exact hne (Option.some.inj hp)
    rw [List.count_eq_zero_of_not_mem hnot]
    simp
  · have hrow : a ∈ (List.range' 0 M.N).filterMap (h.ptrAt M.Data) := by
      rcases ho with e | e
      · exact absurd e hd
      · exact (Matrix.mem_rows h M a).2 e
    rw [List.count_eq_one_of_mem sh.rows_nodup.1 hrow]
    have hb : (M.Data == a) = false := beq_false_of_ne (Ne.symm hd)
    rw [hb]
    simp
    omega

/-- The destructor releases nothing else. -/
theorem Matrix.dtor_count_other (h : Heap T) (M : Matrix) {a : Nat} (ho : ¬ M.Owns h a) :
    (Matrix.dtor h M).freed.count a = h.freed.count a := by
  rw [Matrix.dtor_freed, List.count_cons, List.count_append, List.count_reverse]
  have hd : a ≠ M.Data := fun e => ho (Or.inl e)
  have hnot : a ∉ (List.range' 0 M.N).filterMap (h.ptrAt M.Data) :=
    fun hm => ho (Or.inr ((Matrix.mem_rows h M a).1 hm))
  rw [List.count_eq_zero_of_not_mem hnot]
  have hb : (M.Data == a) = false := beq_false_of_ne (Ne.symm hd)
  rw [hb]
  simp

/-- The destructor makes `N + 1` releases. -/
theorem Matrix.Shaped.dtor_freed_length {h : Heap T} {M : Matrix} (sh : M.Shaped h) :
    (Matrix.dtor h M).freed.length = h.freed.length + M.N + 1 := by
  rw [Matrix.dtor_freed]
  simp only [List.length_cons, List.length_append, List.length_reverse, sh.rows_nodup.2]
  omega

theorem Heap.count_freed_of_live {h : Heap T} {a : Nat} (hl : h.live a) :
    h.freed.count a = 0 :=
  List.count_eq_zero_of_not_mem hl.2

theorem Matrix.Valid.owns_live {h : Heap T} {M : Matrix} (v : M.Valid h) {a : Nat}
    (ho : M.Owns h a) : h.live a := by
  rcases ho with e | ⟨i, hi, hp⟩
  · rw [e]; exact v.dataLive
  · rcases v.row i hi with ⟨r, hr, hl, _⟩
    rw [hr] at hp
    cases hp
    exact hl

/-- Destroying a matrix whose construction has completed brings the live
blocks back to those of the heap it was built on. -/
theorem Built.dtor_live {h0 h : Heap T} {N : Nat} (b : Built h0 N N h) :
    ∀ a, (Matrix.dtor h ⟨N, h0.mem.length⟩).live a ↔ h0.live a := by
  refine Matrix.handler_live (by rw [b.len]) (by rw [b.len]; omega) b.link ?_
  intro a
  rw [b.freed, b.len]
  constructor
  · exact fun h1 => Or.inl h1
  · rintro (h1 | ⟨_, h2⟩)
    · exact h1
    · omega

/-- Destroying a valid matrix: each of its blocks was live, is released once
and is live no more; `N + 1` releases are made. -/
theorem Matrix.Valid.dtor_release {h : Heap T} {M : Matrix} (v : M.Valid h) :
    (∀ a, M.Owns h a →
      h.live a ∧ (Matrix.dtor h M).freed.count a = 1 ∧ ¬ (Matrix.dtor h M).live a) ∧
    (Matrix.dtor h M).freed.length = h.freed.length + M.N + 1 := by
  refine ⟨fun a ho => ⟨v.owns_live ho, ?_, fun hl => hl.2 ?_⟩, v.shaped.dtor_freed_length⟩
  · rw [v.shaped.dtor_count_owned ho, Heap.count_freed_of_live (v.owns_live ho)]
  · rw [Matrix.mem_dtor_freed]
    rcases ho with e | e
    · exact Or.inl e
    · exact Or.inr (Or.inl e)

/-- C16.  Paired acquisition and release.  Destroying a matrix returned by
`Matrix(n, lambda)` or by the deep-copy constructor releases each of its
blocks (the row pointer array and the `n` rows, all live until then) exactly
once, in `n + 1` releases, and the live blocks are then those there were
before the construction; and after a completed `A = B` every block `A` owned
before the assignment has been released exactly once, in `A.size() + 1`
releases, and is live no more. -/
theorem paired_release (env : Env T σ) (w : World T σ) (wf : w.heap.WF) :
    (∀ n lambda M w1, Matrix.ctor env n lambda w = (.ok M, w1) →
      (∀ a, M.Owns w1.heap a →
        w1.heap.live a ∧ (Matrix.dtor w1.heap M).freed.count a = 1) ∧
      (Matrix.dtor w1.heap M).freed.length = w1.heap.freed.length + n + 1 ∧
      ∀ a, (Matrix.dtor w1.heap M).live a ↔ w.heap.live a) ∧
    (∀ A B w1, A.Valid w.heap → Matrix.copyCtor env A w = (.ok B, w1) →
      (∀ a, B.Owns w1.heap a →
        w1.heap.live a ∧ (Matrix.dtor w1.heap B).freed.count a = 1) ∧
      (Matrix.dtor w1.heap B).freed.length = w1.heap.freed.length + A.size + 1 ∧
      ∀ a, (Matrix.dtor w1.heap B).live a ↔ w.heap.live a) ∧
    (∀ A B, A.Valid w.heap → B.Valid w.heap → (Matrix.assign env A B w).exn = none →
      (∀ a, A.Owns w.heap a →
        w.heap.live a ∧ (Matrix.assign env A B w).world.heap.freed.count a = 1 ∧
        ¬ (Matrix.assign env A B w).world.heap.live a) ∧
      (Matrix.assign env A B w).world.heap.freed.length = w.heap.freed.length + A.size + 1) := by
  refine ⟨fun n lambda M w1 hrun => ?_, fun A B w1 vA hrun => ?_, fun A B vA vB hok => ?_⟩
  · have hs := (Matrix.ctor_spec env n lambda w _ w1 hrun).2 M rfl
    have hv : M.Valid w1.heap := by rw [hs.1]; exact hs.2.1.valid wf
    have hN : M.N = n := by rw [hs.1]
    have hr := hv.dtor_release
    refine ⟨fun a ho => ⟨(hr.1 a ho).1, (hr.1 a ho).2.1⟩, by rw [hr.2, hN], ?_⟩
    rw [hs.1]
    exact hs.2.1.dtor_live
  · have hs := (Matrix.copyCtor_spec env A w vA _ w1 hrun).2 B rfl
    have hv : B.Valid w1.heap := by rw [hs.1]; exact hs.2.1.valid wf
    have hN : B.N = A.N := by rw [hs.1]
    have hr := hv.dtor_release
    refine ⟨fun a ho => ⟨(hr.1 a ho).1, (hr.1 a ho).2.1⟩, by rw [hr.2, hN]; rfl, ?_⟩
    rw [hs.1]
    exact hs.2.1.dtor_live
  · rcases hc : Matrix.copyCtor env B w with ⟨res, w1⟩
    cases res with
    | error e =>
      rw [Matrix.assign_of_copy_error env A B w e w1 hc] at hok
      cases hok
    | ok C =>
      rw [Matrix.assign_of_copy_ok env A B w C w1 hc]
      have hs := Matrix.copyCtor_spec env B w vB _ w1 hc
      have hb := (hs.2 C rfl).2.1
      have vA1 := vA.valid_frame hs.1
      have hr := vA1.dtor_release
      refine ⟨fun a ho => ?_, ?_⟩
      · have ho1 : A.Owns w1.heap a := by
          rcases ho with e | ⟨i, hi, hp⟩
          · exact Or.inl e
          · exact Or.inr ⟨i, hi, by rw [hs.1.ptrAt vA.dataLive.1]; exact hp⟩
        exact ⟨vA.owns_live ho, (hr.1 a ho1).2.1, (hr.1 a ho1).2.2⟩
      · show (Matrix.dtor w1.heap A).freed.length = _
        rw [hr.2, hb.freed]
        rfl

/-- Instance of C16: the 2 x 2 matrix `A` built on an empty free store owns
the blocks 0, 1 and 2; its destructor releases each of them once, and
nothing is live afterwards. -/
theorem paired_release_witness :
    (w0 : World Int Calls).heap.WF ∧
    (Matrix.dtor (afterA (faultyEnv 0 0 0)).heap ⟨2, 0⟩).freed.count 0 = 1 ∧
    (Matrix.dtor (afterA (faultyEnv 0 0 0)).heap ⟨2, 0⟩).freed.count 1 = 1 ∧
    (Matrix.dtor (afterA (faultyEnv 0 0 0)).heap ⟨2, 0⟩).freed.count 2 = 1 ∧
    (Matrix.dtor (afterA (faultyEnv 0 0 0)).heap ⟨2, 0⟩).freed.length = 3 ∧
    ¬ (Matrix.dtor (afterA (faultyEnv 0 0 0)).heap ⟨2, 0⟩).live 1 :=
  have h := (paired_release (faultyEnv 0 0 0) w0 (World.empty_wf _)).1 2 7 ⟨2, 0⟩
    (afterA (faultyEnv 0 0 0)) rfl
  ⟨World.empty_wf _, (h.1 0 (Or.inl rfl)).2, (h.1 1 (Or.inr ⟨0, by decide, rfl⟩)).2,
    (h.1 2 (Or.inr ⟨1, by decide, rfl⟩)).2, h.2.1,
    fun hl => absurd ((h.2.2 1).1 hl).1 (by decide)⟩

end Release

/-! ## Invariants of a matrix object -/

section Invariants

variable {T σ : Type}

/-- The reference `operator +=` returns is its left operand. -/
theorem Matrix.addAssign_ok_eq (ops : AddOps T σ) (A B : Matrix) (w : World T σ) (R : Matrix)
    (w1 : World T σ) (hrun : Matrix.addAssign ops A B w = (.ok R, w1)) : R = A := by
  by_cases hs : A.size = B.size
  · rw [Matrix.addAssign_of_eq ops A B w hs] at hrun
    rcases hr : Matrix.addRows ops A B A.size 0 w with ⟨r, w2⟩
    rw [hr] at hrun
    cases r with
    | some e => simp only [Prod.mk.injEq] at hrun; cases hrun.1
    | none =>
      simp only [Prod.mk.injEq, Except.ok.injEq] at hrun
      exact hrun.1.symm
  · rw [Matrix.addAssign_of_ne ops A B w hs] at hrun
    simp only [Prod.mk.injEq] at hrun
    cases hrun.1

/-- An assignment that ends with an exception has not written the fields of
`*this`. -/
theorem Matrix.assign_error_self (env : Env T σ) (A B : Matrix) (w : World T σ)
    (hne : (Matrix.assign env A B w).exn ≠ none) : (Matrix.assign env A B w).self = A := by
  rcases hc : Matrix.copyCtor env B w with ⟨res, w1⟩
  cases res with
  | error e => rw [Matrix.assign_of_copy_error env A B w e w1 hc]
  | ok C =>
    rw [Matrix.assign_of_copy_ok env A B w C w1 hc] at hne
    exact absurd rfl hne

/-- However an assignment between valid matrices ends, `*this` is a valid
matrix afterwards. -/
theorem Matrix.assign_self_valid (env : Env T σ) (A B : Matrix) (w : World T σ)
    (wf : w.heap.WF) (vA : A.Valid w.heap) (vB : B.Valid w.heap) :
    (Matrix.assign env A B w).self.Valid (Matrix.assign env A B w).world.heap := by
  rcases hc : Matrix.copyCtor env B w with ⟨res, w1⟩
  cases res with
  | error e =>
    rw [Matrix.assign_of_copy_error env A B w e w1 hc]
    exact vA.valid_frame (Matrix.copyCtor_spec env B w vB _ w1 hc).1
  | ok C =>
    have hok : (Matrix.assign env A B w).exn = none := by
      rw [Matrix.assign_of_copy_ok env A B w C w1 hc]
    exact (Matrix.assign_ok env A B w wf vA vB hok).2.1

/-- What the operations do to the size of a valid matrix `A`: an element
write through `A(i, j)` or `A[i][j]` leaves `A` a valid matrix of the same
`N`; the matrix `A += B` returns has the size of `A`; an assignment `A = B`
that completes leaves `A.size() == B.size()`; an assignment that ends with an
exception leaves `A.size()` as it was. -/
theorem size_after_operations (env : Env T σ) (ops : AddOps T σ) (A B : Matrix)
    (w : World T σ) (wf : w.heap.WF) (vA : A.Valid w.heap) (vB : B.Valid w.heap) :
    (∀ i j x, A.Valid (Matrix.put w.heap A i j x) ∧
      A.Valid (Matrix.putIndexed w.heap A i j x)) ∧
    (∀ R w1, Matrix.addAssign ops A B w = (.ok R, w1) → R.size = A.size) ∧
    ((Matrix.assign env A B w).exn = none → (Matrix.assign env A B w).self.size = B.size) ∧
    ((Matrix.assign env A B w).exn ≠ none → (Matrix.assign env A B w).self.size = A.size) ∧
    (B.size = A.size → (Matrix.assign env A B w).self.size = A.size) := by
  have h3 : (Matrix.assign env A B w).exn = none →
      (Matrix.assign env A B w).self.size = B.size :=
    fun hok => (Matrix.assign_ok env A B w wf vA vB hok).1
  have h4 : (Matrix.assign env A B w).exn ≠ none →
      (Matrix.assign env A B w).self.size = A.size :=
    fun hne => by rw [Matrix.assign_error_self env A B w hne]
  refine ⟨fun i j x => ⟨vA.setAt2_valid _ _ _ _, vA.setAt2_valid _ _ _ _⟩,
    fun R w1 hrun => by rw [Matrix.addAssign_ok_eq ops A B w R w1 hrun], h3, h4, fun he => ?_⟩
  by_cases hok : (Matrix.assign env A B w).exn = none
  · rw [h3 hok, he]
  · exact h4 hok

/-- C14.  Shape invariant.  A matrix returned by `Matrix(n, lambda)` or by the
deep-copy constructor is valid: its row pointer array has exactly `N` entries,
each pointing to a live row of its own with exactly `N` elements.  Validity
of a matrix is kept by an element write, by `+=` however it ends, and by an
assignment to it however it ends. -/
theorem shape_invariant (env : Env T σ) (ops : AddOps T σ) (w : World T σ) (wf : w.heap.WF) :
    (∀ n lambda M w1, Matrix.ctor env n lambda w = (.ok M, w1) →
      M.N = n ∧ M.Valid w1.heap) ∧
    (∀ A B w1, A.Valid w.heap → Matrix.copyCtor env A w = (.ok B, w1) →
      B.N = A.N ∧ B.Valid w1.heap) ∧
    (∀ (A : Matrix) (i j : Nat) (x : T), A.Valid w.heap →
      A.Valid (Matrix.put w.heap A i j x)) ∧
    (∀ A B : Matrix, A.Valid w.heap → A.Valid (Matrix.addAssign ops A B w).2.heap) ∧
    (∀ A B : Matrix, A.Valid w.heap → B.Valid w.heap →
      (Matrix.assign env A B w).self.Valid (Matrix.assign env A B w).world.heap) ∧
    (∀ (h : Heap T) (M : Matrix), M.Valid h →
      h.ptrLen M.Data = some M.N ∧
      ∀ i, i < M.N → ∃ r, h.ptrAt M.Data i = some r ∧ h.rowLen r = some M.N) := by
  refine ⟨fun n lambda M w1 hrun => ?_, fun A B w1 vA hrun => ?_,
    fun A i j x vA => vA.setAt2_valid _ _ _ _,
    fun A B vA => (Matrix.addAssign_shape ops A B w).1 A vA,
    fun A B vA vB => Matrix.assign_self_valid env A B w wf vA vB,
    fun h M v => ⟨v.dataLen, fun i hi => ?_⟩⟩
  · have hk := Matrix.ctor_ok env n lambda w wf M w1 hrun
    exact ⟨by rw [hk.1], hk.2.2.1⟩
  · have hk := Matrix.copyCtor_ok env A w wf vA B w1 hrun
    exact ⟨by rw [hk.1], hk.2.2.1⟩
  · rcases v.row i hi with ⟨r, hr, _, hrl⟩
    exact ⟨r, hr, hrl⟩

/-- Instance of C14: the matrix returned by `Matrix<T> A(2, 7)` on an empty free
store is valid, and still is after `A(0, 1) = 4`. -/
theorem shape_invariant_witness :
    (w0 : World Int Calls).heap.WF ∧
    Matrix.Valid (afterA (faultyEnv 0 0 0)).heap ⟨2, 0⟩ ∧
    Matrix.Valid (Matrix.put (afterA (faultyEnv 0 0 0)).heap ⟨2, 0⟩ 0 1 4) ⟨2, 0⟩ :=
  have h1 := ((shape_invariant (faultyEnv 0 0 0) (faultyAdd 0) w0 (World.empty_wf _)).1
    2 7 ⟨2, 0⟩ (afterA (faultyEnv 0 0 0)) rfl).2
  ⟨World.empty_wf _, h1,
    (shape_invariant (faultyEnv 0 0 0) (faultyAdd 0) (afterA (faultyEnv 0 0 0))
      afterA_valid.2).2.2.1 ⟨2, 0⟩ 0 1 4 h1⟩

end Invariants

/-! ## The class `MyInteger` and the function `main` of lines 194-210 -/

/-- C11 (the code falls short of its second half).  `Matrix<MyInteger> M(5)`
with the counter at 0 and an empty free store: the default argument is the
first `MyInteger`, the third element of the first row is the fourth, its
constructor throws `42`, and the construction ends with that exception, the
counter at 4.  The row given back by `new T [N]` is address 1; the row pointer
array, address 0, is still live afterwards, where nothing was live before.
With the guarded constructor body the same declaration ends with the same
exception and nothing is live. -/
theorem myInteger_ctor_leaks :
    (Matrix.ctorDefault MyInteger 5 (World.empty 0)).1 = .error (.thrownInt 42) ∧
    (Matrix.ctorDefault MyInteger 5 (World.empty 0)).2.st = 4 ∧
    (Matrix.ctorDefault MyInteger 5 (World.empty 0)).2.heap.live 0 ∧
    ¬ (Matrix.ctorDefault MyInteger 5 (World.empty 0)).2.heap.live 1 ∧
    (∀ a, ¬ (World.empty 0 : World Unit Int).heap.live a) ∧
    (Matrix.guardedCtorDefault MyInteger 5 (World.empty 0)).1 = .error (.thrownInt 42) ∧
    ∀ a, a < 2 → ¬ (Matrix.guardedCtorDefault MyInteger 5 (World.empty 0)).2.heap.live a := by
  refine ⟨rfl, rfl, by decide, by decide, fun a ha => absurd ha.1 (Nat.not_lt_zero a), rfl,
    by decide⟩

/-- A matrix declared as `Matrix<T> M(n);` has size `n`. -/
theorem Matrix.ctorDefault_size {T σ : Type} (env : Env T σ) (n : Nat) (w : World T σ)
    (M : Matrix) (w1 : World T σ) (hrun : Matrix.ctorDefault env n w = (.ok M, w1)) :
    M.size = n := by
  unfold Matrix.ctorDefault at hrun
  rcases hc : env.ctor w.st with ⟨s, _ | e⟩
  · rw [hc] at hrun
    simp only at hrun
    rw [((Matrix.ctor_spec env n env.dflt ⟨w.heap, s⟩ _ w1 hrun).2 M rfl).1]
    rfl
  · rw [hc] at hrun
    simp only [Prod.mk.injEq] at hrun
    cases hrun.1

/-- When nothing throws, a declaration `Matrix<T> M(n);` completes. -/
theorem Matrix.ctorDefault_noThrow {T σ : Type} (env : Env T σ) (nt : env.NoThrow) (n : Nat)
    (w : World T σ) : ∃ M w1, Matrix.ctorDefault env n w = (.ok M, w1) := by
  rcases hc : env.ctor w.st with ⟨s, _ | e⟩
  · rcases Matrix.ctor_noThrow env nt n env.dflt ⟨w.heap, s⟩ with ⟨M, w1, h⟩
    exact ⟨M, w1, by simp only [Matrix.ctorDefault, hc, h]⟩
  · have := (nt w.st).2.1
    rw [hc] at this
    cases this

/-- C19.  The `main` of lines 194-210, for every element type, element
addition and determinant test: when the declarations of `A(3)` and `B(17)`
complete, the statement `A += B` is the one that raises, the exception is
`DifferentSizeException{3, 17}`, and the handler that runs is the
`catch (const DifferentSizeException&)` one, not the `ZeroDeterminantException`
handler and not `catch (...)`; it prints the two sizes and rethrows.  The two
declarations do complete when no operation of the element type throws. -/
theorem main_raises_differentSize {T σ : Type} (env : Env T σ) (ops : AddOps T σ)
    (detZero : Bool) (w : World T σ) :
    (∀ A w1 B w2, Matrix.ctorDefault env 3 w = (.ok A, w1) →
      Matrix.ctorDefault env 17 w1 = (.ok B, w2) →
      main env ops detZero w =
        ⟨some .addAssign, some (.differentSize 3 17), some .differentSize,
          [.differentSizes 3 17], some (.differentSize 3 17)⟩) ∧
    (env.NoThrow →
      main env ops detZero w =
        ⟨some .addAssign, some (.differentSize 3 17), some .differentSize,
          [.differentSizes 3 17], some (.differentSize 3 17)⟩) := by
  have h1 : ∀ A w1 B w2, Matrix.ctorDefault env 3 w = (.ok A, w1) →
      Matrix.ctorDefault env 17 w1 = (.ok B, w2) →
      main env ops detZero w =
        ⟨some .addAssign, some (.differentSize 3 17), some .differentSize,
          [.differentSizes 3 17], some (.differentSize 3 17)⟩ := by
    intro A w1 B w2 hA hB
    have sA := Matrix.ctorDefault_size env 3 w A w1 hA
    have sB := Matrix.ctorDefault_size env 17 w1 B w2 hB
    have hne : A.size ≠ B.size := by rw [sA, sB]; decide
    have hadd := Matrix.addAssign_of_ne ops A B w2 hne
    rw [sA, sB] at hadd
    simp only [main, mainTry, hA, hB, hadd]
  refine ⟨h1, fun nt => ?_⟩
  rcases Matrix.ctorDefault_noThrow env nt 3 w with ⟨A, w1, hA⟩
  rcases Matrix.ctorDefault_noThrow env nt 17 w1 with ⟨B, w2, hB⟩
  exact h1 A w1 B w2 hA hB

/-- Instance of C19: with `int` elements, `main` ends in the
`DifferentSizeException` handler with the sizes 3 and 17. -/
theorem main_raises_differentSize_witness :
    intEnv.NoThrow ∧
    main intEnv intAdd false (World.empty ()) =
      ⟨some .addAssign, some (.differentSize 3 17), some .differentSize,
        [.differentSizes 3 17], some (.differentSize 3 17)⟩ :=
  ⟨intEnv_noThrow,
    (main_raises_differentSize intEnv intAdd false (World.empty ())).2 intEnv_noThrow⟩

/-! ## The common numbers of two sorted arrays -/

/-- What `std::set_intersection` writes is taken from the first range, in
order. -/
theorem set_intersection_sublist :
    ∀ (fuel : Nat) (l1 l2 : List Int), (set_intersection fuel l1 l2).Sublist l1 := by
  intro fuel
  induction fuel with
  | zero => intro l1 l2; simp [set_intersection]
  | succ fuel ih =>
    intro l1 l2
    cases l1 with
    | nil => simp [set_intersection]
    | cons a as =>
      cases l2 with
      | nil => simp [set_intersection]
      | cons b bs =>
        simp only [set_intersection]
        split
        · exact (ih as (b :: bs)).cons a
        · split
          · exact ih (a :: as) bs
          · exact (ih as bs).cons₂ a

/-- A number below the front of a sorted list does not occur in it. -/
theorem count_eq_zero_of_lt_head {x b : Int} {bs : List Int}
    (hs : (b :: bs).Sorted (fun p q => p ≤ q)) (hx : x < b) : (b :: bs).count x = 0 := by
  apply List.count_eq_zero_of_not_mem
  intro hm
  rcases List.mem_cons.1 hm with e | e
  · omega
  · have := (List.sorted_cons.1 hs).1 x e
    omega

/-- On sorted ranges, with fuel for every step, `std::set_intersection` writes
each number as often as it occurs in both ranges. -/
theorem set_intersection_count :
    ∀ (fuel : Nat) (l1 l2 : List Int), l1.length + l2.length ≤ fuel →
      l1.Sorted (fun p q => p ≤ q) → l2.Sorted (fun p q => p ≤ q) →
      ∀ x, (set_intersection fuel l1 l2).count x = min (l1.count x) (l2.count x) := by
  intro fuel
  induction fuel with
  | zero =>
    intro l1 l2 hf _ _ x
    have h1 : l1 = [] := List.length_eq_zero.1 (by omega)
    subst h1
    simp [set_intersection]
  | succ fuel ih =>
    intro l1 l2 hf s1 s2 x
    cases l1 with
    | nil => simp [set_intersection]
    | cons a as =>
      cases l2 with
      | nil => simp [set_intersection]
      | cons b bs =>
        have s1t := (List.sorted_cons.1 s1).2
        have s2t := (List.sorted_cons.1 s2).2
        simp only [List.length_cons] at hf
        simp only [set_intersection]
        split
        · rename_i hab
          rw [ih as (b :: bs) (by simp only [List.length_cons]; omega) s1t s2 x]
          by_cases hx : x = a
          · subst hx
            rw [count_eq_zero_of_lt_head s2 hab]
            simp
          · rw [List.count_cons_of_ne hx]
        · split
          · rename_i hab hba
            rw [ih (a :: as) bs (by simp only [List.length_cons]; omega) s1 s2t x]
            by_cases hx : x = b
            · subst hx
              rw [count_eq_zero_of_lt_head s1 hba]
              simp
            · rw [List.count_cons_of_ne hx]
          · rename_i hab hba
            have hab2 : a = b := by omega
            subst hab2
            by_cases hx : x = a
            · subst hx
              rw [List.count_cons_self, List.count_cons_self, List.count_cons_self,
                ih as bs (by omega) s1t s2t x]
              omega
            · rw [List.count_cons_of_ne hx, List.count_cons_of_ne hx, List.count_cons_of_ne hx,
                ih as bs (by omega) s1t s2t x]

/-- C18.  For vectors `v1` and `v2` sorted in non-decreasing order, the vector
`vec_intersection` returns is sorted in non-decreasing order and every
integer occurs in it as often as the smaller of its numbers of occurrences in
`v1` and in `v2`.  The arguments are received by reference to `const` and the
function is a function of their values alone. -/
theorem vec_intersection_spec (v1 v2 : List Int) (h1 : v1.Sorted (fun p q => p ≤ q))
    (h2 : v2.Sorted (fun p q => p ≤ q)) :
    (vec_intersection v1 v2).Sorted (fun p q => p ≤ q) ∧
    ∀ x, (vec_intersection v1 v2).count x = min (v1.count x) (v2.count x) :=
  ⟨List.Pairwise.sublist (set_intersection_sublist _ v1 v2) h1,
    set_intersection_count _ v1 v2 (le_refl _) h1 h2⟩

/-- Instance of C18: the common numbers of `1 2 2 3 5 5 5` and `2 2 2 5 5 7`
are `2 2 5 5`. -/
theorem vec_intersection_spec_witness :
    [1, 2, 2, 3, 5, 5, 5].Sorted (fun p q : Int => p ≤ q) ∧
    [2, 2, 2, 5, 5, 7].Sorted (fun p q : Int => p ≤ q) ∧
    vec_intersection [1, 2, 2, 3, 5, 5, 5] [2, 2, 2, 5, 5, 7] = [2, 2, 5, 5] ∧
    (vec_intersection [1, 2, 2, 3, 5, 5, 5] [2, 2, 2, 5, 5, 7]).count 5 = 2 :=
  have s1 : [1, 2, 2, 3, 5, 5, 5].Sorted (fun p q : Int => p ≤ q) := by decide
  have s2 : [2, 2, 2, 5, 5, 7].Sorted (fun p q : Int => p ≤ q) := by decide
  ⟨s1, s2, by decide,
    ((vec_intersection_spec [1, 2, 2, 3, 5, 5, 5] [2, 2, 2, 5, 5, 7] s1 s2).2 5).trans
      (by decide)⟩

end Lec21
